import Mathlib

/-!
The goloader function metadata builder, PC index and module registry.

A shallow embedding of `module.go`: `readFuncData` (the per-function metadata
builder together with the `findfuncbucket` index update) and the module chain
operations `addModule` / `removeModule`.

Conventions of the embedding.

* Go strings and byte slices are byte sequences: `List Nat`, each element a byte.
* Go `int` is modelled by `Int` / `Nat` without wrap-around (all `int` values
  here are lengths of slices or small multiples of them); conversions to
  `uint32`, `uint64` and `byte` are explicit reductions modulo `2^32`, `2^64`
  and `256`.
* Go maps are partial functions `key → Option value`.
* A run-time panic (nil dereference, index out of range) is the result `none`.
* Loops whose termination depends on the heap (`addModule`, `removeModule`)
  take a fuel argument; running out of fuel is also `none`.
* Code that `module.go` calls but does not define (`readAtSeeker`, `relocSym`,
  the constants `FILE_SYM_PREFIX` and `STKOBJ_SUFFIX`) is a field of `Env`.
-/

namespace Goloader

/-! ## Data model -/

/-- Go `string` / `[]byte`: a sequence of bytes. -/
abbrev GoString := List Nat

/-- Go map with string keys. -/
abbrev StrMap (α : Type) := GoString → Option α

/-- The assignment `m[k] = v`. -/
def StrMap.set {α : Type} (m : StrMap α) (k : GoString) (v : α) : StrMap α :=
  fun k' => if k' = k then some v else m k'

/-- The empty map. -/
def StrMap.empty {α : Type} : StrMap α := fun _ => none

/-- Bucket of the pc->func lookup table: `idx uint32`, `subbuckets [16]byte`. -/
structure findfuncbucket where
  idx : Nat
  subbuckets : Fin 16 → Nat

def minfunc : Nat := 16
def pcbucketsize : Nat := 256 * minfunc
def nsub : Nat := 16

/-- Record `goobj.Data`: a byte range of the object file (offsets and sizes of
an object file are lengths, modelled in `Nat`). -/
structure Data where
  Offset : Nat
  Size : Nat
deriving DecidableEq

/-- Record `goobj.SymID` (the version is not used by `module.go`). -/
structure SymID where
  Name : GoString
deriving DecidableEq

/-- Record `goobj.FuncData`: a reference to an auxiliary data symbol. -/
structure FuncDataRef where
  Sym : SymID
  Offset : Nat
deriving DecidableEq

/-- Record `goobj.Reloc`, kept abstract: `module.go` only copies the list. -/
structure Reloc where
  id : Nat
deriving DecidableEq

/-- Record `goobj.Func`, the fields read by `readFuncData`. -/
structure Func where
  File : List GoString
  PCSP : Data
  PCFile : Data
  PCLine : Data
  PCData : List Data
  FuncData : List FuncDataRef
deriving DecidableEq

/-- Record `goobj.Sym`, the fields read by `readFuncData`; `Func` is a pointer
(`none` is the nil pointer). -/
structure Sym where
  Name : GoString
  Data : Data
  Reloc : List Reloc
  Func : Option Func
deriving DecidableEq

/-- Entry of the symbol catalog: the symbol and the handle of its defining
file. A key missing from the catalog yields the zero entry, whose `sym`
pointer is nil. -/
structure objSym where
  sym : Sym
  file : Nat
deriving DecidableEq

/-- Modelled from the spec: `_func` and `init_func` are declared outside
`module.go`. The function record holds "entry address", "name (referenced by
offset)" and the "three independently-addressed table offsets"; the model keeps
exactly the arguments `init_func` is called with. -/
structure _func where
  entry : Int
  nameoff : Int
  pcsp : Int
  pcfile : Int
  pcln : Int
deriving DecidableEq

/-- Modelled from the spec: `init_func` fills the function record from the
offsets it is given (see `_func`). -/
def init_func (_symbol : Sym) (symOffset nameOff pcspOff pcfileOff pclnOff : Int) : _func :=
  { entry := symOffset, nameoff := nameOff, pcsp := pcspOff, pcfile := pcfileOff, pcln := pclnOff }

/-- The struct `funcData`. -/
structure funcData where
  func : _func
  Func : Option Func
  stkobjReloc : List Reloc
  Name : GoString
deriving DecidableEq

/-- The struct `module`. -/
structure module where
  pclntable : List Nat
  pcfunc : List findfuncbucket
  funcdata : List funcData
  filetab : List Nat

/-- The fields of `CodeReloc` used by `readFuncData`. A `[]byte` value of
`stkmaps` is `none` for the nil slice. -/
structure CodeReloc where
  module : module
  fileMap : StrMap Int
  stkmaps : StrMap (Option (List Nat))
  symMap : StrMap Int

/-- What `readFuncData` uses without defining it. -/
structure Env where
  /-- the cutset handed to `strings.TrimLeft` (an ASCII string) -/
  FILE_SYM_PREFIX : GoString
  /-- the marker searched with `strings.Contains` -/
  STKOBJ_SUFFIX : GoString
  /-- `readAtSeeker.ReadAtWithSize file size offset`: the bytes appended to the buffer -/
  ReadAtWithSize : Nat → Nat → Nat → List Nat
  /-- `readAtSeeker.ReadAt` on a fresh buffer of `size` bytes: the buffer afterwards -/
  ReadAt : Nat → Nat → Nat → List Nat
  /-- the relocation of one symbol -/
  relocSym : CodeReloc → GoString → StrMap objSym → CodeReloc

/-- Modelled from the spec: the constant `ZERO_BYTE` is declared outside
`module.go`; the string pool holds "NUL-terminated names and file paths". -/
def ZERO_BYTE : Nat := 0

/-- The empty module. -/
def module.empty : module :=
  { pclntable := [], pcfunc := [], funcdata := [], filetab := [] }

/-! ## Library functions -/

/-- Go `strings.TrimLeft` for an ASCII cutset: drop the leading bytes that
occur in the cutset. -/
def TrimLeft (s cutset : GoString) : GoString :=
  s.dropWhile (fun c => decide (c ∈ cutset))

/-- Go `strings.Contains`. -/
def Contains (s substr : GoString) : Bool :=
  decide (substr <:+: s)

/-- The loop of Go `binary.PutUvarint`, `for x >= 0x80 { buf[i] = byte(x) | 0x80;
x >>= 7; i++ }; buf[i] = byte(x)`, unrolled `n` times. -/
def PutUvarintLoop : Nat → Nat → List Nat
  | 0, x => [x % 256]
  | n + 1, x => if x < 128 then [x] else (x % 128 + 128) :: PutUvarintLoop n (x / 128)

/-- Go `binary.PutUvarint`: the bytes written for `x : uint64` (at most ten, so
nine rounds of the loop suffice). -/
def PutUvarint (x : Nat) : List Nat :=
  PutUvarintLoop 9 x

/-- The bytes of the message prefix "unknown gcobj:". -/
def unknownGcobj : GoString :=
  [117, 110, 107, 110, 111, 119, 110, 32, 103, 99, 111, 98, 106, 58]

/-! ## readFuncData -/

/-- Lines 115-118: the loop `for lb := b - len(pcfunc); lb >= 0; lb--` runs
`n` times, each time appending a bucket whose `idx` is
`uint32(256 * len(module.pcfunc))`. -/
def growPcfunc : Nat → List findfuncbucket → List findfuncbucket
  | 0, pcfunc => pcfunc
  | n + 1, pcfunc =>
    growPcfunc n (pcfunc ++ [{ idx := (256 * pcfunc.length) % 2 ^ 32, subbuckets := fun _ => 0 }])

/-- Lines 112-120: the index update. Go integer division truncates towards
zero; `pcfunc[b]` and `subbuckets[i]` panic when the index is out of range;
`byte(n)` keeps the low eight bits. -/
def updateIndex (m : module) (codeLen : Int) : Option module :=
  let x := codeLen
  let b := Int.tdiv x pcbucketsize
  let i := Int.tdiv (Int.tmod x pcbucketsize) ((pcbucketsize / nsub : Nat) : Int)
  let pcfunc := growPcfunc (b - m.pcfunc.length + 1).toNat m.pcfunc
  if b < 0 then none
  else
    match pcfunc[b.toNat]? with
    | none => none
    | some bucket =>
      if 0 ≤ i ∧ i < (nsub : Int) then
        let v := (((m.funcdata.length : Int) - (bucket.idx : Int)) % 256).toNat
        some { m with
          pcfunc := pcfunc.set b.toNat
            { bucket with subbuckets := Function.update bucket.subbuckets (Fin.ofNat i.toNat) v } }
      else none

/-- Lines 125-133: the body of the file loop for one declared file name. -/
def fileStep (env : Env) (r : CodeReloc) (fileName : GoString) : CodeReloc :=
  let fileName := TrimLeft fileName env.FILE_SYM_PREFIX
  match r.fileMap fileName with
  | none =>
    { r with
      module := { r.module with
        filetab := r.module.filetab ++ [r.module.pclntable.length % 2 ^ 32]
        pclntable := r.module.pclntable ++ fileName ++ [ZERO_BYTE] }
      fileMap := r.fileMap.set fileName r.module.pclntable.length }
  | some offset =>
    { r with
      module := { r.module with
        filetab := r.module.filetab ++ [(offset % 2 ^ 32).toNat] } }

/-- Lines 124-134: the file loop. -/
def fileLoop (env : Env) (r : CodeReloc) (files : List GoString) : CodeReloc :=
  files.foldl (fileStep env) r

/-- Lines 122-123 and 144: `pcFileHead[:pcFileHeadSize-1]` for a file table of
`n` entries. -/
def pcFileHead (n : Nat) : List Nat :=
  (PutUvarint ((n * 2) % 2 ^ 64)).dropLast

/-- Lines 152-154: the bytes of the PCData tables. -/
def pcdataBytes (env : Env) (file : Nat) (ds : List Data) : List Nat :=
  (ds.map (fun d => env.ReadAtWithSize file d.Size d.Offset)).flatten

/-- Lines 136-154: what the function appends to `pclntable` after its file
names: name, NUL, PCSP table, PCFile head and table, PCLine table, PCData
tables. `nfiles` is `len(module.filetab)` on entry of `readFuncData`. -/
def funcPayload (env : Env) (os : objSym) (fn : Func) (nfiles : Nat) : List Nat :=
  os.sym.Name ++ [ZERO_BYTE]
    ++ env.ReadAtWithSize os.file fn.PCSP.Size fn.PCSP.Offset
    ++ pcFileHead nfiles
    ++ env.ReadAtWithSize os.file fn.PCFile.Size fn.PCFile.Offset
    ++ env.ReadAtWithSize os.file fn.PCLine.Size fn.PCLine.Offset
    ++ pcdataBytes env os.file fn.PCData

/-- State of the loop of lines 156-171. -/
structure GcState where
  stkmaps : StrMap (Option (List Nat))
  err : Option GoString
  stkobjReloc : List Reloc

/-- Lines 157-167: the cache fill for one reference. -/
def fillStkmap (env : Env) (objSymMap : StrMap objSym) (s : GcState) (name : GoString) : GcState :=
  match s.stkmaps name with
  | some _ => s
  | none =>
    match objSymMap name with
    | some gcobj =>
      { s with stkmaps :=
          s.stkmaps.set name (some (env.ReadAt gcobj.file gcobj.sym.Data.Size gcobj.sym.Data.Offset)) }
    | none =>
      if name.length = 0 then { s with stkmaps := s.stkmaps.set name none }
      else { s with err := some (unknownGcobj ++ name) }

/-- Lines 156-171: the loop over `symbol.Func.FuncData`. Line 169 dereferences
`objSymMap[name].sym`, which is nil when the name is not in the catalog. -/
def gcLoop (env : Env) (objSymMap : StrMap objSym) : List FuncDataRef → GcState → Option GcState
  | [], s => some s
  | data :: rest, s =>
    let s1 := fillStkmap env objSymMap s data.Sym.Name
    if Contains data.Sym.Name env.STKOBJ_SUFFIX then
      match objSymMap data.Sym.Name with
      | none => none
      | some o => gcLoop env objSymMap rest { s1 with stkobjReloc := o.sym.Reloc }
    else gcLoop env objSymMap rest s1

/-- Lines 177-181: the relocation of the auxiliary symbols of the catalog. -/
def relocLoop (env : Env) (objSymMap : StrMap objSym) : List FuncDataRef → CodeReloc → CodeReloc
  | [], r => r
  | data :: rest, r =>
    match objSymMap data.Sym.Name with
    | some _ => relocLoop env objSymMap rest (env.relocSym r data.Sym.Name objSymMap)
    | none => relocLoop env objSymMap rest r

/-- Offset stored in `reloc.symMap` (zero for a missing key). -/
def symOffset (r : CodeReloc) (symName : GoString) : Int :=
  (r.symMap symName).getD 0

/-- The function `readFuncData`: the new state of `reloc` and the returned
error; `none` when the call panics. -/
def readFuncData (env : Env) (reloc : CodeReloc) (symName : GoString)
    (objSymMap : StrMap objSym) (codeLen : Int) : Option (CodeReloc × Option GoString) :=
  match updateIndex reloc.module codeLen with
  | none => none
  | some m1 =>
    match objSymMap symName with
    | none => none
    | some os =>
      match os.sym.Func with
      | none => none
      | some fn =>
        let symbol := os.sym
        let nfiles := m1.filetab.length
        let r2 := fileLoop env { reloc with module := m1 } fn.File
        let nameOff := r2.module.pclntable.length
        let p1 := r2.module.pclntable ++ symbol.Name ++ [ZERO_BYTE]
        let pcspOff := p1.length
        let p2 := p1 ++ env.ReadAtWithSize os.file fn.PCSP.Size fn.PCSP.Offset
        let pcfileOff := p2.length
        let p3 := p2 ++ pcFileHead nfiles ++ env.ReadAtWithSize os.file fn.PCFile.Size fn.PCFile.Offset
        let pclnOff := p3.length
        let p4 := p3 ++ env.ReadAtWithSize os.file fn.PCLine.Size fn.PCLine.Offset
        let f := init_func symbol (symOffset r2 symName) nameOff pcspOff pcfileOff pclnOff
        let p5 := p4 ++ pcdataBytes env os.file fn.PCData
        match gcLoop env objSymMap fn.FuncData
            { stkmaps := r2.stkmaps, err := none, stkobjReloc := [] } with
        | none => none
        | some g =>
          let fd : funcData :=
            { func := f, Func := symbol.Func, stkobjReloc := g.stkobjReloc, Name := symbol.Name }
          let r3 : CodeReloc :=
            { r2 with
              module := { r2.module with pclntable := p5, funcdata := r2.module.funcdata ++ [fd] }
              stkmaps := g.stkmaps }
          some (relocLoop env objSymMap fn.FuncData r3, g.err)

/-- Runs `readFuncData` for a list of `(symName, codeLen)` in order, as the
loader does for the functions of a module (the state is passed on whatever
error a call returned). -/
def readFuncDataSeq (env : Env) (objSymMap : StrMap objSym) :
    List (GoString × Int) → CodeReloc → Option CodeReloc
  | [], r => some r
  | (symName, codeLen) :: rest, r =>
    match readFuncData env r symName objSymMap codeLen with
    | none => none
    | some (r1, _) => readFuncDataSeq env objSymMap rest r1

/-- The state of a load operation before the first function. -/
def CodeReloc.empty : CodeReloc :=
  { module := module.empty, fileMap := StrMap.empty, stkmaps := StrMap.empty,
    symMap := StrMap.empty }

/-! ## The pc lookup of the `findfuncbucket` comment -/

/-- Modelled from the spec: the lookup itself (`runtime.findfunc`) belongs to
the host runtime. The comment on `findfuncbucket` reads "locate the bucket and
subbucket for that pc. Add together the idx and subbucket value to obtain a
function index": this is that index, `none` when the bucket does not exist. -/
def findfuncIndex (pcfunc : List findfuncbucket) (pc : Nat) : Option Nat :=
  match pcfunc[pc / pcbucketsize]? with
  | none => none
  | some bucket =>
    some (bucket.idx + bucket.subbuckets (Fin.ofNat (pc % pcbucketsize / (pcbucketsize / nsub))))

/-- Modelled from the spec: "Then scan the functab array starting at that index
to find the target function". The function table is the list of
`(entry, length)` of the function records, in record order; the scan goes
forward from `start` and returns the index of the first record whose address
range holds `pc`. -/
def scanFunctab (ftab : List (Nat × Nat)) (pc start : Nat) : Option Nat :=
  ((ftab.enum.drop start).find? (fun e => decide (e.2.1 ≤ pc ∧ pc < e.2.1 + e.2.2))).map
    (fun e => e.1)

/-- Modelled from the spec: the whole lookup of the `findfuncbucket` comment. -/
def findfunc (pcfunc : List findfuncbucket) (ftab : List (Nat × Nat)) (pc : Nat) : Option Nat :=
  match findfuncIndex pcfunc pc with
  | none => none
  | some start => scanFunctab ftab pc start

/-! ## Module registry -/

/-- Pointer `*moduledata`; `none` is nil. -/
abbrev Ptr := Option Nat

/-- Value of type `interface{}` as `removeModule` uses it: a `*moduledata`
pointer, a value of another dynamic type that can be a map key (nil
included), or a value of a dynamic type that cannot be hashed (slice, map,
func). -/
inductive Iface where
  | moduledata (p : Ptr)
  | other (v : Nat)
  | unhashable (v : Nat)
deriving DecidableEq

/-- Whether the value can be a key of the map `modules`: `delete` panics on a
key whose dynamic type cannot be hashed. -/
def Iface.hashable : Iface → Bool
  | Iface.moduledata _ => true
  | Iface.other _ => true
  | Iface.unhashable _ => false

/-- The global state of the registry: the `next` field of the `moduledata` at
each address, and the map `modules`. -/
structure Registry where
  next : Nat → Ptr
  modules : Iface → Option Bool

/-- The field of `CodeModule` written by `addModule`. -/
structure CodeModule where
  module : Ptr
deriving DecidableEq

/-- Address of the global `firstmoduledata`. -/
def firstmoduledata : Nat := 0

/-- Lines 187-193: the walk to the last node; `datap` is never nil. -/
def addModuleLoop (aModule : Ptr) : Nat → (Nat → Ptr) → Nat → Option (Nat → Ptr)
  | 0, _, _ => none
  | fuel + 1, next, datap =>
    match next datap with
    | none => some (Function.update next datap aModule)
    | some p => addModuleLoop aModule fuel next p

/-- The function `addModule`. -/
def addModule (fuel : Nat) (g : Registry) (codeModule : CodeModule) (aModule : Ptr) :
    Option (Registry × CodeModule) :=
  let modules := Function.update g.modules (Iface.moduledata aModule) (some true)
  match addModuleLoop aModule fuel g.next firstmoduledata with
  | none => none
  | some next => some ({ next := next, modules := modules }, { codeModule with module := aModule })

/-- Lines 199-206: the walk that looks for `module`. -/
def removeModuleLoop (module : Iface) : Nat → (Nat → Ptr) → Nat → Ptr → Option (Nat → Ptr)
  | _, next, _, none => some next
  | 0, _, _, some _ => none
  | fuel + 1, next, prevp, some datap =>
    if Iface.moduledata (some datap) = module then
      some (Function.update next prevp (next datap))
    else removeModuleLoop module fuel next datap (next datap)

/-- The function `removeModule`: the walk, then `delete(modules, module)` of
line 207, which panics when the dynamic type of `module` cannot be hashed. The
comparison `datap == module` of line 200 is false for such a value (the
dynamic types differ) and does not panic. -/
def removeModule (fuel : Nat) (g : Registry) (module : Iface) : Option Registry :=
  match removeModuleLoop module fuel g.next firstmoduledata (some firstmoduledata) with
  | none => none
  | some next =>
    if module.hashable then
      some { next := next, modules := Function.update g.modules module none }
    else none

/-- The chain reachable from `p` through `next` is the finite list `l` (it
ends at a nil `next`). -/
def Chain (next : Nat → Ptr) : Ptr → List Nat → Prop
  | p, [] => p = none
  | p, a :: l => p = some a ∧ Chain next (next a) l

instance Chain.decide (next : Nat → Ptr) : (p : Ptr) → (l : List Nat) → Decidable (Chain next p l)
  | p, [] => inferInstanceAs (Decidable (p = none))
  | p, a :: l =>
    have := Chain.decide next (next a) l
    inferInstanceAs (Decidable (p = some a ∧ Chain next (next a) l))

/-! ## Predicates of the claims -/

/-- The state of `reloc` at line 176 of `readFuncData`, before the relocation
loop: `m1` is the module after the index update, `g` the result of the loop
over the auxiliary references, `fd` the appended record. -/
def beforeReloc (env : Env) (reloc : CodeReloc) (m1 : module) (os : objSym) (fn : Func)
    (g : GcState) (fd : funcData) : CodeReloc :=
  { fileLoop env { reloc with module := m1 } fn.File with
    module :=
      { (fileLoop env { reloc with module := m1 } fn.File).module with
        pclntable := (fileLoop env { reloc with module := m1 } fn.File).module.pclntable
          ++ funcPayload env os fn reloc.module.filetab.length
        funcdata := reloc.module.funcdata ++ [fd] }
    stkmaps := g.stkmaps }


/-- The base index of bucket `k` is `256 * k`. -/
def BaseIndexInv (pcfunc : List findfuncbucket) : Prop :=
  ∀ (k : Nat) (bucket : findfuncbucket), pcfunc[k]? = some bucket → bucket.idx = 256 * k

/-- The cache `reloc.stkmaps` at the time the loop of lines 156-171 reaches
reference number `k`: the cache after the loop has processed the first `k`
references. -/
def cacheAt (env : Env) (objSymMap : StrMap objSym) (refs : List FuncDataRef)
    (stkmaps : StrMap (Option (List Nat))) (k : Nat) : Option (StrMap (Option (List Nat))) :=
  (gcLoop env objSymMap (refs.take k) { stkmaps := stkmaps, err := none, stkobjReloc := [] }).map
    (fun g => g.stkmaps)

/-- The payloads (`funcPayload`) of the functions of a sequence of calls, one
after the other, when the first call finds `nfiles` entries in the file table
and every call adds one entry. -/
def payloadsFrom (env : Env) (objSymMap : StrMap objSym) : List (GoString × Nat) → Nat → List Nat
  | [], _ => []
  | (symName, _) :: rest, nfiles =>
    (match objSymMap symName with
      | some os =>
        match os.sym.Func with
        | some fn => funcPayload env os fn nfiles
        | none => []
      | none => [])
      ++ payloadsFrom env objSymMap rest (nfiles + 1)

/-- The calls of a sequence as `readFuncDataSeq` takes them. -/
def toCalls (calls : List (GoString × Nat)) : List (GoString × Int) :=
  calls.map (fun c => (c.1, (c.2 : Int)))

/-! ## Well-formed calls -/

/-- The relocation of a symbol leaves the metadata tables of the load
operation alone: `relocSym` works on code and data, not on `module`, `fileMap`
or `stkmaps`. -/
def RelocSymFrame (env : Env) : Prop :=
  ∀ (r : CodeReloc) (name : GoString) (objSymMap : StrMap objSym),
    (env.relocSym r name objSymMap).module = r.module
      ∧ (env.relocSym r name objSymMap).fileMap = r.fileMap
      ∧ (env.relocSym r name objSymMap).stkmaps = r.stkmaps

/-- Every reference whose name holds `STKOBJ_SUFFIX` is in the catalog, so
that line 169 does not dereference nil. -/
def StkobjKnown (env : Env) (objSymMap : StrMap objSym) (refs : List FuncDataRef) : Prop :=
  ∀ d ∈ refs, Contains d.Sym.Name env.STKOBJ_SUFFIX = true → (objSymMap d.Sym.Name).isSome = true

/-- The symbol is a function of the catalog: `objSymMap[symName].sym` and its
`Func` are not nil. -/
def IsFunc (objSymMap : StrMap objSym) (symName : GoString) (os : objSym) (fn : Func) : Prop :=
  objSymMap symName = some os ∧ os.sym.Func = some fn

/-- The function record that line 175 appends: `init_func` applied to the
offsets of lines 136-147, the `Func` pointer, the relocations of the
stack-object symbol and the name. `m1` is the module after the index update,
`g` the result of the loop over the auxiliary references. -/
def recordOf (env : Env) (reloc : CodeReloc) (symName : GoString) (m1 : module) (os : objSym)
    (fn : Func) (g : GcState) : funcData :=
  let r2 := fileLoop env { reloc with module := m1 } fn.File
  let nameOff := r2.module.pclntable.length
  let p1 := r2.module.pclntable ++ os.sym.Name ++ [ZERO_BYTE]
  let pcspOff := p1.length
  let p2 := p1 ++ env.ReadAtWithSize os.file fn.PCSP.Size fn.PCSP.Offset
  let pcfileOff := p2.length
  let p3 := p2 ++ pcFileHead m1.filetab.length
    ++ env.ReadAtWithSize os.file fn.PCFile.Size fn.PCFile.Offset
  let pclnOff := p3.length
  { func := init_func os.sym (symOffset r2 symName) nameOff pcspOff pcfileOff pclnOff
    Func := os.sym.Func
    stkobjReloc := g.stkobjReloc
    Name := os.sym.Name }

/-- The predicate of the file table: every offset of `fileMap` is a position
of the pool at which the mapped name and a NUL byte stand, and every entry of
the file table is the offset of some name of `fileMap`. -/
def FileInv (fileMap : StrMap Int) (pclntable filetab : List Nat) : Prop :=
  (∀ (n : GoString) (off : Int), fileMap n = some off →
      0 ≤ off ∧ (pclntable.drop off.toNat).take (n.length + 1) = n ++ [ZERO_BYTE])
    ∧ ∀ e ∈ filetab, ∃ n, fileMap n = some (e : Int)

/-- The unsigned varint encoding of a natural number: seven bits per byte,
least significant group first, the bit `0x80` set on every byte but the
last. -/
def uvarintEncode (x : Nat) : List Nat :=
  if h : x < 128 then [x] else (x % 128 + 128) :: uvarintEncode (x / 128)
termination_by x
decreasing_by omega


/-- What one round of the file loop (lines 125-133) does: the trimmed name
that is looked up in `fileMap`, the entry appended to `filetab`, whether the
name and its NUL byte were appended to the pool (lines 129-130), and
`len(module.pclntable)` before the round. -/
structure FileEvent where
  name : GoString
  entry : Nat
  appended : Bool
  poolLen : Nat
deriving DecidableEq

/-- The event of one round of the file loop, by the two branches of line 126. -/
def fileStepEvent (env : Env) (r : CodeReloc) (fileName : GoString) : FileEvent :=
  let fileName := TrimLeft fileName env.FILE_SYM_PREFIX
  match r.fileMap fileName with
  | none =>
    { name := fileName, entry := r.module.pclntable.length % 2 ^ 32, appended := true,
      poolLen := r.module.pclntable.length }
  | some offset =>
    { name := fileName, entry := (offset % 2 ^ 32).toNat, appended := false,
      poolLen := r.module.pclntable.length }

/-- The events of the file loop, one per declared file, in order; the state
passes through `fileStep`. -/
def fileLoopEvents (env : Env) : CodeReloc → List GoString → List FileEvent
  | _, [] => []
  | r, f :: fs => fileStepEvent env r f :: fileLoopEvents env (fileStep env r f) fs

/-- The events of the file loop of one call of `readFuncData`. -/
def callEvents (env : Env) (reloc : CodeReloc) (symName : GoString) (objSymMap : StrMap objSym)
    (codeLen : Int) : List FileEvent :=
  match updateIndex reloc.module codeLen with
  | none => []
  | some m1 =>
    match objSymMap symName with
    | none => []
    | some os =>
      match os.sym.Func with
      | none => []
      | some fn => fileLoopEvents env { reloc with module := m1 } fn.File

/-- The events of the file loops of a sequence of calls, in order. -/
def seqEvents (env : Env) (objSymMap : StrMap objSym) :
    List (GoString × Int) → CodeReloc → List FileEvent
  | [], _ => []
  | (symName, codeLen) :: rest, r =>
    match readFuncData env r symName objSymMap codeLen with
    | none => callEvents env r symName objSymMap codeLen
    | some (r1, _) =>
      callEvents env r symName objSymMap codeLen ++ seqEvents env objSymMap rest r1


/-- The bytes a round of the file loop appends to the pool: the name and its
NUL byte when the event appends, nothing otherwise. -/
def eventBytes (e : FileEvent) : List Nat :=
  if e.appended then e.name ++ [ZERO_BYTE] else []

/-- The bytes a sequence of calls appends to the pool: for every call the
bytes of the events of its file loop, then the payload of the function. -/
def seqPoolBytes (env : Env) (objSymMap : StrMap objSym) :
    List (GoString × Int) → CodeReloc → List Nat
  | [], _ => []
  | (symName, codeLen) :: rest, r =>
    match readFuncData env r symName objSymMap codeLen, objSymMap symName with
    | some (r1, _), some os =>
      match os.sym.Func with
      | some fn =>
        ((callEvents env r symName objSymMap codeLen).map eventBytes).flatten
          ++ funcPayload env os fn r.module.filetab.length
          ++ seqPoolBytes env objSymMap rest r1
      | none => []
    | _, _ => []


/-! ## Sample inputs -/

/-- A sample environment: cutset "gofile..", marker ".stkobj", reads that
yield zero bytes, a relocation that leaves the tables alone. -/
def sampleEnv : Env :=
  { FILE_SYM_PREFIX := [103, 111, 102, 105, 108, 101, 46, 46]
    STKOBJ_SUFFIX := [46, 115, 116, 107, 111, 98, 106]
    ReadAtWithSize := fun _ size _ => List.replicate size 0
    ReadAt := fun _ size _ => List.replicate size 0
    relocSym := fun r _ _ => r }

/-- A function symbol with `size` bytes of code and the given name, files and
auxiliary references. -/
def sampleSym (name : GoString) (size : Nat) (files : List GoString) (refs : List FuncDataRef) :
    objSym :=
  { sym :=
      { Name := name, Data := { Offset := 0, Size := size }, Reloc := [],
        Func := some
          { File := files, PCSP := { Offset := 0, Size := 2 }, PCFile := { Offset := 2, Size := 1 },
            PCLine := { Offset := 3, Size := 1 }, PCData := [], FuncData := refs } }
    file := 1 }

/-- The file name "gofile..a.go". -/
def sampleFile : GoString := [103, 111, 102, 105, 108, 101, 46, 46, 97, 46, 103, 111]

/-- An auxiliary data symbol "x": four bytes at offset 8 of file 2. -/
def sampleAux : objSym :=
  { sym := { Name := [120], Data := { Offset := 8, Size := 4 }, Reloc := [], Func := none }
    file := 2 }

/-- A catalog with the functions "f" (4096 bytes of code) and "g" (16 bytes),
both of file "gofile..a.go" and without auxiliary reference, the function
"h" (16 bytes) that references the auxiliary symbol with the empty name, the
auxiliary symbol "x", and the functions "p" and "q" that both reference "x";
"u" references the symbol "y", which the catalog does not have. -/
def sampleCatalog : StrMap objSym :=
  ((((((StrMap.empty.set [102] (sampleSym [102] 4096 [sampleFile] [])).set
    [103] (sampleSym [103] 16 [sampleFile] [])).set
    [104] (sampleSym [104] 16 [] [{ Sym := { Name := [] }, Offset := 0 }])).set
    [120] sampleAux).set
    [112] (sampleSym [112] 16 [] [{ Sym := { Name := [120] }, Offset := 0 }])).set
    [113] (sampleSym [113] 16 [] [{ Sym := { Name := [120] }, Offset := 0 }])).set
    [117] (sampleSym [117] 16 [] [{ Sym := { Name := [121] }, Offset := 0 }])

/-- The file names "gofile..b.go" and "gofile..file.go". -/
def sampleFileB : GoString := [103, 111, 102, 105, 108, 101, 46, 46, 98, 46, 103, 111]

def sampleFileGo : GoString :=
  [103, 111, 102, 105, 108, 101, 46, 46, 102, 105, 108, 101, 46, 103, 111]

/-- A catalog with the function "m" that declares the files "gofile..b.go"
and "gofile..a.go", the function "n" that declares them in the other order,
and the function "k" that declares the file "gofile..file.go". -/
def sampleCatalog2 : StrMap objSym :=
  ((StrMap.empty.set [109] (sampleSym [109] 16 [sampleFileB, sampleFile] [])).set
    [110] (sampleSym [110] 16 [sampleFile, sampleFileB] [])).set
    [107] (sampleSym [107] 16 [sampleFileGo] [])

/-- A registry with the chain `firstmoduledata -> 1 -> 2`. -/
def sampleRegistry : Registry :=
  { next := fun a => if a = 0 then some 1 else if a = 1 then some 2 else none
    modules := fun k =>
      if k = Iface.moduledata (some 1) then some true
      else if k = Iface.moduledata (some 2) then some true else none }

end Goloader

/-! ## Theorems -/

namespace Goloader

/-! ### The bucket table -/

/-- The bucket the growth loop creates at position `k`. -/
theorem growPcfunc_eq (n : Nat) (l : List findfuncbucket) :
    growPcfunc n l = l ++ (List.range n).map
      (fun j => ({ idx := (256 * (l.length + j)) % 2 ^ 32, subbuckets := fun _ => 0 } : findfuncbucket)) := by
  induction n generalizing l with
  | zero => simp [growPcfunc]
  | succ n ih =>
    rw [growPcfunc, ih, List.range_succ_eq_map]
    simp [List.map_map, Function.comp_def, Nat.add_assoc, Nat.add_comm 1]

theorem growPcfunc_length (n : Nat) (l : List findfuncbucket) :
    (growPcfunc n l).length = l.length + n := by
  simp [growPcfunc_eq]

theorem growPcfunc_old (n : Nat) (l : List findfuncbucket) (k : Nat) (hk : k < l.length) :
    (growPcfunc n l)[k]? = l[k]? := by
  rw [growPcfunc_eq, List.getElem?_append_left hk]

theorem growPcfunc_new (n : Nat) (l : List findfuncbucket) (k : Nat) (hk : l.length ≤ k)
    (hk2 : k < l.length + n) :
    (growPcfunc n l)[k]? = some { idx := (256 * k) % 2 ^ 32, subbuckets := fun _ => 0 } := by
  rw [growPcfunc_eq, List.getElem?_append_right hk]
  have h1 : k - l.length < n := by omega
  simp [List.getElem?_map, List.getElem?_range h1]
  omega

/-- For a code length that is not negative the index update does not panic:
the bucket `codeLen / 4096` exists after the growth loop and slot
`codeLen mod 4096 / 256` is written. -/
theorem updateIndex_ofNat (m : module) (n : Nat) :
    ∃ bucket, (growPcfunc (n / 4096 + 1 - m.pcfunc.length) m.pcfunc)[n / 4096]? = some bucket ∧
      updateIndex m (n : Int) = some { m with
        pcfunc := (growPcfunc (n / 4096 + 1 - m.pcfunc.length) m.pcfunc).set (n / 4096)
          { bucket with
            subbuckets := Function.update bucket.subbuckets (Fin.ofNat (n % 4096 / 256))
              (((m.funcdata.length : Int) - (bucket.idx : Int)) % 256).toNat } } := by
  have hb : Int.tdiv (n : Int) ((pcbucketsize : Nat) : Int) = ((n / 4096 : Nat) : Int) := by
    rw [← Int.ofNat_tdiv]; rfl
  have hi : Int.tdiv (Int.tmod (n : Int) ((pcbucketsize : Nat) : Int)) ((pcbucketsize / nsub : Nat) : Int)
      = ((n % 4096 / 256 : Nat) : Int) := by
    rw [← Int.ofNat_tmod, ← Int.ofNat_tdiv]; rfl
  have hcnt : ((n / 4096 : Nat) : Int) - (m.pcfunc.length : Int) + 1
      = ((n / 4096 + 1 : Nat) : Int) - (m.pcfunc.length : Int) := by push_cast; ring
  have hlen : n / 4096 < (growPcfunc (n / 4096 + 1 - m.pcfunc.length) m.pcfunc).length := by
    rw [growPcfunc_length]; omega
  refine ⟨(growPcfunc (n / 4096 + 1 - m.pcfunc.length) m.pcfunc)[n / 4096], ?_, ?_⟩
  · exact List.getElem?_eq_getElem hlen
  · have hi2 : (n % 4096 / 256 : Nat) < 16 := by omega
    have hlt : ((n % 4096 / 256 : Nat) : Int) < ((nsub : Nat) : Int) := by
      have : nsub = 16 := rfl
      rw [this]; exact_mod_cast hi2
    simp only [updateIndex, hb, hi, hcnt, Int.toNat_ofNat, Int.toNat_sub]
    rw [List.getElem?_eq_getElem hlen]
    simp [hlt]
    omega

/-! ### The phases of `readFuncData` -/

/-- A file name that is not in `fileMap` is appended to the pool and mapped to
its offset. -/
theorem fileStep_miss (env : Env) (r : CodeReloc) (f : GoString)
    (h : r.fileMap (TrimLeft f env.FILE_SYM_PREFIX) = none) :
    fileStep env r f =
      { r with
        module := { r.module with
          filetab := r.module.filetab ++ [r.module.pclntable.length % 2 ^ 32]
          pclntable := r.module.pclntable ++ TrimLeft f env.FILE_SYM_PREFIX ++ [ZERO_BYTE] }
        fileMap := r.fileMap.set (TrimLeft f env.FILE_SYM_PREFIX) r.module.pclntable.length } := by
  simp only [fileStep, h]

/-- A file name that is in `fileMap` only yields a file table entry. -/
theorem fileStep_hit (env : Env) (r : CodeReloc) (f : GoString) (offset : Int)
    (h : r.fileMap (TrimLeft f env.FILE_SYM_PREFIX) = some offset) :
    fileStep env r f =
      { r with
        module := { r.module with
          filetab := r.module.filetab ++ [(offset % 2 ^ 32).toNat] } } := by
  simp only [fileStep, h]

theorem fileStep_frame (env : Env) (r : CodeReloc) (f : GoString) :
    (fileStep env r f).stkmaps = r.stkmaps ∧ (fileStep env r f).symMap = r.symMap
      ∧ (fileStep env r f).module.pcfunc = r.module.pcfunc
      ∧ (fileStep env r f).module.funcdata = r.module.funcdata := by
  cases h : r.fileMap (TrimLeft f env.FILE_SYM_PREFIX) with
  | none => rw [fileStep_miss env r f h]; simp
  | some offset => rw [fileStep_hit env r f offset h]; simp

theorem fileLoop_frame (env : Env) (files : List GoString) (r : CodeReloc) :
    (fileLoop env r files).stkmaps = r.stkmaps ∧ (fileLoop env r files).symMap = r.symMap
      ∧ (fileLoop env r files).module.pcfunc = r.module.pcfunc
      ∧ (fileLoop env r files).module.funcdata = r.module.funcdata := by
  induction files generalizing r with
  | nil => simp [fileLoop]
  | cons f fs ih =>
    have h1 := fileStep_frame env r f
    have h2 := ih (fileStep env r f)
    simp only [fileLoop, List.foldl_cons] at h2 ⊢
    refine ⟨h2.1.trans h1.1, h2.2.1.trans h1.2.1, h2.2.2.1.trans h1.2.2.1, h2.2.2.2.trans h1.2.2.2⟩

theorem relocLoop_frame (env : Env) (hframe : RelocSymFrame env) (objSymMap : StrMap objSym)
    (refs : List FuncDataRef) (r : CodeReloc) :
    (relocLoop env objSymMap refs r).module = r.module
      ∧ (relocLoop env objSymMap refs r).fileMap = r.fileMap
      ∧ (relocLoop env objSymMap refs r).stkmaps = r.stkmaps := by
  induction refs generalizing r with
  | nil => simp [relocLoop]
  | cons d ds ih =>
    simp only [relocLoop]
    cases objSymMap d.Sym.Name with
    | none => exact ih r
    | some o =>
      have h1 := hframe r d.Sym.Name objSymMap
      have h2 := ih (env.relocSym r d.Sym.Name objSymMap)
      exact ⟨h2.1.trans h1.1, h2.2.1.trans h1.2.1, h2.2.2.trans h1.2.2⟩

/-- The loop over the auxiliary references does not panic when the references
that carry the stack-object marker are in the catalog. -/
theorem gcLoop_some (env : Env) (objSymMap : StrMap objSym) (refs : List FuncDataRef)
    (hs : StkobjKnown env objSymMap refs) (s : GcState) :
    ∃ g, gcLoop env objSymMap refs s = some g := by
  induction refs generalizing s with
  | nil => exact ⟨s, rfl⟩
  | cons d ds ih =>
    have hds : StkobjKnown env objSymMap ds := fun x hx => hs x (List.mem_cons_of_mem _ hx)
    simp only [gcLoop]
    by_cases hc : Contains d.Sym.Name env.STKOBJ_SUFFIX = true
    · have hk := hs d (List.mem_cons_self _ _) hc
      rw [if_pos hc]
      cases ho : objSymMap d.Sym.Name with
      | none => rw [ho] at hk; simp at hk
      | some o => exact ih hds _
    · rw [if_neg hc]
      exact ih hds _

/-- The index update touches the bucket table only. -/
theorem updateIndex_fields (m m1 : module) (codeLen : Int) (h : updateIndex m codeLen = some m1) :
    m1.pclntable = m.pclntable ∧ m1.funcdata = m.funcdata ∧ m1.filetab = m.filetab := by
  unfold updateIndex at h
  simp only [] at h
  split at h
  · exact absurd h (by simp)
  · split at h
    · exact absurd h (by simp)
    · split at h
      · simp only [Option.some.injEq] at h
        subst h
        exact ⟨rfl, rfl, rfl⟩
      · exact absurd h (by simp)

/-- The result of a call in terms of its phases, once the index update and
the loop over the auxiliary references are known not to panic. -/
theorem readFuncData_of (env : Env) (reloc : CodeReloc) (symName : GoString)
    (objSymMap : StrMap objSym) (codeLen : Int) (os : objSym) (fn : Func) (m1 : module)
    (g : GcState) (hf : IsFunc objSymMap symName os fn)
    (hm1 : updateIndex reloc.module codeLen = some m1)
    (hg : gcLoop env objSymMap fn.FuncData
      { stkmaps := reloc.stkmaps, err := none, stkobjReloc := [] } = some g) :
    ∃ fd, readFuncData env reloc symName objSymMap codeLen
        = some (relocLoop env objSymMap fn.FuncData (beforeReloc env reloc m1 os fn g fd), g.err) := by
  have hfl := fileLoop_frame env fn.File { reloc with module := m1 }
  have hm := updateIndex_fields reloc.module m1 codeLen hm1
  simp only [readFuncData, beforeReloc, hm1, hf.1, hf.2, hfl.1, hg, hfl.2.2.2, funcPayload,
    List.append_assoc, hm.2.1, hm.2.2]
  exact ⟨_, rfl⟩

/-- A call for a function of the catalog with a code length that is not
negative returns: the index is updated, the file loop runs, the payload and
one record are appended, the cache is filled and the auxiliary symbols are
relocated. -/
theorem readFuncData_ofNat (env : Env) (reloc : CodeReloc) (symName : GoString)
    (objSymMap : StrMap objSym) (n : Nat) (os : objSym) (fn : Func)
    (hf : IsFunc objSymMap symName os fn) (hs : StkobjKnown env objSymMap fn.FuncData) :
    ∃ m1 g fd,
      updateIndex reloc.module (n : Int) = some m1
      ∧ gcLoop env objSymMap fn.FuncData
          { stkmaps := reloc.stkmaps, err := none, stkobjReloc := [] } = some g
      ∧ readFuncData env reloc symName objSymMap (n : Int)
        = some (relocLoop env objSymMap fn.FuncData (beforeReloc env reloc m1 os fn g fd), g.err) := by
  obtain ⟨bucket, -, hm1⟩ := updateIndex_ofNat reloc.module n
  obtain ⟨g, hg⟩ := gcLoop_some env objSymMap fn.FuncData hs
    { stkmaps := reloc.stkmaps, err := none, stkobjReloc := [] }
  obtain ⟨fd, hfd⟩ := readFuncData_of env reloc symName objSymMap n os fn _ g hf hm1 hg
  exact ⟨_, g, fd, hm1, hg, hfd⟩

/-- The tables of the state before the relocation loop. -/
theorem beforeReloc_tables (env : Env) (reloc : CodeReloc) (m1 : module) (os : objSym) (fn : Func)
    (g : GcState) (fd : funcData) :
    (beforeReloc env reloc m1 os fn g fd).module.pcfunc = m1.pcfunc
      ∧ (beforeReloc env reloc m1 os fn g fd).module.funcdata = reloc.module.funcdata ++ [fd]
      ∧ (beforeReloc env reloc m1 os fn g fd).module.pclntable
          = (fileLoop env { reloc with module := m1 } fn.File).module.pclntable
            ++ funcPayload env os fn reloc.module.filetab.length
      ∧ (beforeReloc env reloc m1 os fn g fd).module.filetab
          = (fileLoop env { reloc with module := m1 } fn.File).module.filetab
      ∧ (beforeReloc env reloc m1 os fn g fd).fileMap
          = (fileLoop env { reloc with module := m1 } fn.File).fileMap
      ∧ (beforeReloc env reloc m1 os fn g fd).stkmaps = g.stkmaps := by
  have hfl := fileLoop_frame env fn.File { reloc with module := m1 }
  exact ⟨hfl.2.2.1, rfl, rfl, rfl, rfl, rfl⟩

/-- The bucket table after a call: the table after the growth loop with slot
`codeLen mod 4096 / 256` of bucket `codeLen / 4096` overwritten; the call
appends one function record. -/
theorem readFuncData_pcfunc (env : Env) (hframe : RelocSymFrame env) (reloc : CodeReloc)
    (symName : GoString) (objSymMap : StrMap objSym) (n : Nat) (os : objSym) (fn : Func)
    (hf : IsFunc objSymMap symName os fn) (hs : StkobjKnown env objSymMap fn.FuncData) :
    ∃ r1 err bucket fd,
      readFuncData env reloc symName objSymMap (n : Int) = some (r1, err)
      ∧ (growPcfunc (n / 4096 + 1 - reloc.module.pcfunc.length) reloc.module.pcfunc)[n / 4096]?
          = some bucket
      ∧ r1.module.pcfunc
          = (growPcfunc (n / 4096 + 1 - reloc.module.pcfunc.length) reloc.module.pcfunc).set (n / 4096)
              { bucket with
                subbuckets := Function.update bucket.subbuckets (Fin.ofNat (n % 4096 / 256))
                  (((reloc.module.funcdata.length : Int) - (bucket.idx : Int)) % 256).toNat }
      ∧ r1.module.funcdata = reloc.module.funcdata ++ [fd] := by
  obtain ⟨m1, g, fd, hm1, -, hr⟩ := readFuncData_ofNat env reloc symName objSymMap n os fn hf hs
  obtain ⟨bucket, hb, hm1b⟩ := updateIndex_ofNat reloc.module n
  rw [hm1] at hm1b
  simp only [Option.some.injEq] at hm1b
  have hrl := relocLoop_frame env hframe objSymMap fn.FuncData (beforeReloc env reloc m1 os fn g fd)
  have hbt := beforeReloc_tables env reloc m1 os fn g fd
  refine ⟨_, _, bucket, fd, hr, hb, ?_, ?_⟩
  · rw [hrl.1, hbt.1, hm1b]
  · rw [hrl.1, hbt.2.1]

/-- The position `Fin.ofNat i` of a slot `i < 16`. -/
theorem fin16_ofNat_val (i : Nat) (hi : i < 16) : ((Fin.ofNat i : Fin 16) : Nat) = i := by
  simp [Fin.ofNat, Nat.mod_eq_of_lt hi]

/-- Every bucket of the table after a call comes from a base bucket (the old
bucket at that position, or the bucket the growth loop created there) and
differs from it at most in slot `codeLen mod 4096 / 256` of bucket
`codeLen / 4096`. -/
theorem readFuncData_bucket (env : Env) (hframe : RelocSymFrame env) (reloc : CodeReloc)
    (symName : GoString) (objSymMap : StrMap objSym) (n : Nat) (os : objSym) (fn : Func)
    (hf : IsFunc objSymMap symName os fn) (hs : StkobjKnown env objSymMap fn.FuncData) :
    ∃ r1 err,
      readFuncData env reloc symName objSymMap (n : Int) = some (r1, err)
      ∧ r1.module.pcfunc.length = reloc.module.pcfunc.length + (n / 4096 + 1 - reloc.module.pcfunc.length)
      ∧ ∀ (k : Nat) (new : findfuncbucket), r1.module.pcfunc[k]? = some new →
          ∃ base : findfuncbucket,
            (reloc.module.pcfunc[k]? = some base
              ∨ (reloc.module.pcfunc.length ≤ k ∧ k ≤ n / 4096
                  ∧ base = { idx := (256 * k) % 2 ^ 32, subbuckets := fun _ => 0 }))
            ∧ new.idx = base.idx
            ∧ ∀ j : Fin 16, ¬ (k = n / 4096 ∧ (j : Nat) = n % 4096 / 256) →
                new.subbuckets j = base.subbuckets j := by
  obtain ⟨r1, err, bucket, fd, hr, hb, hpc, -⟩ :=
    readFuncData_pcfunc env hframe reloc symName objSymMap n os fn hf hs
  refine ⟨r1, err, hr, ?_, ?_⟩
  · rw [hpc, List.length_set, growPcfunc_length]
  · intro k new hk
    have hbase : ∀ base : findfuncbucket,
        (growPcfunc (n / 4096 + 1 - reloc.module.pcfunc.length) reloc.module.pcfunc)[k]? = some base →
        (reloc.module.pcfunc[k]? = some base
          ∨ (reloc.module.pcfunc.length ≤ k ∧ k ≤ n / 4096
              ∧ base = { idx := (256 * k) % 2 ^ 32, subbuckets := fun _ => 0 })) := by
      intro base hbk
      by_cases hlt : k < reloc.module.pcfunc.length
      · left
        rw [← growPcfunc_old _ _ _ hlt]; exact hbk
      · right
        have hklen : k < (growPcfunc (n / 4096 + 1 - reloc.module.pcfunc.length)
            reloc.module.pcfunc).length := by
          by_contra hcon
          rw [List.getElem?_eq_none (by omega)] at hbk
          exact absurd hbk (by simp)
        rw [growPcfunc_length] at hklen
        have hnew := growPcfunc_new (n / 4096 + 1 - reloc.module.pcfunc.length)
          reloc.module.pcfunc k (by omega) hklen
        rw [hnew] at hbk
        simp only [Option.some.injEq] at hbk
        exact ⟨by omega, by omega, hbk.symm⟩
    rw [hpc, List.getElem?_set] at hk
    by_cases hkb : n / 4096 = k
    · subst hkb
      rw [if_pos rfl] at hk
      split at hk
      · simp only [Option.some.injEq] at hk
        subst hk
        refine ⟨bucket, hbase bucket hb, rfl, ?_⟩
        intro j hj
        have hne : j ≠ Fin.ofNat (n % 4096 / 256) := by
          intro hcon
          apply hj
          refine ⟨rfl, ?_⟩
          rw [hcon]
          exact fin16_ofNat_val _ (by omega)
        simp [Function.update_noteq hne]
      · exact absurd hk (by simp)
    · rw [if_neg hkb] at hk
      exact ⟨new, hbase new hk, rfl, fun _ _ => rfl⟩

/-! ### C9 -/

/-- C9. For every state and every code length that is not negative, a call
for a function of the catalog returns with a bucket table of length
`max (old length) (codeLen / 4096 + 1)`; a bucket that existed before keeps its
base index and its slots, slot `codeLen mod 4096 / 256` of bucket
`codeLen / 4096` excepted; a bucket created by the call has the value zero in
all sixteen slots, that slot excepted. -/
theorem pcfunc_append_only (env : Env) (hframe : RelocSymFrame env) (reloc : CodeReloc)
    (symName : GoString) (objSymMap : StrMap objSym) (codeLen : Nat) (os : objSym) (fn : Func)
    (hf : IsFunc objSymMap symName os fn) (hs : StkobjKnown env objSymMap fn.FuncData) :
    ∃ r1 err,
      readFuncData env reloc symName objSymMap (codeLen : Int) = some (r1, err)
      ∧ r1.module.pcfunc.length = max reloc.module.pcfunc.length (codeLen / 4096 + 1)
      ∧ (∀ (k : Nat) (old : findfuncbucket), reloc.module.pcfunc[k]? = some old →
          ∃ new, r1.module.pcfunc[k]? = some new ∧ new.idx = old.idx
            ∧ ∀ j : Fin 16, ¬ (k = codeLen / 4096 ∧ (j : Nat) = codeLen % 4096 / 256) →
                new.subbuckets j = old.subbuckets j)
      ∧ (∀ (k : Nat) (new : findfuncbucket), reloc.module.pcfunc.length ≤ k →
          r1.module.pcfunc[k]? = some new →
            ∀ j : Fin 16, ¬ (k = codeLen / 4096 ∧ (j : Nat) = codeLen % 4096 / 256) →
                new.subbuckets j = 0) := by
  obtain ⟨r1, err, hr, hlen, hget⟩ :=
    readFuncData_bucket env hframe reloc symName objSymMap codeLen os fn hf hs
  refine ⟨r1, err, hr, ?_, ?_, ?_⟩
  · rw [hlen]; omega
  · intro k old hold
    have hk : k < reloc.module.pcfunc.length := by
      by_contra hcon
      rw [List.getElem?_eq_none (by omega)] at hold
      exact absurd hold (by simp)
    have hk1 : k < r1.module.pcfunc.length := by omega
    refine ⟨r1.module.pcfunc[k], List.getElem?_eq_getElem hk1, ?_⟩
    obtain ⟨base, hbase, hidx, hsub⟩ := hget k _ (List.getElem?_eq_getElem hk1)
    rcases hbase with hb | ⟨hb, -, -⟩
    · rw [hold] at hb
      simp only [Option.some.injEq] at hb
      subst hb
      exact ⟨hidx, hsub⟩
    · omega
  · intro k new hk hnew j hj
    obtain ⟨base, hbase, -, hsub⟩ := hget k new hnew
    rcases hbase with hb | ⟨-, -, hb⟩
    · rw [List.getElem?_eq_none hk] at hb
      exact absurd hb (by simp)
    · rw [hsub j hj, hb]

/-- C9, at a sample call: the second function of a module, at offset 4096. -/
theorem pcfunc_append_only_witness :
    ∃ r1 err,
      readFuncData sampleEnv CodeReloc.empty [103] sampleCatalog ((4096 : Nat) : Int) = some (r1, err)
      ∧ r1.module.pcfunc.length = max CodeReloc.empty.module.pcfunc.length (4096 / 4096 + 1)
      ∧ (∀ (k : Nat) (old : findfuncbucket), CodeReloc.empty.module.pcfunc[k]? = some old →
          ∃ new, r1.module.pcfunc[k]? = some new ∧ new.idx = old.idx
            ∧ ∀ j : Fin 16, ¬ (k = 4096 / 4096 ∧ (j : Nat) = 4096 % 4096 / 256) →
                new.subbuckets j = old.subbuckets j)
      ∧ (∀ (k : Nat) (new : findfuncbucket), CodeReloc.empty.module.pcfunc.length ≤ k →
          r1.module.pcfunc[k]? = some new →
            ∀ j : Fin 16, ¬ (k = 4096 / 4096 ∧ (j : Nat) = 4096 % 4096 / 256) →
                new.subbuckets j = 0) :=
  pcfunc_append_only sampleEnv (fun _ _ _ => ⟨rfl, rfl, rfl⟩) CodeReloc.empty [103] sampleCatalog 4096
    (sampleSym [103] 16 [sampleFile] []) _ ⟨by decide, rfl⟩ (by intro d hd; cases hd)

/-! ### C10 -/

/-- C10. The empty bucket table satisfies `idx = 256 * k`, and a call for a
function of the catalog with a code length that is not negative and below
`2^24` buckets returns with a table that satisfies it again, whatever the
number of function records. -/
theorem base_index_invariant (env : Env) (hframe : RelocSymFrame env) (reloc : CodeReloc)
    (symName : GoString) (objSymMap : StrMap objSym) (codeLen : Nat) (os : objSym) (fn : Func)
    (hf : IsFunc objSymMap symName os fn) (hs : StkobjKnown env objSymMap fn.FuncData)
    (hinv : BaseIndexInv reloc.module.pcfunc) (hsmall : codeLen / 4096 < 2 ^ 24) :
    BaseIndexInv module.empty.pcfunc
      ∧ ∃ r1 err,
          readFuncData env reloc symName objSymMap (codeLen : Int) = some (r1, err)
          ∧ BaseIndexInv r1.module.pcfunc := by
  refine ⟨?_, ?_⟩
  · intro k bucket hk
    simp [module.empty] at hk
  · obtain ⟨r1, err, hr, -, hget⟩ :=
      readFuncData_bucket env hframe reloc symName objSymMap codeLen os fn hf hs
    refine ⟨r1, err, hr, ?_⟩
    intro k new hnew
    obtain ⟨base, hbase, hidx, -⟩ := hget k new hnew
    rcases hbase with hb | ⟨-, hk, hb⟩
    · rw [hidx]; exact hinv k base hb
    · rw [hidx, hb]
      simp only []
      have : 256 * k < 2 ^ 32 := by omega
      exact Nat.mod_eq_of_lt this

/-- C10, at a sample call. -/
theorem base_index_invariant_witness :
    BaseIndexInv module.empty.pcfunc
      ∧ ∃ r1 err,
          readFuncData sampleEnv CodeReloc.empty [103] sampleCatalog ((4096 : Nat) : Int)
            = some (r1, err)
          ∧ BaseIndexInv r1.module.pcfunc :=
  base_index_invariant sampleEnv (fun _ _ _ => ⟨rfl, rfl, rfl⟩) CodeReloc.empty [103] sampleCatalog
    4096 (sampleSym [103] 16 [sampleFile] []) _ ⟨by decide, rfl⟩ (by intro d hd; cases hd)
    (by intro k bucket hk; simp [CodeReloc.empty, module.empty] at hk) (by decide)

/-! ### C1 -/

/-- C1. The lookup of the `findfuncbucket` comment fails on modules built by
`readFuncData`. First module: "f" at offset 0 (4096 bytes) and "g" at offset
4096 (16 bytes); for the address 4096 of "g" (record 1) bucket 1 yields the
function index 256 + 1 = 257, beyond the two records, and the scan finds
nothing. Second module: "g" at offset 0 and "h" at offset 16 (16 bytes each);
for the address 0 of "g" (record 0) the slot yields the index 1, and a scan
going forward from record 1 does not find record 0. -/
theorem findfunc_misses_function :
    (readFuncDataSeq sampleEnv sampleCatalog [([102], 0), ([103], 4096)] CodeReloc.empty).map
        (fun r => (r.module.funcdata.map (fun fd => fd.Name),
          findfuncIndex r.module.pcfunc 4096,
          findfunc r.module.pcfunc [(0, 4096), (4096, 16)] 4096))
      = some ([[102], [103]], some 257, none)
    ∧ (readFuncDataSeq sampleEnv sampleCatalog [([103], 0), ([104], 16)] CodeReloc.empty).map
        (fun r => (r.module.funcdata.map (fun fd => fd.Name),
          findfuncIndex r.module.pcfunc 0,
          findfunc r.module.pcfunc [(0, 16), (16, 16)] 0))
      = some ([[103], [104]], some 1, none) := by
  constructor <;> decide

/-! ### C2 -/

/-- C2. After "f" (4096 bytes at offset 0) the call for "g" with
`codeLen = 4096` appends the record of "g" at index 1 and writes slot 0 of
bucket 1; that bucket has `idx = 256` and the slot holds `byte(1 - 256) = 1`,
so `idx` plus the stored value is 257 and not the record index 1. -/
theorem subbucket_value_off_record_index :
    (readFuncDataSeq sampleEnv sampleCatalog [([102], 0)] CodeReloc.empty).map
        (fun r => r.module.funcdata.length) = some 1
    ∧ (readFuncDataSeq sampleEnv sampleCatalog [([102], 0), ([103], 4096)] CodeReloc.empty).map
        (fun r => (r.module.funcdata.map (fun fd => fd.Name),
          r.module.pcfunc.map (fun b => (b.idx, b.subbuckets 0, b.idx + b.subbuckets 0))))
      = some ([[102], [103]], [(0, 0, 0), (256, 1, 257)]) := by
  constructor <;> decide

/-! ### The module chain -/

theorem chain_cons (next : Nat → Ptr) (p : Ptr) (a : Nat) (l : List Nat) :
    Chain next p (a :: l) ↔ p = some a ∧ Chain next (next a) l := by
  simp [Chain]

theorem chain_nil (next : Nat → Ptr) (p : Ptr) : Chain next p [] ↔ p = none := by
  simp [Chain]

/-- Two heaps that agree on the nodes of a chain have that chain in common. -/
theorem chain_congr (f g : Nat → Ptr) (l : List Nat) (p : Ptr) (h : ∀ y ∈ l, f y = g y)
    (hc : Chain f p l) : Chain g p l := by
  induction l generalizing p with
  | nil => exact hc
  | cons a t ih =>
    rw [chain_cons] at hc ⊢
    refine ⟨hc.1, ?_⟩
    rw [← h a (List.mem_cons_self _ _)]
    exact ih _ (fun y hy => h y (List.mem_cons_of_mem _ hy)) hc.2

/-- The chain from a pointer is unique. -/
theorem chain_unique (next : Nat → Ptr) (l1 l2 : List Nat) (p : Ptr) (h1 : Chain next p l1)
    (h2 : Chain next p l2) : l1 = l2 := by
  induction l1 generalizing p l2 with
  | nil =>
    cases l2 with
    | nil => rfl
    | cons b t =>
      rw [chain_nil] at h1
      rw [chain_cons] at h2
      rw [h1] at h2
      exact absurd h2.1 (by simp)
  | cons a t ih =>
    cases l2 with
    | nil =>
      rw [chain_nil] at h2
      rw [chain_cons] at h1
      rw [h2] at h1
      exact absurd h1.1 (by simp)
    | cons b t2 =>
      rw [chain_cons] at h1 h2
      have hab : a = b := by
        have := h1.1.symm.trans h2.1
        simpa using this
      subst hab
      rw [ih t2 _ h1.2 h2.2]

/-- From a node of a chain the rest of the chain is reachable. -/
theorem chain_from_mem (next : Nat → Ptr) (l : List Nat) (p : Ptr) (a : Nat)
    (hc : Chain next p l) (ha : a ∈ l) :
    ∃ t, Chain next (some a) (a :: t) ∧ (a :: t).length ≤ l.length := by
  induction l generalizing p with
  | nil => cases ha
  | cons b t ih =>
    rw [chain_cons] at hc
    rcases List.mem_cons.mp ha with hab | hat
    · subst hab
      exact ⟨t, (chain_cons _ _ _ _).mpr ⟨rfl, hc.2⟩, le_refl _⟩
    · obtain ⟨t2, h1, h2⟩ := ih _ hc.2 hat
      exact ⟨t2, h1, by simp only [List.length_cons] at h2 ⊢; omega⟩

/-- A finite chain has no node twice. -/
theorem chain_nodup (next : Nat → Ptr) (l : List Nat) (p : Ptr) (hc : Chain next p l) :
    l.Nodup := by
  induction l generalizing p with
  | nil => exact List.nodup_nil
  | cons a t ih =>
    have hc2 := (chain_cons _ _ _ _).mp hc
    refine List.nodup_cons.mpr ⟨?_, ih _ hc2.2⟩
    intro hat
    obtain ⟨t2, h1, h2⟩ := chain_from_mem next t _ a hc2.2 hat
    have hc3 : Chain next (some a) (a :: t) := (chain_cons _ _ _ _).mpr ⟨rfl, hc2.2⟩
    have := chain_unique next _ _ _ h1 hc3
    rw [this] at h2
    simp only [List.length_cons] at h2
    omega

/-- The walk of `addModule` stops at the node of the chain whose `next` is nil
and links the module there. -/
theorem addModuleLoop_spec (aModule : Ptr) (next : Nat → Ptr) (l : List Nat) (d fuel : Nat)
    (hc : Chain next (some d) l) (hfuel : l.length ≤ fuel) :
    ∃ x, x ∈ l ∧ next x = none
      ∧ addModuleLoop aModule fuel next d = some (Function.update next x aModule) := by
  induction l generalizing d fuel with
  | nil => rw [chain_nil] at hc; exact absurd hc (by simp)
  | cons b t ih =>
    rw [chain_cons] at hc
    have hdb : d = b := by simpa using hc.1
    subst hdb
    cases fuel with
    | zero => simp at hfuel
    | succ fuel =>
      cases hn : next d with
      | none =>
        exact ⟨d, List.mem_cons_self _ _, hn, by simp [addModuleLoop, hn]⟩
      | some e =>
        rw [hn] at hc
        obtain ⟨x, hx, hxn, hloop⟩ := ih e fuel hc.2 (by simpa using hfuel)
        exact ⟨x, List.mem_cons_of_mem _ hx, hxn, by simp [addModuleLoop, hn, hloop]⟩

/-- Linking a fresh node at the end of a chain extends the chain by that
node. -/
theorem chain_link_last (next : Nat → Ptr) (l : List Nat) (d x a : Nat)
    (hc : Chain next (some d) l) (hx : x ∈ l) (hxn : next x = none) (ha : a ∉ l)
    (han : next a = none) :
    Chain (Function.update next x (some a)) (some d) (l ++ [a]) := by
  induction l generalizing d with
  | nil => cases hx
  | cons b t ih =>
    rw [chain_cons] at hc
    have hdb : d = b := by simpa using hc.1
    subst hdb
    have had : a ≠ d := fun h => ha (h ▸ List.mem_cons_self _ _)
    have hat : a ∉ t := fun h => ha (List.mem_cons_of_mem _ h)
    rw [List.cons_append, chain_cons]
    refine ⟨rfl, ?_⟩
    cases hn : next d with
    | none =>
      rw [hn] at hc
      have ht : t = [] := by
        cases t with
        | nil => rfl
        | cons e t2 => rw [chain_cons] at hc; exact absurd hc.2.1 (by simp)
      subst ht
      have hxd : x = d := by simpa using hx
      subst hxd
      simp only [List.nil_append, Function.update_same, chain_cons, chain_nil, true_and]
      rw [Function.update_noteq had]
      exact han
    | some e =>
      have hxd : x ≠ d := by
        intro h; rw [h, hn] at hxn; exact absurd hxn (by simp)
      have hxt : x ∈ t := by
        rcases List.mem_cons.mp hx with h | h
        · exact absurd h hxd
        · exact h
      rw [Function.update_noteq (Ne.symm hxd), hn]
      rw [hn] at hc
      cases t with
      | nil => cases hxt
      | cons e2 t2 =>
        have he : e = e2 := by
          have := ((chain_cons _ _ _ _).mp hc.2).1
          simpa using this
        subst he
        exact ih e hc.2 hxt hat

/-! ### C3 -/

/-- C3. For a finite chain `l` from `firstmoduledata`, a module `a` that is
not in it and whose `next` is nil, and enough fuel for the walk, `addModule`
returns; afterwards the chain is `l` followed by `a`, `modules[a]` is true and
`codeModule.module` is `a`. -/
theorem addModule_appends (g : Registry) (c : CodeModule) (a : Nat) (l : List Nat) (fuel : Nat)
    (hc : Chain g.next (some firstmoduledata) l) (ha : a ∉ l) (han : g.next a = none)
    (hfuel : l.length ≤ fuel) :
    ∃ g1 c1,
      addModule fuel g c (some a) = some (g1, c1)
      ∧ Chain g1.next (some firstmoduledata) (l ++ [a])
      ∧ (l ++ [a]).length = l.length + 1
      ∧ g1.modules (Iface.moduledata (some a)) = some true
      ∧ c1.module = some a := by
  obtain ⟨x, hx, hxn, hloop⟩ := addModuleLoop_spec (some a) g.next l firstmoduledata fuel hc hfuel
  refine ⟨{ next := Function.update g.next x (some a),
             modules := Function.update g.modules (Iface.moduledata (some a)) (some true) },
    { c with module := some a }, by simp only [addModule, hloop], ?_, by simp, ?_, rfl⟩
  · exact chain_link_last g.next l firstmoduledata x a hc hx hxn ha han
  · simp

/-- C3, on the chain `firstmoduledata -> 1 -> 2` with the new module 7. -/
theorem addModule_appends_witness :
    ∃ g1 c1,
      addModule 3 sampleRegistry { module := none } (some 7) = some (g1, c1)
      ∧ Chain g1.next (some firstmoduledata) ([0, 1, 2] ++ [7])
      ∧ ([0, 1, 2] ++ [7]).length = [0, 1, 2].length + 1
      ∧ g1.modules (Iface.moduledata (some 7)) = some true
      ∧ c1.module = some 7 :=
  addModule_appends sampleRegistry { module := none } 7 [0, 1, 2] 3 (by decide) (by decide)
    (by decide) (by decide)

/-! ### C4 -/

/-- The walk of `removeModule` from a node `d` with predecessor `p`: when the
module is on the chain from `d`, the walk returns, the chain from `p` loses
exactly that node, and nodes off the chain keep their `next`. -/
theorem removeModuleLoop_unlinks (next : Nat → Ptr) (m : Nat) (t : List Nat) (p d fuel : Nat)
    (hp : next p = some d) (hc : Chain next (some d) (d :: t)) (hnd : (p :: d :: t).Nodup)
    (hm : m ∈ d :: t) (hfuel : t.length + 1 ≤ fuel) :
    ∃ next1, removeModuleLoop (Iface.moduledata (some m)) fuel next p (some d) = some next1
      ∧ Chain next1 (some p) (p :: (d :: t).erase m)
      ∧ ∀ y, y ∉ p :: d :: t → next1 y = next y := by
  induction t generalizing p d fuel with
  | nil =>
    have hmd : m = d := by simpa using hm
    subst hmd
    cases fuel with
    | zero => simp at hfuel
    | succ fuel =>
      have hc2 := (chain_cons _ _ _ _).mp hc
      refine ⟨Function.update next p (next m), by simp [removeModuleLoop], ?_, ?_⟩
      · simp only [List.erase_cons_head, chain_cons, chain_nil, Function.update_same, true_and]
        exact (chain_nil _ _).mp hc2.2
      · intro y hy
        have : y ≠ p := fun h => hy (h ▸ List.mem_cons_self _ _)
        exact Function.update_noteq this _ _
  | cons e t ih =>
    have hc2 := (chain_cons _ _ _ _).mp hc
    have hc3 := (chain_cons _ _ _ _).mp hc2.2
    have hnd2 := List.nodup_cons.mp hnd
    cases fuel with
    | zero => simp at hfuel
    | succ fuel =>
      by_cases hmd : d = m
      · subst hmd
        refine ⟨Function.update next p (next d), by simp [removeModuleLoop], ?_, ?_⟩
        · simp only [List.erase_cons_head, chain_cons, Function.update_same, true_and]
          have := chain_congr next (Function.update next p (next d)) (e :: t) (next d) (by
            intro y hy
            have : y ≠ p := fun h => hnd2.1 (h ▸ List.mem_cons_of_mem _ hy)
            exact (Function.update_noteq this _ _).symm) hc2.2
          exact (chain_cons _ _ _ _).mp this
        · intro y hy
          have : y ≠ p := fun h => hy (h ▸ List.mem_cons_self _ _)
          exact Function.update_noteq this _ _
      · have hmt : m ∈ e :: t := by
          rcases List.mem_cons.mp hm with h | h
          · exact absurd h.symm hmd
          · exact h
        have hne : ¬ (Iface.moduledata (some d) = Iface.moduledata (some m)) := by
          intro h; injection h with h; injection h with h; exact hmd h
        obtain ⟨next1, hloop, hchain, hframe⟩ := ih d e fuel hc3.1
          ((chain_cons _ _ _ _).mpr ⟨rfl, hc3.2⟩) hnd2.2 hmt (by simpa using hfuel)
        refine ⟨next1, ?_, ?_, ?_⟩
        · rw [removeModuleLoop, if_neg hne, hc3.1]
          exact hloop
        · have hdm : (d :: e :: t).erase m = d :: (e :: t).erase m := by
            rw [List.erase_cons_tail]
            simpa using hmd
          rw [hdm, chain_cons]
          refine ⟨rfl, ?_⟩
          rw [hframe p hnd2.1, hp]
          exact hchain
        · intro y hy
          apply hframe
          intro h
          exact hy (List.mem_cons_of_mem _ h)

/-- C4. For a finite chain `l` from `firstmoduledata`, a module `m` that occurs
in it after the head, and enough fuel for the walk, `removeModule` returns;
afterwards the chain is `l` with `m` erased (one node shorter, the other nodes
in their order) and `m` is not a key of `modules`. -/
theorem removeModule_unlinks (g : Registry) (m : Nat) (l : List Nat) (fuel : Nat)
    (hc : Chain g.next (some firstmoduledata) l) (hm : m ∈ l.tail) (hfuel : l.length ≤ fuel) :
    ∃ g1,
      removeModule fuel g (Iface.moduledata (some m)) = some g1
      ∧ Chain g1.next (some firstmoduledata) (l.erase m)
      ∧ (l.erase m).length + 1 = l.length
      ∧ (∀ x, x ∈ l.erase m ↔ x ∈ l ∧ x ≠ m)
      ∧ (l.erase m).Sublist l
      ∧ g1.modules (Iface.moduledata (some m)) = none := by
  have hnd := chain_nodup g.next l _ hc
  cases l with
  | nil => cases hm
  | cons a rest =>
    have hc2 := (chain_cons _ _ _ _).mp hc
    have ha : firstmoduledata = a := by simpa using hc2.1
    subst ha
    simp only [List.tail_cons] at hm
    have hnd2 := List.nodup_cons.mp hnd
    have hne : firstmoduledata ≠ m := fun h => hnd2.1 (h ▸ hm)
    have hne2 : ¬ (Iface.moduledata (some firstmoduledata) = Iface.moduledata (some m)) := by
      intro h; injection h with h; injection h with h; exact hne h
    cases rest with
    | nil => cases hm
    | cons d t =>
      have hc3 := (chain_cons _ _ _ _).mp hc2.2
      cases fuel with
      | zero => simp at hfuel
      | succ fuel =>
        obtain ⟨next1, hloop, hchain, -⟩ := removeModuleLoop_unlinks g.next m t firstmoduledata d
          fuel hc3.1 ((chain_cons _ _ _ _).mpr ⟨rfl, hc3.2⟩) hnd hm
          (by simp only [List.length_cons] at hfuel; omega)
        have herase : (firstmoduledata :: d :: t).erase m = firstmoduledata :: (d :: t).erase m := by
          rw [List.erase_cons_tail]
          simpa using hne
        have hmem : m ∈ firstmoduledata :: d :: t := List.mem_cons_of_mem _ hm
        refine ⟨{ next := next1, modules := Function.update g.modules (Iface.moduledata (some m)) none },
          ?_, ?_, ?_, ?_, List.erase_sublist _ _, ?_⟩
        · simp only [removeModule]
          rw [removeModuleLoop, if_neg hne2, hc3.1, hloop]
          rfl
        · rw [herase]; exact hchain
        · rw [List.length_erase_of_mem hmem]
          simp
        · intro x
          rw [hnd.mem_erase_iff]
          exact ⟨fun h => ⟨h.2, h.1⟩, fun h => ⟨h.2, h.1⟩⟩
        · simp

/-- C4, on the chain `firstmoduledata -> 1 -> 2` with the module 1. -/
theorem removeModule_unlinks_witness :
    ∃ g1,
      removeModule 3 sampleRegistry (Iface.moduledata (some 1)) = some g1
      ∧ Chain g1.next (some firstmoduledata) ([0, 1, 2].erase 1)
      ∧ ([0, 1, 2].erase 1).length + 1 = [0, 1, 2].length
      ∧ (∀ x, x ∈ [0, 1, 2].erase 1 ↔ x ∈ [0, 1, 2] ∧ x ≠ 1)
      ∧ ([0, 1, 2].erase 1).Sublist [0, 1, 2]
      ∧ g1.modules (Iface.moduledata (some 1)) = none :=
  removeModule_unlinks sampleRegistry 1 [0, 1, 2] 3 (by decide) (by decide) (by decide)

/-! ### C5 -/

/-- Overwriting a nil entry and then resetting it gives the function back. -/
theorem update_update_none {α : Type} [DecidableEq α] {β : Type} (f : α → Option β) (x : α)
    (v : Option β) (hx : f x = none) :
    Function.update (Function.update f x v) x none = f := by
  funext y
  by_cases h : y = x
  · subst h; simp [hx]
  · simp [Function.update_noteq h]

/-- The walk of `removeModule` over a chain at whose end the module `m` was
just linked: it unlinks `m` again and the heap is as before the link. -/
theorem removeModuleLoop_undoes_link (next : Nat → Ptr) (m x : Nat) (l : List Nat) (p d fuel : Nat)
    (hc : Chain next (some d) l) (hm : m ∉ l) (hmn : next m = none) (hx : x ∈ l)
    (hxn : next x = none) (hfuel : l.length + 1 ≤ fuel) :
    removeModuleLoop (Iface.moduledata (some m)) fuel (Function.update next x (some m)) p (some d)
      = some next := by
  induction l generalizing p d fuel with
  | nil => cases hx
  | cons b t ih =>
    have hc2 := (chain_cons _ _ _ _).mp hc
    have hdb : d = b := by simpa using hc2.1
    subst hdb
    have hmd : d ≠ m := fun h => hm (h ▸ List.mem_cons_self _ _)
    have hmt : m ∉ t := fun h => hm (List.mem_cons_of_mem _ h)
    have hne : ¬ (Iface.moduledata (some d) = Iface.moduledata (some m)) := by
      intro h; injection h with h; injection h with h; exact hmd h
    cases fuel with
    | zero => simp at hfuel
    | succ fuel =>
      rw [removeModuleLoop, if_neg hne]
      cases hn : next d with
      | none =>
        rw [hn] at hc2
        have ht : t = [] := by
          cases t with
          | nil => rfl
          | cons e t2 => rw [chain_cons] at hc2; exact absurd hc2.2.1 (by simp)
        subst ht
        have hxd : x = d := by simpa using hx
        subst hxd
        rw [Function.update_same]
        cases fuel with
        | zero => simp at hfuel
        | succ fuel =>
          rw [removeModuleLoop, if_pos rfl, Function.update_noteq (Ne.symm hmd), hmn]
          rw [update_update_none next x (some m) hxn]
      | some e =>
        have hxd : x ≠ d := by
          intro h; rw [h, hn] at hxn; exact absurd hxn (by simp)
        have hxt : x ∈ t := by
          rcases List.mem_cons.mp hx with h | h
          · exact absurd h hxd
          · exact h
        rw [Function.update_noteq (Ne.symm hxd), hn]
        rw [hn] at hc2
        exact ih d e fuel hc2.2 hmt hxt (by simpa using hfuel)

/-- C5. For a finite chain `l` from `firstmoduledata` and a module `m` that is
not in it, has a nil `next` and is not a key of `modules`, `addModule`
followed by `removeModule` of `m` (each with enough fuel) returns and restores
the registry: the chain is `l` again, every `next` link and the map `modules`
are as before. -/
theorem add_remove_roundtrip (g : Registry) (c : CodeModule) (m : Nat) (l : List Nat)
    (fuel1 fuel2 : Nat) (hc : Chain g.next (some firstmoduledata) l) (hm : m ∉ l)
    (hmn : g.next m = none) (hmod : g.modules (Iface.moduledata (some m)) = none)
    (hfuel1 : l.length ≤ fuel1) (hfuel2 : l.length + 1 ≤ fuel2) :
    ∃ g1 c1 g2,
      addModule fuel1 g c (some m) = some (g1, c1)
      ∧ removeModule fuel2 g1 (Iface.moduledata (some m)) = some g2
      ∧ Chain g2.next (some firstmoduledata) l
      ∧ g2.next = g.next
      ∧ g2.modules = g.modules := by
  obtain ⟨x, hx, hxn, hloop⟩ :=
    addModuleLoop_spec (some m) g.next l firstmoduledata fuel1 hc hfuel1
  have hrem := removeModuleLoop_undoes_link g.next m x l firstmoduledata firstmoduledata fuel2
    hc hm hmn hx hxn hfuel2
  refine ⟨{ next := Function.update g.next x (some m),
             modules := Function.update g.modules (Iface.moduledata (some m)) (some true) },
    { c with module := some m },
    { next := g.next,
      modules := Function.update
        (Function.update g.modules (Iface.moduledata (some m)) (some true))
        (Iface.moduledata (some m)) none },
    by simp only [addModule, hloop], by simp only [removeModule, hrem]; rfl, hc, rfl, ?_⟩
  exact update_update_none g.modules _ _ hmod

/-- C5, on the chain `firstmoduledata -> 1 -> 2` with the new module 7. -/
theorem add_remove_roundtrip_witness :
    ∃ g1 c1 g2,
      addModule 3 sampleRegistry { module := none } (some 7) = some (g1, c1)
      ∧ removeModule 4 g1 (Iface.moduledata (some 7)) = some g2
      ∧ Chain g2.next (some firstmoduledata) [0, 1, 2]
      ∧ g2.next = sampleRegistry.next
      ∧ g2.modules = sampleRegistry.modules :=
  add_remove_roundtrip sampleRegistry { module := none } 7 [0, 1, 2] 3 4 (by decide) (by decide)
    (by decide) (by decide) (by decide) (by decide)

/-! ### The cache of auxiliary data -/

/-- The cache fill for one reference, by cases. -/
theorem fillStkmap_cases (env : Env) (objSymMap : StrMap objSym) (s : GcState) (name : GoString) :
    ((∃ blob, s.stkmaps name = some blob) ∧ fillStkmap env objSymMap s name = s)
    ∨ (s.stkmaps name = none ∧ ∃ gcobj, objSymMap name = some gcobj
        ∧ fillStkmap env objSymMap s name =
          { s with
            stkmaps := s.stkmaps.set name
              (some (env.ReadAt gcobj.file gcobj.sym.Data.Size gcobj.sym.Data.Offset)) })
    ∨ (s.stkmaps name = none ∧ objSymMap name = none ∧ name = []
        ∧ fillStkmap env objSymMap s name = { s with stkmaps := s.stkmaps.set name none })
    ∨ (s.stkmaps name = none ∧ objSymMap name = none ∧ name ≠ []
        ∧ fillStkmap env objSymMap s name = { s with err := some (unknownGcobj ++ name) }) := by
  cases h1 : s.stkmaps name with
  | some blob => left; exact ⟨⟨blob, rfl⟩, by simp only [fillStkmap, h1]⟩
  | none =>
    right
    cases h2 : objSymMap name with
    | some gcobj => left; exact ⟨rfl, gcobj, rfl, by simp only [fillStkmap, h1, h2]⟩
    | none =>
      right
      by_cases h3 : name = []
      · left; exact ⟨rfl, rfl, h3, by subst h3; simp [fillStkmap, h1, h2]⟩
      · right; exact ⟨rfl, rfl, h3, by simp [fillStkmap, h1, h2, h3]⟩

/-- The cache fill keeps every entry that is already there. -/
theorem fillStkmap_keeps (env : Env) (objSymMap : StrMap objSym) (s : GcState) (name n : GoString)
    (blob : Option (List Nat)) (h : s.stkmaps n = some blob) :
    (fillStkmap env objSymMap s name).stkmaps n = some blob := by
  rcases fillStkmap_cases env objSymMap s name with ⟨-, he⟩ | ⟨hn, _, -, he⟩ | ⟨hn, -, -, he⟩
    | ⟨-, -, -, he⟩
  · rw [he]; exact h
  · rw [he]
    have hne : n ≠ name := fun hc => by rw [hc, hn] at h; exact absurd h (by simp)
    simp [StrMap.set, hne, h]
  · rw [he]
    have hne : n ≠ name := fun hc => by rw [hc, hn] at h; exact absurd h (by simp)
    simp [StrMap.set, hne, h]
  · rw [he]; exact h

/-- The cache fill never adds a name that is neither in the catalog nor
empty. -/
theorem fillStkmap_unknown (env : Env) (objSymMap : StrMap objSym) (s : GcState)
    (name n : GoString) (hcat : objSymMap n = none) (hne : n ≠ []) :
    (fillStkmap env objSymMap s name).stkmaps n = s.stkmaps n := by
  rcases fillStkmap_cases env objSymMap s name with ⟨-, he⟩ | ⟨-, gcobj, hg, he⟩ | ⟨-, -, hnil, he⟩
    | ⟨-, -, -, he⟩
  · rw [he]
  · rw [he]
    have : n ≠ name := fun hc => by rw [hc, hg] at hcat; exact absurd hcat (by simp)
    simp [StrMap.set, this]
  · rw [he]
    have : n ≠ name := fun hc => hne (hc.trans hnil)
    simp [StrMap.set, this]
  · rw [he]

/-- The error after the cache fill for one reference. -/
theorem fillStkmap_err (env : Env) (objSymMap : StrMap objSym) (s : GcState) (name : GoString) :
    (fillStkmap env objSymMap s name).err ≠ none
      ↔ s.err ≠ none ∨ (name ≠ [] ∧ s.stkmaps name = none ∧ objSymMap name = none) := by
  rcases fillStkmap_cases env objSymMap s name with ⟨⟨b, hb⟩, he⟩ | ⟨hn, gcobj, hg, he⟩
    | ⟨hn, hc, hnil, he⟩ | ⟨hn, hc, hne, he⟩
  · rw [he]; simp [hb]
  · rw [he]; simp [hg]
  · rw [he]; simp [hnil]
  · rw [he]; simp [hn, hc, hne]

/-- One round of the loop over the auxiliary references: when the loop
returns, the rest of the loop ran on a state with the cache and the error of
the cache fill. -/
theorem gcLoop_cons (env : Env) (objSymMap : StrMap objSym) (d : FuncDataRef)
    (rest : List FuncDataRef) (s g : GcState) (h : gcLoop env objSymMap (d :: rest) s = some g) :
    ∃ s1, gcLoop env objSymMap rest s1 = some g
      ∧ s1.stkmaps = (fillStkmap env objSymMap s d.Sym.Name).stkmaps
      ∧ s1.err = (fillStkmap env objSymMap s d.Sym.Name).err := by
  simp only [gcLoop] at h
  split at h
  · split at h
    · exact absurd h (by simp)
    · exact ⟨_, h, rfl, rfl⟩
  · exact ⟨_, h, rfl, rfl⟩

/-- The loop keeps every entry that is in the cache when it starts. -/
theorem gcLoop_keeps (env : Env) (objSymMap : StrMap objSym) (refs : List FuncDataRef)
    (s g : GcState) (h : gcLoop env objSymMap refs s = some g) (n : GoString)
    (blob : Option (List Nat)) (hn : s.stkmaps n = some blob) : g.stkmaps n = some blob := by
  induction refs generalizing s with
  | nil =>
    simp only [gcLoop, Option.some.injEq] at h
    rw [← h]; exact hn
  | cons d rest ih =>
    obtain ⟨s1, h1, hs1, -⟩ := gcLoop_cons env objSymMap d rest s g h
    exact ih s1 h1 (by rw [hs1]; exact fillStkmap_keeps env objSymMap s _ n blob hn)

/-- The loop never adds a name that is neither in the catalog nor empty. -/
theorem gcLoop_unknown (env : Env) (objSymMap : StrMap objSym) (refs : List FuncDataRef)
    (s g : GcState) (h : gcLoop env objSymMap refs s = some g) (n : GoString)
    (hcat : objSymMap n = none) (hne : n ≠ []) : g.stkmaps n = s.stkmaps n := by
  induction refs generalizing s with
  | nil =>
    simp only [gcLoop, Option.some.injEq] at h
    rw [← h]
  | cons d rest ih =>
    obtain ⟨s1, h1, hs1, -⟩ := gcLoop_cons env objSymMap d rest s g h
    rw [ih s1 h1, hs1]
    exact fillStkmap_unknown env objSymMap s _ n hcat hne

/-- The error of the loop: set exactly when a reference has a name that is not
empty, not in the cache when the loop starts and not in the catalog. -/
theorem gcLoop_err (env : Env) (objSymMap : StrMap objSym) (refs : List FuncDataRef)
    (s g : GcState) (h : gcLoop env objSymMap refs s = some g) :
    g.err ≠ none ↔ s.err ≠ none
      ∨ ∃ d ∈ refs, d.Sym.Name ≠ [] ∧ s.stkmaps d.Sym.Name = none ∧ objSymMap d.Sym.Name = none := by
  induction refs generalizing s with
  | nil =>
    simp only [gcLoop, Option.some.injEq] at h
    rw [← h]; simp
  | cons d rest ih =>
    obtain ⟨s1, h1, hs1, he1⟩ := gcLoop_cons env objSymMap d rest s g h
    rw [ih s1 h1, he1, fillStkmap_err, hs1]
    constructor
    · rintro (h2 | ⟨x, hx, hxne, hxs, hxc⟩)
      · rcases h2 with h2 | h2
        · exact Or.inl h2
        · exact Or.inr ⟨d, List.mem_cons_self _ _, h2⟩
      · rw [fillStkmap_unknown env objSymMap s _ _ hxc hxne] at hxs
        exact Or.inr ⟨x, List.mem_cons_of_mem _ hx, hxne, hxs, hxc⟩
    · rintro (h2 | ⟨x, hx, hxne, hxs, hxc⟩)
      · exact Or.inl (Or.inl h2)
      · rcases List.mem_cons.mp hx with hxd | hxr
        · subst hxd
          exact Or.inl (Or.inr ⟨hxne, hxs, hxc⟩)
        · refine Or.inr ⟨x, hxr, hxne, ?_, hxc⟩
          rw [fillStkmap_unknown env objSymMap s _ _ hxc hxne]
          exact hxs

/-- A reference of the catalog that is not in the cache when the loop starts
is read once, from its defining file. -/
theorem gcLoop_materialises (env : Env) (objSymMap : StrMap objSym) (refs : List FuncDataRef)
    (s g : GcState) (h : gcLoop env objSymMap refs s = some g) (d : FuncDataRef) (hd : d ∈ refs)
    (hn : s.stkmaps d.Sym.Name = none) (gcobj : objSym) (hcat : objSymMap d.Sym.Name = some gcobj) :
    g.stkmaps d.Sym.Name
      = some (some (env.ReadAt gcobj.file gcobj.sym.Data.Size gcobj.sym.Data.Offset)) := by
  induction refs generalizing s with
  | nil => cases hd
  | cons d0 rest ih =>
    obtain ⟨s1, h1, hs1, -⟩ := gcLoop_cons env objSymMap d0 rest s g h
    by_cases hname : d0.Sym.Name = d.Sym.Name
    · apply gcLoop_keeps env objSymMap rest s1 g h1
      rw [hs1, hname]
      rcases fillStkmap_cases env objSymMap s d.Sym.Name with ⟨⟨b, hb⟩, -⟩ | ⟨-, o, ho, he⟩
        | ⟨-, hc, -, -⟩ | ⟨-, hc, -, -⟩
      · rw [hn] at hb; exact absurd hb (by simp)
      · rw [he]
        rw [hcat] at ho
        simp only [Option.some.injEq] at ho
        subst ho
        simp [StrMap.set]
      · rw [hcat] at hc; exact absurd hc (by simp)
      · rw [hcat] at hc; exact absurd hc (by simp)
    · have hdr : d ∈ rest := by
        rcases List.mem_cons.mp hd with hd0 | hdr
        · exact absurd (by rw [hd0]) hname
        · exact hdr
      apply ih s1 h1 hdr
      rw [hs1]
      rcases fillStkmap_cases env objSymMap s d0.Sym.Name with ⟨-, he⟩ | ⟨-, o, -, he⟩
        | ⟨-, -, -, he⟩ | ⟨-, -, -, he⟩
      · rw [he]; exact hn
      · rw [he]; simp [StrMap.set, Ne.symm hname, hn]
      · rw [he]; simp [StrMap.set, Ne.symm hname, hn]
      · rw [he]; exact hn

/-- After the loop every reference is in the cache, unless its name is
neither in the catalog nor empty. -/
theorem gcLoop_present (env : Env) (objSymMap : StrMap objSym) (refs : List FuncDataRef)
    (s g : GcState) (h : gcLoop env objSymMap refs s = some g) (d : FuncDataRef) (hd : d ∈ refs) :
    (∃ blob, g.stkmaps d.Sym.Name = some blob)
      ∨ (objSymMap d.Sym.Name = none ∧ d.Sym.Name ≠ []) := by
  induction refs generalizing s with
  | nil => cases hd
  | cons d0 rest ih =>
    obtain ⟨s1, h1, hs1, -⟩ := gcLoop_cons env objSymMap d0 rest s g h
    rcases List.mem_cons.mp hd with hd0 | hdr
    · subst hd0
      rcases fillStkmap_cases env objSymMap s d.Sym.Name with ⟨⟨b, hb⟩, he⟩ | ⟨-, o, -, he⟩
        | ⟨-, -, -, he⟩ | ⟨-, hc, hne, -⟩
      · left
        exact ⟨b, gcLoop_keeps env objSymMap rest s1 g h1 _ b (by rw [hs1, he]; exact hb)⟩
      · left
        exact ⟨some (env.ReadAt o.file o.sym.Data.Size o.sym.Data.Offset),
          gcLoop_keeps env objSymMap rest s1 g h1 _ _ (by rw [hs1, he]; simp [StrMap.set])⟩
      · left
        exact ⟨none, gcLoop_keeps env objSymMap rest s1 g h1 _ _ (by rw [hs1, he]; simp [StrMap.set])⟩
      · right; exact ⟨hc, hne⟩
    · exact ih s1 h1 hdr

/-- The state after a call in terms of the file loop and the loop over the
auxiliary references, for a relocation that leaves the tables alone. -/
theorem readFuncData_tables (env : Env) (hframe : RelocSymFrame env) (reloc : CodeReloc)
    (symName : GoString) (objSymMap : StrMap objSym) (n : Nat) (os : objSym) (fn : Func)
    (hf : IsFunc objSymMap symName os fn) (hs : StkobjKnown env objSymMap fn.FuncData) :
    ∃ r1 err m1 g,
      readFuncData env reloc symName objSymMap (n : Int) = some (r1, err)
      ∧ gcLoop env objSymMap fn.FuncData
          { stkmaps := reloc.stkmaps, err := none, stkobjReloc := [] } = some g
      ∧ r1.stkmaps = g.stkmaps
      ∧ m1.pclntable = reloc.module.pclntable ∧ m1.filetab = reloc.module.filetab
      ∧ r1.module.pclntable
          = (fileLoop env { reloc with module := m1 } fn.File).module.pclntable
            ++ funcPayload env os fn reloc.module.filetab.length
      ∧ r1.module.filetab = (fileLoop env { reloc with module := m1 } fn.File).module.filetab
      ∧ r1.fileMap = (fileLoop env { reloc with module := m1 } fn.File).fileMap := by
  obtain ⟨m1, g, fd, hm1, hg, hr⟩ := readFuncData_ofNat env reloc symName objSymMap n os fn hf hs
  have hrl := relocLoop_frame env hframe objSymMap fn.FuncData (beforeReloc env reloc m1 os fn g fd)
  have hbt := beforeReloc_tables env reloc m1 os fn g fd
  have hm := updateIndex_fields reloc.module m1 n hm1
  refine ⟨_, _, m1, g, hr, hg, ?_, hm.1, hm.2.2, ?_, ?_, ?_⟩
  · rw [hrl.2.2, hbt.2.2.2.2.2]
  · rw [hrl.1, hbt.2.2.1]
  · rw [hrl.1, hbt.2.2.2.1]
  · rw [hrl.2.1, hbt.2.2.2.2.1]

/-! ### C7 -/

/-- C7. The loop over the auxiliary references of a function returns and
keeps every entry that is in the cache when it starts. Hence, for a relocation
that leaves the tables alone and two functions of the catalog loaded one after
the other that both reference the auxiliary symbol `aux`: both calls return,
each keeps the entries of the cache it found, the entry of `aux` after the
second call is the entry after the first, and when `aux` is a symbol of the
catalog that was not cached before, that entry is the blob the first call read
from the defining file. -/
theorem stkmaps_filled_once (env : Env) (hframe : RelocSymFrame env) (objSymMap : StrMap objSym)
    (reloc : CodeReloc) (name1 name2 : GoString) (len1 len2 : Nat) (os1 os2 : objSym)
    (fn1 fn2 : Func) (hf1 : IsFunc objSymMap name1 os1 fn1) (hf2 : IsFunc objSymMap name2 os2 fn2)
    (hs1 : StkobjKnown env objSymMap fn1.FuncData) (hs2 : StkobjKnown env objSymMap fn2.FuncData)
    (d1 d2 : FuncDataRef) (hd1 : d1 ∈ fn1.FuncData) (_hd2 : d2 ∈ fn2.FuncData)
    (hsame : d1.Sym.Name = d2.Sym.Name) :
    (∀ s : GcState, ∃ g, gcLoop env objSymMap fn1.FuncData s = some g
        ∧ ∀ n blob, s.stkmaps n = some blob → g.stkmaps n = some blob)
    ∧ ∃ r1 e1 r2 e2,
        readFuncData env reloc name1 objSymMap (len1 : Int) = some (r1, e1)
        ∧ readFuncData env r1 name2 objSymMap (len2 : Int) = some (r2, e2)
        ∧ (∀ n blob, reloc.stkmaps n = some blob → r1.stkmaps n = some blob)
        ∧ (∀ n blob, r1.stkmaps n = some blob → r2.stkmaps n = some blob)
        ∧ r2.stkmaps d2.Sym.Name = r1.stkmaps d1.Sym.Name
        ∧ (∀ gcobj, reloc.stkmaps d1.Sym.Name = none → objSymMap d1.Sym.Name = some gcobj →
            r2.stkmaps d2.Sym.Name
              = some (some (env.ReadAt gcobj.file gcobj.sym.Data.Size gcobj.sym.Data.Offset))) := by
  constructor
  · intro s
    obtain ⟨g, hg⟩ := gcLoop_some env objSymMap fn1.FuncData hs1 s
    exact ⟨g, hg, fun n blob hn => gcLoop_keeps env objSymMap _ s g hg n blob hn⟩
  · obtain ⟨r1, e1, -, g1, hr1, hg1, hst1, -⟩ :=
      readFuncData_tables env hframe reloc name1 objSymMap len1 os1 fn1 hf1 hs1
    obtain ⟨r2, e2, -, g2, hr2, hg2, hst2, -⟩ :=
      readFuncData_tables env hframe r1 name2 objSymMap len2 os2 fn2 hf2 hs2
    have hkeep2 : ∀ n blob, r1.stkmaps n = some blob → r2.stkmaps n = some blob := by
      intro n blob hn
      rw [hst2]
      exact gcLoop_keeps env objSymMap _ _ g2 hg2 n blob hn
    have hsame2 : r2.stkmaps d2.Sym.Name = r1.stkmaps d1.Sym.Name := by
      rw [← hsame]
      rcases gcLoop_present env objSymMap _ _ g1 hg1 d1 hd1 with ⟨blob, hb⟩ | ⟨hc, hne⟩
      · rw [← hst1] at hb
        rw [hb]; exact hkeep2 _ blob hb
      · rw [hst2]
        exact gcLoop_unknown env objSymMap _ _ g2 hg2 _ hc hne
    refine ⟨r1, e1, r2, e2, hr1, hr2, ?_, hkeep2, hsame2, ?_⟩
    · intro n blob hn
      rw [hst1]
      exact gcLoop_keeps env objSymMap _ _ g1 hg1 n blob hn
    · intro gcobj hnone hcat
      rw [hsame2, hst1]
      exact gcLoop_materialises env objSymMap _ _ g1 hg1 d1 hd1 hnone gcobj hcat

/-- C7, for the functions "p" and "q" that both reference the symbol "x". -/
theorem stkmaps_filled_once_witness :
    (∀ s : GcState, ∃ g,
        gcLoop sampleEnv sampleCatalog [{ Sym := { Name := [120] }, Offset := 0 }] s = some g
        ∧ ∀ n blob, s.stkmaps n = some blob → g.stkmaps n = some blob)
    ∧ ∃ r1 e1 r2 e2,
        readFuncData sampleEnv CodeReloc.empty [112] sampleCatalog ((0 : Nat) : Int) = some (r1, e1)
        ∧ readFuncData sampleEnv r1 [113] sampleCatalog ((16 : Nat) : Int) = some (r2, e2)
        ∧ (∀ n blob, CodeReloc.empty.stkmaps n = some blob → r1.stkmaps n = some blob)
        ∧ (∀ n blob, r1.stkmaps n = some blob → r2.stkmaps n = some blob)
        ∧ r2.stkmaps [120] = r1.stkmaps [120]
        ∧ (∀ gcobj, CodeReloc.empty.stkmaps [120] = none → sampleCatalog [120] = some gcobj →
            r2.stkmaps [120]
              = some (some (sampleEnv.ReadAt gcobj.file gcobj.sym.Data.Size gcobj.sym.Data.Offset))) :=
  stkmaps_filled_once sampleEnv (fun _ _ _ => ⟨rfl, rfl, rfl⟩) sampleCatalog CodeReloc.empty
    [112] [113] 0 16 (sampleSym [112] 16 [] [{ Sym := { Name := [120] }, Offset := 0 }])
    (sampleSym [113] 16 [] [{ Sym := { Name := [120] }, Offset := 0 }]) _ _
    ⟨by decide, rfl⟩ ⟨by decide, rfl⟩
    (by intro d hd hc; simp at hd; subst hd; exact absurd hc (by decide))
    (by intro d hd hc; simp at hd; subst hd; exact absurd hc (by decide))
    { Sym := { Name := [120] }, Offset := 0 } { Sym := { Name := [120] }, Offset := 0 }
    (List.mem_cons_self _ _) (List.mem_cons_self _ _) rfl

/-! ### C8 -/

/-- C8, the claim as stated fails: the function "h" references the auxiliary
symbol with the empty name, which is neither a key of the cache nor a symbol
of the catalog, and `readFuncData` returns a nil error (line 162 caches nil
for the empty name). -/
theorem empty_name_not_an_error :
    sampleCatalog [104] = some (sampleSym [104] 16 [] [{ Sym := { Name := [] }, Offset := 0 }])
    ∧ CodeReloc.empty.stkmaps [] = none
    ∧ sampleCatalog [] = none
    ∧ (readFuncData sampleEnv CodeReloc.empty [104] sampleCatalog 0).map (fun p => p.2)
        = some none := by
  refine ⟨by decide, rfl, by decide, by decide⟩

/-- C8, amended. A call for a function of the catalog whose references with
the stack-object marker are all in the catalog returns; the error is not nil
exactly when some reference has a name that is not empty and is absent from
the catalog and from the cache, be it the cache at the time the reference is
processed or the cache on entry (the loop never caches such a name). -/
theorem unknown_gcobj_error (env : Env) (reloc : CodeReloc) (symName : GoString)
    (objSymMap : StrMap objSym) (codeLen : Nat) (os : objSym) (fn : Func)
    (hf : IsFunc objSymMap symName os fn) (hs : StkobjKnown env objSymMap fn.FuncData) :
    ∃ r1 err,
      readFuncData env reloc symName objSymMap (codeLen : Int) = some (r1, err)
      ∧ (err ≠ none ↔ ∃ k d cache, fn.FuncData[k]? = some d
            ∧ cacheAt env objSymMap fn.FuncData reloc.stkmaps k = some cache
            ∧ d.Sym.Name ≠ [] ∧ cache d.Sym.Name = none ∧ objSymMap d.Sym.Name = none)
      ∧ (err ≠ none ↔ ∃ d ∈ fn.FuncData,
            d.Sym.Name ≠ [] ∧ reloc.stkmaps d.Sym.Name = none ∧ objSymMap d.Sym.Name = none) := by
  obtain ⟨m1, g, fd, -, hg, hr⟩ := readFuncData_ofNat env reloc symName objSymMap codeLen os fn hf hs
  have herr := gcLoop_err env objSymMap fn.FuncData _ g hg
  simp only [ne_eq, not_true_eq_false, false_or] at herr
  refine ⟨_, _, hr, herr.trans ?_, herr⟩
  constructor
  · rintro ⟨d, hd, hne, hst, hcat⟩
    obtain ⟨k, hk, hkd⟩ := List.getElem_of_mem hd
    have hsk : StkobjKnown env objSymMap (fn.FuncData.take k) :=
      fun x hx => hs x (List.mem_of_mem_take hx)
    obtain ⟨gk, hgk⟩ := gcLoop_some env objSymMap (fn.FuncData.take k) hsk
      { stkmaps := reloc.stkmaps, err := none, stkobjReloc := [] }
    refine ⟨k, d, gk.stkmaps, ?_, by simp [cacheAt, hgk], hne, ?_, hcat⟩
    · rw [List.getElem?_eq_getElem hk, hkd]
    · rw [gcLoop_unknown env objSymMap _ _ gk hgk _ hcat hne]; exact hst
  · rintro ⟨k, d, cache, hkd, hcache, hne, hst, hcat⟩
    refine ⟨d, List.getElem?_mem hkd, hne, ?_, hcat⟩
    simp only [cacheAt, Option.map_eq_some'] at hcache
    obtain ⟨gk, hgk, hgc⟩ := hcache
    rw [← hgc, gcLoop_unknown env objSymMap _ _ gk hgk _ hcat hne] at hst
    exact hst

/-- C8 amended, for the function "u" that references the unknown symbol "y". -/
theorem unknown_gcobj_error_witness :
    ∃ r1 err,
      readFuncData sampleEnv CodeReloc.empty [117] sampleCatalog ((0 : Nat) : Int) = some (r1, err)
      ∧ (err ≠ none ↔ ∃ k d cache,
            ([{ Sym := { Name := [121] }, Offset := 0 }] : List FuncDataRef)[k]? = some d
            ∧ cacheAt sampleEnv sampleCatalog [{ Sym := { Name := [121] }, Offset := 0 }]
                CodeReloc.empty.stkmaps k = some cache
            ∧ d.Sym.Name ≠ [] ∧ cache d.Sym.Name = none ∧ sampleCatalog d.Sym.Name = none)
      ∧ (err ≠ none ↔ ∃ d ∈ ([{ Sym := { Name := [121] }, Offset := 0 }] : List FuncDataRef),
            d.Sym.Name ≠ [] ∧ CodeReloc.empty.stkmaps d.Sym.Name = none
              ∧ sampleCatalog d.Sym.Name = none) :=
  unknown_gcobj_error sampleEnv CodeReloc.empty [117] sampleCatalog 0
    (sampleSym [117] 16 [] [{ Sym := { Name := [121] }, Offset := 0 }]) _ ⟨by decide, rfl⟩
    (by intro d hd hc; simp at hd; subst hd; exact absurd hc (by decide))

/-! ### Functions that declare one file -/

/-- A call for a function that declares the one file `file`: what the call
does to the pool, the file table and `fileMap`, by the two cases of the file
loop. -/
theorem readFuncData_one_file (env : Env) (hframe : RelocSymFrame env) (reloc : CodeReloc)
    (symName : GoString) (objSymMap : StrMap objSym) (n : Nat) (os : objSym) (fn : Func)
    (file : GoString) (hf : IsFunc objSymMap symName os fn)
    (hs : StkobjKnown env objSymMap fn.FuncData) (hfile : fn.File = [file]) :
    ∃ r1 err,
      readFuncData env reloc symName objSymMap (n : Int) = some (r1, err)
      ∧ (reloc.fileMap (TrimLeft file env.FILE_SYM_PREFIX) = none →
          r1.module.pclntable = reloc.module.pclntable ++ TrimLeft file env.FILE_SYM_PREFIX
              ++ [ZERO_BYTE] ++ funcPayload env os fn reloc.module.filetab.length
          ∧ r1.module.filetab = reloc.module.filetab ++ [reloc.module.pclntable.length % 2 ^ 32]
          ∧ r1.fileMap = reloc.fileMap.set (TrimLeft file env.FILE_SYM_PREFIX)
              reloc.module.pclntable.length)
      ∧ (∀ offset, reloc.fileMap (TrimLeft file env.FILE_SYM_PREFIX) = some offset →
          r1.module.pclntable = reloc.module.pclntable
              ++ funcPayload env os fn reloc.module.filetab.length
          ∧ r1.module.filetab = reloc.module.filetab ++ [(offset % 2 ^ 32).toNat]
          ∧ r1.fileMap = reloc.fileMap) := by
  obtain ⟨r1, err, m1, g, hr, -, -, hp, hft, hpcln, hftab, hfm⟩ :=
    readFuncData_tables env hframe reloc symName objSymMap n os fn hf hs
  have hloop : fileLoop env { reloc with module := m1 } fn.File
      = fileStep env { reloc with module := m1 } file := by
    rw [hfile]; rfl
  rw [hloop] at hpcln hftab hfm
  refine ⟨r1, err, hr, ?_, ?_⟩
  · intro hmiss
    have hstep := fileStep_miss env { reloc with module := m1 } file hmiss
    rw [hstep] at hpcln hftab hfm
    simp only [hp, hft] at hpcln hftab hfm
    exact ⟨hpcln, hftab, hfm⟩
  · intro offset hhit
    have hstep := fileStep_hit env { reloc with module := m1 } file offset hhit
    rw [hstep] at hpcln hftab hfm
    simp only [hp, hft] at hpcln hftab hfm
    exact ⟨hpcln, hftab, hfm⟩

/-- A sequence of calls for functions that all declare the one file `file`,
from a state in which the file name is in `fileMap` at offset `off` and the
file table holds `j` entries, all equal to `off`: the pool only grows by the
payloads of the functions and every call adds the entry `off`. -/
theorem readFuncDataSeq_same_file (env : Env) (hframe : RelocSymFrame env)
    (objSymMap : StrMap objSym) (file : GoString) (off : Nat) (hoff : off < 2 ^ 32)
    (calls : List (GoString × Nat)) (r : CodeReloc) (j : Nat)
    (hmap : r.fileMap (TrimLeft file env.FILE_SYM_PREFIX) = some (off : Int))
    (hftab : r.module.filetab = List.replicate j off)
    (hcalls : ∀ c ∈ calls, ∃ os fn,
      IsFunc objSymMap c.1 os fn ∧ fn.File = [file] ∧ StkobjKnown env objSymMap fn.FuncData) :
    ∃ r1, readFuncDataSeq env objSymMap (toCalls calls) r = some r1
      ∧ r1.module.pclntable = r.module.pclntable ++ payloadsFrom env objSymMap calls j
      ∧ r1.module.filetab = List.replicate (j + calls.length) off
      ∧ r1.fileMap (TrimLeft file env.FILE_SYM_PREFIX) = some (off : Int) := by
  induction calls generalizing r j with
  | nil => exact ⟨r, rfl, by simp [payloadsFrom], by simpa using hftab, hmap⟩
  | cons c rest ih =>
    obtain ⟨os, fn, hf, hfile, hs⟩ := hcalls c (List.mem_cons_self _ _)
    obtain ⟨r1, err, hr, -, hhit⟩ :=
      readFuncData_one_file env hframe r c.1 objSymMap c.2 os fn file hf hs hfile
    obtain ⟨hp, hft, hfm⟩ := hhit _ hmap
    have hoffn : (((off : Int) % 2 ^ 32).toNat) = off := by
      have : ((off : Int) % 2 ^ 32) = ((off % 2 ^ 32 : Nat) : Int) := by push_cast; rfl
      rw [this, Int.toNat_ofNat, Nat.mod_eq_of_lt hoff]
    have hft1 : r1.module.filetab = List.replicate (j + 1) off := by
      rw [hft, hftab, hoffn, List.replicate_succ']
    obtain ⟨r2, hseq, hp2, hft2, hfm2⟩ := ih r1 (j + 1) (by rw [hfm]; exact hmap) hft1
      (fun x hx => hcalls x (List.mem_cons_of_mem _ hx))
    refine ⟨r2, ?_, ?_, ?_, hfm2⟩
    · simp only [toCalls, List.map_cons, readFuncDataSeq, hr]
      exact hseq
    · rw [hp2, hp, hftab, List.length_replicate]
      obtain ⟨cn, cl⟩ := c
      simp only [payloadsFrom, hf.1, hf.2, List.append_assoc]
    · rw [hft2]
      simp only [List.length_cons]
      congr 1
      omega

/-- The layout of the pool for functions that declare the one file `file` and
nothing else, from the empty module and the empty `fileMap`: the trimmed name
and its NUL byte, then the payloads of the functions; the file table is the
offset 0 once per function. -/
theorem single_file_pool_layout (env : Env) (hframe : RelocSymFrame env)
    (objSymMap : StrMap objSym) (file : GoString) (calls : List (GoString × Nat))
    (r0 : CodeReloc) (hne : calls ≠ []) (hmod : r0.module = module.empty)
    (hfm : r0.fileMap = StrMap.empty)
    (hcalls : ∀ c ∈ calls, ∃ os fn,
      IsFunc objSymMap c.1 os fn ∧ fn.File = [file] ∧ StkobjKnown env objSymMap fn.FuncData) :
    ∃ r1, readFuncDataSeq env objSymMap (toCalls calls) r0 = some r1
      ∧ r1.module.pclntable
          = TrimLeft file env.FILE_SYM_PREFIX ++ [ZERO_BYTE] ++ payloadsFrom env objSymMap calls 0
      ∧ r1.module.filetab = List.replicate calls.length r0.module.pclntable.length
      ∧ r0.module.pclntable.length = 0
      ∧ r1.fileMap (TrimLeft file env.FILE_SYM_PREFIX) = some 0 := by
  cases calls with
  | nil => exact absurd rfl hne
  | cons c rest =>
    obtain ⟨os, fn, hf, hfile, hs⟩ := hcalls c (List.mem_cons_self _ _)
    obtain ⟨r1, err, hr, hmiss, -⟩ :=
      readFuncData_one_file env hframe r0 c.1 objSymMap c.2 os fn file hf hs hfile
    obtain ⟨hp, hft, hfm1⟩ := hmiss (by rw [hfm]; rfl)
    have hp0 : r0.module.pclntable = [] := by rw [hmod]; rfl
    have hf0 : r0.module.filetab = [] := by rw [hmod]; rfl
    simp only [hp0, hf0, List.length_nil, List.nil_append, Nat.zero_mod] at hp hft hfm1
    obtain ⟨r2, hseq, hp2, hft2, hfm2⟩ := readFuncDataSeq_same_file env hframe objSymMap file 0
      (by decide) rest r1 1 (by rw [hfm1]; simp [StrMap.set]) (by rw [hft]; rfl)
      (fun x hx => hcalls x (List.mem_cons_of_mem _ hx))
    refine ⟨r2, ?_, ?_, ?_, by rw [hp0]; rfl, by simpa using hfm2⟩
    · simp only [toCalls, List.map_cons, readFuncDataSeq, hr]
      exact hseq
    · rw [hp2, hp]
      obtain ⟨cn, cl⟩ := c
      simp only [payloadsFrom, hf.1, hf.2, List.append_assoc]
    · rw [hft2, hp0]
      simp only [List.length_cons, List.length_nil]
      congr 1
      omega

/-! ### C12 -/

/-- C12. For every bucket table and every code length that is not negative,
after the growth loop the bucket index `codeLen / 4096` is not negative and
below `len(module.pcfunc)`, the slot index `codeLen mod 4096 / 256` is not
negative and below `nsub = 16`, and the index update returns without a
panic. -/
theorem index_writes_in_bounds (m : module) (codeLen : Nat) :
    0 ≤ Int.tdiv (codeLen : Int) (pcbucketsize : Nat)
    ∧ (Int.tdiv (codeLen : Int) (pcbucketsize : Nat)).toNat
        < (growPcfunc (Int.tdiv (codeLen : Int) (pcbucketsize : Nat) - m.pcfunc.length + 1).toNat
            m.pcfunc).length
    ∧ 0 ≤ Int.tdiv (Int.tmod (codeLen : Int) (pcbucketsize : Nat)) ((pcbucketsize / nsub : Nat) : Int)
    ∧ Int.tdiv (Int.tmod (codeLen : Int) (pcbucketsize : Nat)) ((pcbucketsize / nsub : Nat) : Int)
        < (nsub : Int)
    ∧ nsub = 16
    ∧ ∃ m1, updateIndex m (codeLen : Int) = some m1 := by
  have hb : Int.tdiv (codeLen : Int) ((pcbucketsize : Nat) : Int) = ((codeLen / 4096 : Nat) : Int) := by
    rw [← Int.ofNat_tdiv]; rfl
  have hi : Int.tdiv (Int.tmod (codeLen : Int) ((pcbucketsize : Nat) : Int))
      ((pcbucketsize / nsub : Nat) : Int) = ((codeLen % 4096 / 256 : Nat) : Int) := by
    rw [← Int.ofNat_tmod, ← Int.ofNat_tdiv]; rfl
  have hi2 : (codeLen % 4096 / 256 : Nat) < 16 := by omega
  obtain ⟨bucket, -, hm1⟩ := updateIndex_ofNat m codeLen
  rw [hb, hi]
  refine ⟨Int.ofNat_nonneg _, ?_, Int.ofNat_nonneg _, ?_, rfl, _, hm1⟩
  · rw [growPcfunc_length, Int.toNat_ofNat]
    omega
  · have : nsub = 16 := rfl
    rw [this]
    exact_mod_cast hi2

/-! ### C11 -/

/-- C11. When the base index of bucket `b = codeLen / 4096` is `256 * b` (the
table satisfies the base index invariant and `b < 2^24`), a call for a
function of the catalog returns and the value in the written slot is
`len(module.funcdata) mod 256`, whatever the record count and the bucket; the
returned error does not depend on the record count (it is set exactly for an
unknown auxiliary symbol); and `idx` plus the stored value is the record index
exactly when `256 * b <= count <= 256 * b + 255`. -/
theorem subbucket_delta_truncated (env : Env) (hframe : RelocSymFrame env) (reloc : CodeReloc)
    (symName : GoString) (objSymMap : StrMap objSym) (codeLen : Nat) (os : objSym) (fn : Func)
    (hf : IsFunc objSymMap symName os fn) (hs : StkobjKnown env objSymMap fn.FuncData)
    (hinv : BaseIndexInv reloc.module.pcfunc) (hsmall : codeLen / 4096 < 2 ^ 24) :
    ∃ r1 err bucket,
      readFuncData env reloc symName objSymMap (codeLen : Int) = some (r1, err)
      ∧ r1.module.pcfunc[codeLen / 4096]? = some bucket
      ∧ bucket.idx = 256 * (codeLen / 4096)
      ∧ bucket.subbuckets (Fin.ofNat (codeLen % 4096 / 256)) = reloc.module.funcdata.length % 256
      ∧ (err ≠ none ↔ ∃ d ∈ fn.FuncData,
            d.Sym.Name ≠ [] ∧ reloc.stkmaps d.Sym.Name = none ∧ objSymMap d.Sym.Name = none)
      ∧ (bucket.idx + bucket.subbuckets (Fin.ofNat (codeLen % 4096 / 256))
            = reloc.module.funcdata.length
          ↔ 256 * (codeLen / 4096) ≤ reloc.module.funcdata.length
            ∧ reloc.module.funcdata.length ≤ 256 * (codeLen / 4096) + 255) := by
  obtain ⟨m1, g, fd, hm1, hg, hr⟩ :=
    readFuncData_ofNat env reloc symName objSymMap codeLen os fn hf hs
  obtain ⟨bucket, hb, hm1b⟩ := updateIndex_ofNat reloc.module codeLen
  rw [hm1] at hm1b
  simp only [Option.some.injEq] at hm1b
  have hrl := relocLoop_frame env hframe objSymMap fn.FuncData (beforeReloc env reloc m1 os fn g fd)
  have hbt := beforeReloc_tables env reloc m1 os fn g fd
  have herr := gcLoop_err env objSymMap fn.FuncData _ g hg
  simp only [ne_eq, not_true_eq_false, false_or] at herr
  have hidx : bucket.idx = 256 * (codeLen / 4096) := by
    by_cases hlt : codeLen / 4096 < reloc.module.pcfunc.length
    · rw [growPcfunc_old _ _ _ hlt] at hb
      exact hinv _ _ hb
    · rw [growPcfunc_new _ _ _ (by omega) (by omega)] at hb
      simp only [Option.some.injEq] at hb
      rw [← hb]
      simp only []
      exact Nat.mod_eq_of_lt (by omega)
  have hlen : codeLen / 4096
      < (growPcfunc (codeLen / 4096 + 1 - reloc.module.pcfunc.length) reloc.module.pcfunc).length := by
    rw [growPcfunc_length]; omega
  have hval : (((reloc.module.funcdata.length : Int) - (bucket.idx : Int)) % 256).toNat
      = reloc.module.funcdata.length % 256 := by
    rw [hidx]
    omega
  refine ⟨_, _, { bucket with
      subbuckets := Function.update bucket.subbuckets (Fin.ofNat (codeLen % 4096 / 256))
        (((reloc.module.funcdata.length : Int) - (bucket.idx : Int)) % 256).toNat },
    hr, ?_, hidx, ?_, herr, ?_⟩
  · rw [hrl.1, hbt.1, hm1b]
    simp only []
    rw [List.getElem?_set, if_pos rfl, if_pos hlen]
  · simp only [Function.update_same]
    exact hval
  · simp only [Function.update_same]
    rw [hval, hidx]
    omega

/-- C11, at a call for bucket 1 on the empty module: the record count is 0,
the slot holds `0 mod 256` and `idx` plus the stored value is 256, not 0. -/
theorem subbucket_delta_truncated_witness :
    ∃ r1 err bucket,
      readFuncData sampleEnv CodeReloc.empty [103] sampleCatalog ((4096 : Nat) : Int) = some (r1, err)
      ∧ r1.module.pcfunc[4096 / 4096]? = some bucket
      ∧ bucket.idx = 256 * (4096 / 4096)
      ∧ bucket.subbuckets (Fin.ofNat (4096 % 4096 / 256))
          = CodeReloc.empty.module.funcdata.length % 256
      ∧ (err ≠ none ↔ ∃ d ∈ ([] : List FuncDataRef),
            d.Sym.Name ≠ [] ∧ CodeReloc.empty.stkmaps d.Sym.Name = none
              ∧ sampleCatalog d.Sym.Name = none)
      ∧ (bucket.idx + bucket.subbuckets (Fin.ofNat (4096 % 4096 / 256))
            = CodeReloc.empty.module.funcdata.length
          ↔ 256 * (4096 / 4096) ≤ CodeReloc.empty.module.funcdata.length
            ∧ CodeReloc.empty.module.funcdata.length ≤ 256 * (4096 / 4096) + 255) :=
  subbucket_delta_truncated sampleEnv (fun _ _ _ => ⟨rfl, rfl, rfl⟩) CodeReloc.empty [103]
    sampleCatalog 4096 (sampleSym [103] 16 [sampleFile] []) _ ⟨by decide, rfl⟩
    (by intro d hd; cases hd)
    (by intro k bucket hk; simp [CodeReloc.empty, module.empty] at hk) (by decide)


/-! ### C17 -/

/-- The walk of `removeModule` over a chain none of whose nodes is the
argument ends at nil and leaves the heap as it is. -/
theorem removeModuleLoop_nonmember (module : Iface) (next : Nat → Ptr) (l : List Nat) (p : Nat)
    (d : Ptr) (fuel : Nat) (hc : Chain next d l)
    (hnot : ∀ x ∈ l, Iface.moduledata (some x) ≠ module) (hfuel : l.length ≤ fuel) :
    removeModuleLoop module fuel next p d = some next := by
  induction l generalizing p d fuel with
  | nil =>
    rw [chain_nil] at hc
    subst hc
    cases fuel <;> rfl
  | cons a t ih =>
    rw [chain_cons] at hc
    obtain ⟨hd, ht⟩ := hc
    subst hd
    cases fuel with
    | zero => simp at hfuel
    | succ fuel =>
      rw [removeModuleLoop, if_neg (hnot a (List.mem_cons_self _ _))]
      exact ih a (next a) fuel ht (fun x hx => hnot x (List.mem_cons_of_mem _ hx))
        (by simpa using hfuel)

/-- C17, the claim as stated fails: the argument is a value whose dynamic type
cannot be hashed; it is no node of the chain `firstmoduledata -> 1 -> 2`, the
walk of lines 199-206 ends (it returns the heap), and the call still does not
return: `delete(modules, module)` of line 207 panics. -/
theorem removeModule_unhashable_panics :
    Chain sampleRegistry.next (some firstmoduledata) [0, 1, 2]
    ∧ (∀ x ∈ [0, 1, 2], Iface.moduledata (some x) ≠ Iface.unhashable 0)
    ∧ (removeModuleLoop (Iface.unhashable 0) 3 sampleRegistry.next firstmoduledata
        (some firstmoduledata)).isSome = true
    ∧ (removeModule 3 sampleRegistry (Iface.unhashable 0)).isNone = true := by
  refine ⟨by decide, by decide, by decide, by decide⟩

/-- C17, amended. For a finite chain `l` from `firstmoduledata`, an argument
whose dynamic type can be a map key and that is no node of the chain or is the
head `firstmoduledata`, and fuel for the walk, `removeModule` returns; every
`next` link, hence the chain with its nodes and their order, is as before, and
the map `modules` differs only by the deleted key of the argument. -/
theorem removeModule_keeps_chain (g : Registry) (module : Iface) (l : List Nat) (fuel : Nat)
    (hc : Chain g.next (some firstmoduledata) l)
    (hhash : module.hashable = true)
    (harg : (∀ x ∈ l, Iface.moduledata (some x) ≠ module)
      ∨ module = Iface.moduledata (some firstmoduledata))
    (hfuel : l.length ≤ fuel) :
    ∃ g1,
      removeModule fuel g module = some g1
      ∧ g1.next = g.next
      ∧ Chain g1.next (some firstmoduledata) l
      ∧ g1.modules module = none
      ∧ ∀ k, k ≠ module → g1.modules k = g.modules k := by
  have hloop : removeModuleLoop module fuel g.next firstmoduledata (some firstmoduledata)
      = some g.next := by
    rcases harg with hnot | hhead
    · exact removeModuleLoop_nonmember module g.next l firstmoduledata _ fuel hc hnot hfuel
    · cases l with
      | nil => rw [chain_nil] at hc; exact absurd hc (by simp)
      | cons a t =>
        cases fuel with
        | zero => simp at hfuel
        | succ fuel =>
          rw [removeModuleLoop, if_pos hhead.symm, Function.update_eq_self]
  refine ⟨{ next := g.next, modules := Function.update g.modules module none }, ?_, rfl, hc, ?_, ?_⟩
  · simp only [removeModule, hloop, hhash, if_true]
  · simp
  · intro k hk
    simp [Function.update_noteq hk]

/-- C17 amended, on the chain `firstmoduledata -> 1 -> 2` with the argument 7,
a pointer that is no node of the chain. -/
theorem removeModule_keeps_chain_witness :
    ∃ g1,
      removeModule 3 sampleRegistry (Iface.moduledata (some 7)) = some g1
      ∧ g1.next = sampleRegistry.next
      ∧ Chain g1.next (some firstmoduledata) [0, 1, 2]
      ∧ g1.modules (Iface.moduledata (some 7)) = none
      ∧ ∀ k, k ≠ Iface.moduledata (some 7) → g1.modules k = sampleRegistry.modules k :=
  removeModule_keeps_chain sampleRegistry (Iface.moduledata (some 7)) [0, 1, 2] 3 (by decide) rfl
    (Or.inl (by decide)) (by decide)

/-! ### C13 -/

/-- Bytes that lie inside a list are not moved by an append. -/
theorem take_drop_append_left (l x : List Nat) (o k : Nat) (h : o + k ≤ l.length) :
    ((l ++ x).drop o).take k = (l.drop o).take k := by
  rw [List.drop_append_of_le_length (by omega), List.take_append_of_le_length]
  rw [List.length_drop]
  omega

/-- An offset of the file table predicate leaves room for the name and its
NUL byte. -/
theorem fileInv_room (pclntable n : List Nat) (o : Nat)
    (h : (pclntable.drop o).take (n.length + 1) = n ++ [ZERO_BYTE]) :
    o + (n.length + 1) ≤ pclntable.length := by
  have hl := congrArg List.length h
  simp only [List.length_take, List.length_drop, List.length_append, List.length_singleton] at hl
  omega

/-- The file table predicate survives an append to the pool. -/
theorem fileInv_append (fileMap : StrMap Int) (pclntable filetab extra : List Nat)
    (h : FileInv fileMap pclntable filetab) : FileInv fileMap (pclntable ++ extra) filetab := by
  refine ⟨?_, h.2⟩
  intro n off hn
  obtain ⟨h0, hb⟩ := h.1 n off hn
  refine ⟨h0, ?_⟩
  rw [take_drop_append_left _ _ _ _ (fileInv_room _ _ _ hb)]
  exact hb

/-- The pool only grows in one round of the file loop. -/
theorem fileStep_pclntable_le (env : Env) (r : CodeReloc) (f : GoString) :
    r.module.pclntable.length ≤ (fileStep env r f).module.pclntable.length := by
  cases h : r.fileMap (TrimLeft f env.FILE_SYM_PREFIX) with
  | none => rw [fileStep_miss env r f h]; simp
  | some offset => rw [fileStep_hit env r f offset h]

/-- The pool only grows in the file loop. -/
theorem fileLoop_pclntable_le (env : Env) (files : List GoString) (r : CodeReloc) :
    r.module.pclntable.length ≤ (fileLoop env r files).module.pclntable.length := by
  induction files generalizing r with
  | nil => exact le_refl _
  | cons f fs ih =>
    have h1 := fileStep_pclntable_le env r f
    have h2 := ih (fileStep env r f)
    simp only [fileLoop, List.foldl_cons] at h2 ⊢
    omega

/-- One round of the file loop keeps the file table predicate while the pool
is shorter than `2^32`. -/
theorem fileStep_inv (env : Env) (r : CodeReloc) (f : GoString)
    (hinv : FileInv r.fileMap r.module.pclntable r.module.filetab)
    (hlen : (fileStep env r f).module.pclntable.length < 2 ^ 32) :
    FileInv (fileStep env r f).fileMap (fileStep env r f).module.pclntable
      (fileStep env r f).module.filetab := by
  cases h : r.fileMap (TrimLeft f env.FILE_SYM_PREFIX) with
  | none =>
    rw [fileStep_miss env r f h] at hlen ⊢
    simp only [List.length_append, List.length_singleton] at hlen
    simp only []
    refine ⟨?_, ?_⟩
    · intro n off hn
      by_cases hnt : n = TrimLeft f env.FILE_SYM_PREFIX
      · subst hnt
        simp only [StrMap.set, if_true, Option.some.injEq] at hn
        subst hn
        refine ⟨Int.ofNat_nonneg _, ?_⟩
        rw [Int.toNat_ofNat, List.append_assoc, List.drop_left, List.take_of_length_le]
        simp
      · simp only [StrMap.set, if_neg hnt] at hn
        obtain ⟨h0, hb⟩ := hinv.1 n off hn
        refine ⟨h0, ?_⟩
        rw [List.append_assoc, take_drop_append_left _ _ _ _ (fileInv_room _ _ _ hb)]
        exact hb
    · intro e he
      rcases List.mem_append.mp he with hold | hnew
      · obtain ⟨n, hn⟩ := hinv.2 e hold
        refine ⟨n, ?_⟩
        have hnt : n ≠ TrimLeft f env.FILE_SYM_PREFIX := by
          intro hc; rw [hc, h] at hn; exact absurd hn (by simp)
        simp only [StrMap.set, if_neg hnt]
        exact hn
      · simp only [List.mem_singleton] at hnew
        refine ⟨TrimLeft f env.FILE_SYM_PREFIX, ?_⟩
        simp only [StrMap.set, if_true]
        rw [hnew, Nat.mod_eq_of_lt (by omega)]
  | some offset =>
    rw [fileStep_hit env r f offset h] at hlen ⊢
    simp only [] at hlen ⊢
    refine ⟨hinv.1, ?_⟩
    intro e he
    rcases List.mem_append.mp he with hold | hnew
    · exact hinv.2 e hold
    · simp only [List.mem_singleton] at hnew
      obtain ⟨h0, hb⟩ := hinv.1 _ offset h
      have hroom := fileInv_room _ _ _ hb
      refine ⟨TrimLeft f env.FILE_SYM_PREFIX, ?_⟩
      rw [h, hnew]
      congr 1
      omega

/-- The file loop keeps the file table predicate while the pool is shorter
than `2^32`. -/
theorem fileLoop_inv (env : Env) (files : List GoString) (r : CodeReloc)
    (hinv : FileInv r.fileMap r.module.pclntable r.module.filetab)
    (hlen : (fileLoop env r files).module.pclntable.length < 2 ^ 32) :
    FileInv (fileLoop env r files).fileMap (fileLoop env r files).module.pclntable
      (fileLoop env r files).module.filetab := by
  induction files generalizing r with
  | nil => exact hinv
  | cons f fs ih =>
    have hmono := fileLoop_pclntable_le env fs (fileStep env r f)
    simp only [fileLoop, List.foldl_cons] at hlen hmono ⊢
    exact ih (fileStep env r f) (fileStep_inv env r f hinv (by omega)) hlen

/-- C13. The file table predicate (every offset of `fileMap` is a position of
`pclntable` at which the name and a NUL byte stand; every entry of `filetab`
is such an offset) holds for the empty state, is kept by the file loop of
`readFuncData` while the pool is shorter than `2^32`, and is kept by any later
append to the pool; hence every entry of `filetab` is an offset inside
`pclntable` at which a NUL-terminated file name begins. -/
theorem file_offsets_valid (env : Env) (r : CodeReloc) (files : List GoString)
    (hinv : FileInv r.fileMap r.module.pclntable r.module.filetab)
    (hlen : (fileLoop env r files).module.pclntable.length < 2 ^ 32) :
    FileInv CodeReloc.empty.fileMap CodeReloc.empty.module.pclntable CodeReloc.empty.module.filetab
    ∧ FileInv (fileLoop env r files).fileMap (fileLoop env r files).module.pclntable
        (fileLoop env r files).module.filetab
    ∧ (∀ extra, FileInv (fileLoop env r files).fileMap
        ((fileLoop env r files).module.pclntable ++ extra) (fileLoop env r files).module.filetab)
    ∧ ∀ e ∈ (fileLoop env r files).module.filetab, ∃ n : GoString,
        e + (n.length + 1) ≤ (fileLoop env r files).module.pclntable.length
        ∧ ((fileLoop env r files).module.pclntable.drop e).take (n.length + 1)
            = n ++ [ZERO_BYTE] := by
  have hpost := fileLoop_inv env files r hinv hlen
  refine ⟨?_, hpost, fun extra => fileInv_append _ _ _ extra hpost, ?_⟩
  · refine ⟨?_, ?_⟩
    · intro n off hn
      exact absurd hn (by simp [CodeReloc.empty, StrMap.empty])
    · intro e he
      exact absurd he (by simp [CodeReloc.empty, module.empty])
  · intro e he
    obtain ⟨n, hn⟩ := hpost.2 e he
    obtain ⟨-, hb⟩ := hpost.1 n _ hn
    rw [Int.toNat_ofNat] at hb
    exact ⟨n, fileInv_room _ _ _ hb, hb⟩

/-- C13, for the file loop of the file "gofile..a.go" twice on the empty
state. -/
theorem file_offsets_valid_witness :
    FileInv CodeReloc.empty.fileMap CodeReloc.empty.module.pclntable CodeReloc.empty.module.filetab
    ∧ FileInv (fileLoop sampleEnv CodeReloc.empty [sampleFile, sampleFile]).fileMap
        (fileLoop sampleEnv CodeReloc.empty [sampleFile, sampleFile]).module.pclntable
        (fileLoop sampleEnv CodeReloc.empty [sampleFile, sampleFile]).module.filetab
    ∧ (∀ extra, FileInv (fileLoop sampleEnv CodeReloc.empty [sampleFile, sampleFile]).fileMap
        ((fileLoop sampleEnv CodeReloc.empty [sampleFile, sampleFile]).module.pclntable ++ extra)
        (fileLoop sampleEnv CodeReloc.empty [sampleFile, sampleFile]).module.filetab)
    ∧ ∀ e ∈ (fileLoop sampleEnv CodeReloc.empty [sampleFile, sampleFile]).module.filetab,
        ∃ n : GoString,
          e + (n.length + 1)
            ≤ (fileLoop sampleEnv CodeReloc.empty [sampleFile, sampleFile]).module.pclntable.length
          ∧ ((fileLoop sampleEnv CodeReloc.empty [sampleFile, sampleFile]).module.pclntable.drop
              e).take (n.length + 1) = n ++ [ZERO_BYTE] :=
  file_offsets_valid sampleEnv CodeReloc.empty [sampleFile, sampleFile]
    ⟨fun n off hn => absurd hn (by simp [CodeReloc.empty, StrMap.empty]),
      fun e he => absurd he (by simp [CodeReloc.empty, module.empty])⟩
    (by decide)


/-! ### The appended record and the pool -/

/-- The result of a call with the appended record spelled out. -/
theorem readFuncData_record (env : Env) (reloc : CodeReloc) (symName : GoString)
    (objSymMap : StrMap objSym) (codeLen : Int) (os : objSym) (fn : Func) (m1 : module)
    (g : GcState) (hf : IsFunc objSymMap symName os fn)
    (hm1 : updateIndex reloc.module codeLen = some m1)
    (hg : gcLoop env objSymMap fn.FuncData
      { stkmaps := reloc.stkmaps, err := none, stkobjReloc := [] } = some g) :
    readFuncData env reloc symName objSymMap codeLen
      = some (relocLoop env objSymMap fn.FuncData
          (beforeReloc env reloc m1 os fn g (recordOf env reloc symName m1 os fn g)), g.err) := by
  have hfl := fileLoop_frame env fn.File { reloc with module := m1 }
  have hm := updateIndex_fields reloc.module m1 codeLen hm1
  simp only [readFuncData, beforeReloc, recordOf, hm1, hf.1, hf.2, hfl.1, hg, hfl.2.2.2, funcPayload,
    List.append_assoc, hm.2.1, hm.2.2]

/-- The offsets of the appended record: the name offset is the length of the
pool after the file loop, the stack-delta table follows the name and its NUL
byte, the PCFile offset follows the stack-delta table. -/
theorem recordOf_offsets (env : Env) (reloc : CodeReloc) (symName : GoString) (m1 : module)
    (os : objSym) (fn : Func) (g : GcState) :
    (recordOf env reloc symName m1 os fn g).func.nameoff
        = ((fileLoop env { reloc with module := m1 } fn.File).module.pclntable.length : Int)
    ∧ (recordOf env reloc symName m1 os fn g).func.pcsp
        = (((fileLoop env { reloc with module := m1 } fn.File).module.pclntable.length
            + os.sym.Name.length + 1 : Nat) : Int)
    ∧ (recordOf env reloc symName m1 os fn g).func.pcfile
        = (((fileLoop env { reloc with module := m1 } fn.File).module.pclntable.length
            + os.sym.Name.length + 1
            + (env.ReadAtWithSize os.file fn.PCSP.Size fn.PCSP.Offset).length : Nat) : Int)
    ∧ (recordOf env reloc symName m1 os fn g).func.entry = symOffset reloc symName
    ∧ (recordOf env reloc symName m1 os fn g).Name = os.sym.Name := by
  have hfl := fileLoop_frame env fn.File { reloc with module := m1 }
  refine ⟨rfl, ?_, ?_, ?_, rfl⟩
  · simp only [recordOf, init_func, List.length_append, List.length_singleton]
  · simp only [recordOf, init_func, List.length_append, List.length_singleton]
  · simp [recordOf, init_func, symOffset, hfl.2.1]

/-- The middle part of a list of three parts, cut out by its position. -/
theorem drop_take_middle (a b c : List Nat) :
    ((a ++ (b ++ c)).drop a.length).take b.length = b := by
  rw [List.drop_left, List.take_left]


/-- The state after a call for a function of the catalog, with the record and
the tables spelled out, for a relocation that leaves the tables alone. -/
theorem readFuncData_full (env : Env) (hframe : RelocSymFrame env) (reloc : CodeReloc)
    (symName : GoString) (objSymMap : StrMap objSym) (n : Nat) (os : objSym) (fn : Func)
    (hf : IsFunc objSymMap symName os fn) (hs : StkobjKnown env objSymMap fn.FuncData) :
    ∃ r1 m1 g,
      readFuncData env reloc symName objSymMap (n : Int) = some (r1, g.err)
      ∧ updateIndex reloc.module (n : Int) = some m1
      ∧ gcLoop env objSymMap fn.FuncData
          { stkmaps := reloc.stkmaps, err := none, stkobjReloc := [] } = some g
      ∧ r1.module.funcdata = reloc.module.funcdata ++ [recordOf env reloc symName m1 os fn g]
      ∧ r1.module.pclntable
          = (fileLoop env { reloc with module := m1 } fn.File).module.pclntable
            ++ funcPayload env os fn reloc.module.filetab.length
      ∧ r1.module.filetab = (fileLoop env { reloc with module := m1 } fn.File).module.filetab
      ∧ r1.fileMap = (fileLoop env { reloc with module := m1 } fn.File).fileMap
      ∧ r1.module.pcfunc = m1.pcfunc := by
  obtain ⟨m1, g, -, hm1, hg, -⟩ := readFuncData_ofNat env reloc symName objSymMap n os fn hf hs
  have hr := readFuncData_record env reloc symName objSymMap n os fn m1 g hf hm1 hg
  have hrl := relocLoop_frame env hframe objSymMap fn.FuncData
    (beforeReloc env reloc m1 os fn g (recordOf env reloc symName m1 os fn g))
  have hbt := beforeReloc_tables env reloc m1 os fn g (recordOf env reloc symName m1 os fn g)
  refine ⟨_, m1, g, hr, hm1, hg, ?_, ?_, ?_, ?_, ?_⟩
  · rw [hrl.1, hbt.2.1]
  · rw [hrl.1, hbt.2.2.1]
  · rw [hrl.1, hbt.2.2.2.1]
  · rw [hrl.2.1, hbt.2.2.2.2.1]
  · rw [hrl.1, hbt.1]

/-! ### C14 -/

/-- C14. A call for a function of the catalog returns and appends a record
whose `_func` is `init_func` applied to a name offset equal to the length of
`pclntable` after the file loop of this function; in the pool after the call
the bytes from that offset are the name of the symbol, followed by a NUL byte;
and the stack-delta offset handed to `init_func` is the name offset plus the
length of the name plus one. -/
theorem name_pooled_at_offset (env : Env) (hframe : RelocSymFrame env) (reloc : CodeReloc)
    (symName : GoString) (objSymMap : StrMap objSym) (codeLen : Nat) (os : objSym) (fn : Func)
    (hf : IsFunc objSymMap symName os fn) (hs : StkobjKnown env objSymMap fn.FuncData) :
    ∃ r1 err m1 fd nameOff pcfileOff pclnOff,
      readFuncData env reloc symName objSymMap (codeLen : Int) = some (r1, err)
      ∧ updateIndex reloc.module (codeLen : Int) = some m1
      ∧ r1.module.funcdata = reloc.module.funcdata ++ [fd]
      ∧ nameOff = (fileLoop env { reloc with module := m1 } fn.File).module.pclntable.length
      ∧ fd.func = init_func os.sym (symOffset reloc symName) (nameOff : Int)
          ((nameOff + os.sym.Name.length + 1 : Nat) : Int) pcfileOff pclnOff
      ∧ (r1.module.pclntable.drop nameOff).take os.sym.Name.length = os.sym.Name
      ∧ r1.module.pclntable[nameOff + os.sym.Name.length]? = some ZERO_BYTE
      ∧ fd.func.nameoff = (nameOff : Int)
      ∧ fd.func.pcsp = (nameOff : Int) + (os.sym.Name.length : Int) + 1 := by
  obtain ⟨r1, m1, g, hr, hm1, -, hfd, hp, -, -, -⟩ :=
    readFuncData_full env hframe reloc symName objSymMap codeLen os fn hf hs
  obtain ⟨hno, hsp, -, hen, -⟩ := recordOf_offsets env reloc symName m1 os fn g
  refine ⟨r1, g.err, m1, recordOf env reloc symName m1 os fn g, _,
    (recordOf env reloc symName m1 os fn g).func.pcfile,
    (recordOf env reloc symName m1 os fn g).func.pcln, hr, hm1, hfd, rfl, ?_, ?_, ?_, hno, ?_⟩
  · rw [← hno, ← hsp, ← hen]
    rfl
  · rw [hp]
    simp only [funcPayload, List.append_assoc]
    exact drop_take_middle _ _ _
  · rw [hp]
    simp only [funcPayload, List.append_assoc]
    rw [List.getElem?_append_right (by omega)]
    rw [Nat.add_sub_cancel_left, List.getElem?_append_right (le_refl _)]
    simp
  · rw [hsp]
    push_cast
    ring

/-- C14, for the function "g" on the empty state: the file name "a.go" and
its NUL byte come first, the name "g" stands at offset 5. -/
theorem name_pooled_at_offset_witness :
    ∃ r1 err m1 fd nameOff pcfileOff pclnOff,
      readFuncData sampleEnv CodeReloc.empty [103] sampleCatalog ((0 : Nat) : Int) = some (r1, err)
      ∧ updateIndex CodeReloc.empty.module ((0 : Nat) : Int) = some m1
      ∧ r1.module.funcdata = CodeReloc.empty.module.funcdata ++ [fd]
      ∧ nameOff
          = (fileLoop sampleEnv { CodeReloc.empty with module := m1 }
              [sampleFile]).module.pclntable.length
      ∧ fd.func = init_func (sampleSym [103] 16 [sampleFile] []).sym
          (symOffset CodeReloc.empty [103]) (nameOff : Int)
          ((nameOff + (sampleSym [103] 16 [sampleFile] []).sym.Name.length + 1 : Nat) : Int)
          pcfileOff pclnOff
      ∧ (r1.module.pclntable.drop nameOff).take (sampleSym [103] 16 [sampleFile] []).sym.Name.length
          = (sampleSym [103] 16 [sampleFile] []).sym.Name
      ∧ r1.module.pclntable[nameOff + (sampleSym [103] 16 [sampleFile] []).sym.Name.length]?
          = some ZERO_BYTE
      ∧ fd.func.nameoff = (nameOff : Int)
      ∧ fd.func.pcsp
          = (nameOff : Int) + ((sampleSym [103] 16 [sampleFile] []).sym.Name.length : Int) + 1 :=
  name_pooled_at_offset sampleEnv (fun _ _ _ => ⟨rfl, rfl, rfl⟩) CodeReloc.empty [103] sampleCatalog
    0 (sampleSym [103] 16 [sampleFile] []) _ ⟨by decide, rfl⟩ (by intro d hd; cases hd)


/-! ### C18 -/

/-- The loop of `PutUvarint` writes at least one byte. -/
theorem PutUvarintLoop_ne_nil (n x : Nat) : PutUvarintLoop n x ≠ [] := by
  cases n with
  | zero => simp [PutUvarintLoop]
  | succ n =>
    rw [PutUvarintLoop]
    split <;> simp

/-- With enough rounds the loop of `PutUvarint` writes the unsigned varint
encoding. -/
theorem PutUvarintLoop_eq (n x : Nat) (hx : x < 128 ^ (n + 1)) :
    PutUvarintLoop n x = uvarintEncode x := by
  induction n generalizing x with
  | zero =>
    have h : x < 128 := by simpa using hx
    rw [PutUvarintLoop, uvarintEncode, dif_pos h, Nat.mod_eq_of_lt (by omega)]
  | succ n ih =>
    rw [PutUvarintLoop, uvarintEncode]
    by_cases h : x < 128
    · rw [if_pos h, dif_pos h]
    · rw [if_neg h, dif_neg h, ih]
      rw [Nat.pow_succ] at hx
      exact Nat.div_lt_of_lt_mul (by rw [Nat.mul_comm]; exact hx)

/-- Every byte the loop of `PutUvarint` writes before the last one has the
bit `0x80` set. -/
theorem PutUvarintLoop_dropLast (n x : Nat) :
    ∀ b ∈ (PutUvarintLoop n x).dropLast, b < 256 ∧ b / 128 % 2 = 1 := by
  induction n generalizing x with
  | zero => simp [PutUvarintLoop]
  | succ n ih =>
    rw [PutUvarintLoop]
    by_cases h : x < 128
    · rw [if_pos h]; simp
    · rw [if_neg h]
      obtain ⟨y, ys, hy⟩ := List.exists_cons_of_ne_nil (PutUvarintLoop_ne_nil n (x / 128))
      intro b hb
      rw [hy, List.dropLast_cons₂] at hb
      rcases List.mem_cons.mp hb with hb0 | hb1
      · subst hb0
        omega
      · exact ih (x / 128) b (by rw [hy]; exact hb1)

/-- C18. A call for a function of the catalog returns with a pool in which, at
the PCFile offset handed to `init_func`, stand the bytes `pcFileHead F`
followed by the PCFile table read from the object file, `F` being
`len(module.filetab)` on entry. For `F < 2^63` these bytes are the unsigned
varint encoding of `2 * F` without its last byte; there is none when `F < 64`,
exactly one when `64 <= F < 8192`, and each of them has the bit `0x80` set. -/
theorem pcfile_head_bytes (env : Env) (hframe : RelocSymFrame env) (reloc : CodeReloc)
    (symName : GoString) (objSymMap : StrMap objSym) (codeLen : Nat) (os : objSym) (fn : Func)
    (hf : IsFunc objSymMap symName os fn) (hs : StkobjKnown env objSymMap fn.FuncData) :
    ∃ r1 err fd, ∃ pcfileOff : Nat,
      readFuncData env reloc symName objSymMap (codeLen : Int) = some (r1, err)
      ∧ r1.module.funcdata = reloc.module.funcdata ++ [fd]
      ∧ fd.func.pcfile = (pcfileOff : Int)
      ∧ (r1.module.pclntable.drop pcfileOff).take (pcFileHead reloc.module.filetab.length).length
          = pcFileHead reloc.module.filetab.length
      ∧ (r1.module.pclntable.drop
            (pcfileOff + (pcFileHead reloc.module.filetab.length).length)).take
            (env.ReadAtWithSize os.file fn.PCFile.Size fn.PCFile.Offset).length
          = env.ReadAtWithSize os.file fn.PCFile.Size fn.PCFile.Offset
      ∧ (reloc.module.filetab.length < 2 ^ 63 →
          pcFileHead reloc.module.filetab.length
            = (uvarintEncode (2 * reloc.module.filetab.length)).dropLast)
      ∧ (reloc.module.filetab.length < 64 → pcFileHead reloc.module.filetab.length = [])
      ∧ (64 ≤ reloc.module.filetab.length → reloc.module.filetab.length < 8192 →
          (pcFileHead reloc.module.filetab.length).length = 1)
      ∧ ∀ b ∈ pcFileHead reloc.module.filetab.length, b < 256 ∧ b / 128 % 2 = 1 := by
  obtain ⟨r1, m1, g, hr, -, -, hfd, hp, -, -, -⟩ :=
    readFuncData_full env hframe reloc symName objSymMap codeLen os fn hf hs
  obtain ⟨-, -, hpf, -, -⟩ := recordOf_offsets env reloc symName m1 os fn g
  refine ⟨r1, g.err, recordOf env reloc symName m1 os fn g, _, hr, hfd, hpf, ?_, ?_, ?_, ?_, ?_, ?_⟩
  · rw [hp]
    simp only [funcPayload, List.append_assoc]
    have := drop_take_middle
      ((fileLoop env { reloc with module := m1 } fn.File).module.pclntable ++ (os.sym.Name
        ++ ([ZERO_BYTE] ++ env.ReadAtWithSize os.file fn.PCSP.Size fn.PCSP.Offset)))
      (pcFileHead reloc.module.filetab.length)
      (env.ReadAtWithSize os.file fn.PCFile.Size fn.PCFile.Offset
        ++ (env.ReadAtWithSize os.file fn.PCLine.Size fn.PCLine.Offset
          ++ pcdataBytes env os.file fn.PCData))
    simp only [List.append_assoc, List.length_append, List.length_singleton] at this
    convert this using 3
    omega
  · rw [hp]
    simp only [funcPayload, List.append_assoc]
    have := drop_take_middle
      ((fileLoop env { reloc with module := m1 } fn.File).module.pclntable ++ (os.sym.Name
        ++ ([ZERO_BYTE] ++ (env.ReadAtWithSize os.file fn.PCSP.Size fn.PCSP.Offset
          ++ pcFileHead reloc.module.filetab.length))))
      (env.ReadAtWithSize os.file fn.PCFile.Size fn.PCFile.Offset)
      (env.ReadAtWithSize os.file fn.PCLine.Size fn.PCLine.Offset
          ++ pcdataBytes env os.file fn.PCData)
    simp only [List.append_assoc, List.length_append, List.length_singleton] at this
    convert this using 3
    omega
  · intro hF
    have h1 : reloc.module.filetab.length * 2 % 2 ^ 64 = 2 * reloc.module.filetab.length := by
      rw [Nat.mod_eq_of_lt (by omega)]; omega
    rw [pcFileHead, h1, PutUvarint, PutUvarintLoop_eq 9 _ (by norm_num; omega)]
  · intro hF
    have h1 : reloc.module.filetab.length * 2 % 2 ^ 64 = 2 * reloc.module.filetab.length := by
      rw [Nat.mod_eq_of_lt (by omega)]; omega
    have h2 : 2 * reloc.module.filetab.length < 128 := by omega
    rw [pcFileHead, h1, PutUvarint, PutUvarintLoop, if_pos h2]
    rfl
  · intro hlo hhi
    have h1 : reloc.module.filetab.length * 2 % 2 ^ 64 = 2 * reloc.module.filetab.length := by
      rw [Nat.mod_eq_of_lt (by omega)]; omega
    have h2 : ¬ 2 * reloc.module.filetab.length < 128 := by omega
    have h3 : 2 * reloc.module.filetab.length / 128 < 128 := by omega
    rw [pcFileHead, h1, PutUvarint, PutUvarintLoop, if_neg h2, PutUvarintLoop, if_pos h3]
    rfl
  · intro b hb
    exact PutUvarintLoop_dropLast 9 _ b hb

/-- C18, for the function "g" on the empty state, where `F = 0`. -/
theorem pcfile_head_bytes_witness :
    ∃ r1 err fd, ∃ pcfileOff : Nat,
      readFuncData sampleEnv CodeReloc.empty [103] sampleCatalog ((0 : Nat) : Int) = some (r1, err)
      ∧ r1.module.funcdata = CodeReloc.empty.module.funcdata ++ [fd]
      ∧ fd.func.pcfile = (pcfileOff : Int)
      ∧ (r1.module.pclntable.drop pcfileOff).take
            (pcFileHead CodeReloc.empty.module.filetab.length).length
          = pcFileHead CodeReloc.empty.module.filetab.length
      ∧ (r1.module.pclntable.drop
            (pcfileOff + (pcFileHead CodeReloc.empty.module.filetab.length).length)).take
            (sampleEnv.ReadAtWithSize (sampleSym [103] 16 [sampleFile] []).file 1 2).length
          = sampleEnv.ReadAtWithSize (sampleSym [103] 16 [sampleFile] []).file 1 2
      ∧ (CodeReloc.empty.module.filetab.length < 2 ^ 63 →
          pcFileHead CodeReloc.empty.module.filetab.length
            = (uvarintEncode (2 * CodeReloc.empty.module.filetab.length)).dropLast)
      ∧ (CodeReloc.empty.module.filetab.length < 64 →
          pcFileHead CodeReloc.empty.module.filetab.length = [])
      ∧ (64 ≤ CodeReloc.empty.module.filetab.length →
          CodeReloc.empty.module.filetab.length < 8192 →
          (pcFileHead CodeReloc.empty.module.filetab.length).length = 1)
      ∧ ∀ b ∈ pcFileHead CodeReloc.empty.module.filetab.length, b < 256 ∧ b / 128 % 2 = 1 :=
  pcfile_head_bytes sampleEnv (fun _ _ _ => ⟨rfl, rfl, rfl⟩) CodeReloc.empty [103] sampleCatalog
    0 (sampleSym [103] 16 [sampleFile] []) _ ⟨by decide, rfl⟩ (by intro d hd; cases hd)


/-! ### The file table -/

/-- One round of the file loop never changes an entry of `fileMap`. -/
theorem fileStep_fileMap_keeps (env : Env) (r : CodeReloc) (f n : GoString) (off : Int)
    (hn : r.fileMap n = some off) : (fileStep env r f).fileMap n = some off := by
  cases h : r.fileMap (TrimLeft f env.FILE_SYM_PREFIX) with
  | none =>
    rw [fileStep_miss env r f h]
    have hnt : n ≠ TrimLeft f env.FILE_SYM_PREFIX := by
      intro hc; rw [hc, h] at hn; exact absurd hn (by simp)
    simp only [StrMap.set, if_neg hnt]
    exact hn
  | some offset => rw [fileStep_hit env r f offset h]; exact hn

/-- The file loop never changes an entry of `fileMap`. -/
theorem fileLoop_fileMap_keeps (env : Env) (files : List GoString) (r : CodeReloc) (n : GoString)
    (off : Int) (hn : r.fileMap n = some off) : (fileLoop env r files).fileMap n = some off := by
  induction files generalizing r with
  | nil => exact hn
  | cons f fs ih =>
    simp only [fileLoop, List.foldl_cons]
    exact ih (fileStep env r f) (fileStep_fileMap_keeps env r f n off hn)

/-- One round of the file loop appends one entry to the file table, the
`uint32` of the offset that `fileMap` holds for the trimmed name afterwards,
and only appends to the pool. -/
theorem fileStep_entry (env : Env) (r : CodeReloc) (f : GoString) :
    ∃ (ext : List Nat) (off : Int),
      (fileStep env r f).module.pclntable = r.module.pclntable ++ ext
      ∧ (fileStep env r f).module.filetab = r.module.filetab ++ [(off % 2 ^ 32).toNat]
      ∧ (fileStep env r f).fileMap (TrimLeft f env.FILE_SYM_PREFIX) = some off := by
  cases h : r.fileMap (TrimLeft f env.FILE_SYM_PREFIX) with
  | none =>
    rw [fileStep_miss env r f h]
    refine ⟨TrimLeft f env.FILE_SYM_PREFIX ++ [ZERO_BYTE], (r.module.pclntable.length : Int), ?_, ?_, ?_⟩
    · simp
    · simp only []
      congr 2
    · simp [StrMap.set]
  | some offset =>
    rw [fileStep_hit env r f offset h]
    exact ⟨[], offset, by simp, rfl, h⟩

/-- The file loop appends one entry per declared file to the file table, in
the order of the declaration: entry `k` is the `uint32` of the offset that
`fileMap` holds for the trimmed name of file `k` after the loop. The pool is
only appended to. -/
theorem fileLoop_entries (env : Env) (files : List GoString) (r : CodeReloc) :
    ∃ ext entries : List Nat,
      (fileLoop env r files).module.pclntable = r.module.pclntable ++ ext
      ∧ (fileLoop env r files).module.filetab = r.module.filetab ++ entries
      ∧ entries.length = files.length
      ∧ ∀ (k : Nat) (f : GoString), files[k]? = some f →
          ∃ off : Int, (fileLoop env r files).fileMap (TrimLeft f env.FILE_SYM_PREFIX) = some off
            ∧ entries[k]? = some (off % 2 ^ 32).toNat := by
  induction files generalizing r with
  | nil => exact ⟨[], [], by simp [fileLoop], by simp [fileLoop], rfl, by simp⟩
  | cons f fs ih =>
    obtain ⟨ext0, off0, hp0, hf0, hm0⟩ := fileStep_entry env r f
    obtain ⟨ext1, entries1, hp1, hf1, hl1, hk1⟩ := ih (fileStep env r f)
    simp only [fileLoop, List.foldl_cons] at hp1 hf1 hk1 ⊢
    refine ⟨ext0 ++ ext1, (off0 % 2 ^ 32).toNat :: entries1, ?_, ?_, ?_, ?_⟩
    · rw [hp1, hp0, List.append_assoc]
    · rw [hf1, hf0, List.append_assoc]; rfl
    · simp [hl1]
    · intro k f1 hk
      cases k with
      | zero =>
        simp only [List.getElem?_cons_zero, Option.some.injEq] at hk
        subst hk
        exact ⟨off0, fileLoop_fileMap_keeps env fs _ _ off0 hm0, by simp⟩
      | succ k =>
        simp only [List.getElem?_cons_succ] at hk
        obtain ⟨off, ho, he⟩ := hk1 k f1 hk
        exact ⟨off, ho, by simpa using he⟩


/-- The file table after a call: the old entries, then one entry per declared
file in the order of the declaration, each the `uint32` of the offset that
`fileMap` holds for the trimmed name after the call; the pool is only appended
to, by at least the name and its NUL byte; entries of `fileMap` are kept. -/
theorem readFuncData_filetab (env : Env) (hframe : RelocSymFrame env) (reloc : CodeReloc)
    (symName : GoString) (objSymMap : StrMap objSym) (n : Nat) (os : objSym) (fn : Func)
    (hf : IsFunc objSymMap symName os fn) (hs : StkobjKnown env objSymMap fn.FuncData) :
    ∃ r1 err, ∃ ext entries : List Nat,
      readFuncData env reloc symName objSymMap (n : Int) = some (r1, err)
      ∧ r1.module.pclntable = reloc.module.pclntable ++ ext
      ∧ os.sym.Name.length + 1 ≤ ext.length
      ∧ r1.module.filetab = reloc.module.filetab ++ entries
      ∧ entries.length = fn.File.length
      ∧ (∀ (k : Nat) (f : GoString), fn.File[k]? = some f →
          ∃ off : Int, r1.fileMap (TrimLeft f env.FILE_SYM_PREFIX) = some off
            ∧ entries[k]? = some (off % 2 ^ 32).toNat)
      ∧ ∀ (name : GoString) (off : Int), reloc.fileMap name = some off →
          r1.fileMap name = some off := by
  obtain ⟨r1, m1, g, hr, hm1, -, -, hp, hft, hfm, -⟩ :=
    readFuncData_full env hframe reloc symName objSymMap n os fn hf hs
  obtain ⟨hmp, -, hmf⟩ := updateIndex_fields reloc.module m1 n hm1
  obtain ⟨ext, entries, hp1, hf1, hl, hk⟩ := fileLoop_entries env fn.File { reloc with module := m1 }
  simp only [hmp, hmf] at hp1 hf1
  refine ⟨r1, g.err, ext ++ funcPayload env os fn reloc.module.filetab.length, entries, hr, ?_, ?_,
    ?_, hl, ?_, ?_⟩
  · rw [hp, hp1, List.append_assoc]
  · simp only [funcPayload, List.length_append, List.length_singleton]
    omega
  · rw [hft, hf1]
  · intro k f hkf
    rw [hfm]
    exact hk k f hkf
  · intro name off hn
    rw [hfm]
    exact fileLoop_fileMap_keeps env fn.File { reloc with module := m1 } name off hn

/-! ### C15 -/

/-- C15. Every call for a function of the catalog returns with exactly one
record appended to `module.funcdata` (the earlier records unchanged), with
`pclntable` extended by at least the name and its NUL byte, `filetab` extended
by one entry per declared file and `pcfunc` covering bucket `codeLen / 4096`.
The returned error is not nil exactly when an auxiliary symbol is unknown, so
all this also holds for the calls that return the error: the error does not
undo the extension of the tables. -/
theorem one_record_per_call (env : Env) (hframe : RelocSymFrame env) (reloc : CodeReloc)
    (symName : GoString) (objSymMap : StrMap objSym) (codeLen : Nat) (os : objSym) (fn : Func)
    (hf : IsFunc objSymMap symName os fn) (hs : StkobjKnown env objSymMap fn.FuncData) :
    ∃ r1 err fd, ∃ ext entries : List Nat,
      readFuncData env reloc symName objSymMap (codeLen : Int) = some (r1, err)
      ∧ r1.module.funcdata = reloc.module.funcdata ++ [fd]
      ∧ r1.module.funcdata.length = reloc.module.funcdata.length + 1
      ∧ r1.module.pclntable = reloc.module.pclntable ++ ext
      ∧ os.sym.Name.length + 1 ≤ ext.length
      ∧ r1.module.filetab = reloc.module.filetab ++ entries
      ∧ entries.length = fn.File.length
      ∧ reloc.module.pcfunc.length ≤ r1.module.pcfunc.length
      ∧ codeLen / 4096 < r1.module.pcfunc.length
      ∧ (err ≠ none ↔ ∃ d ∈ fn.FuncData,
            d.Sym.Name ≠ [] ∧ reloc.stkmaps d.Sym.Name = none ∧ objSymMap d.Sym.Name = none) := by
  obtain ⟨r1, m1, g, hr, hm1, hg, hfd, -, -, -, hpc⟩ :=
    readFuncData_full env hframe reloc symName objSymMap codeLen os fn hf hs
  obtain ⟨r2, err2, ext, entries, hr2, hp, hext, hft, hl, -, -⟩ :=
    readFuncData_filetab env hframe reloc symName objSymMap codeLen os fn hf hs
  rw [hr] at hr2
  simp only [Option.some.injEq, Prod.mk.injEq] at hr2
  obtain ⟨hr12, -⟩ := hr2
  subst hr12
  obtain ⟨bucket, -, hm1b⟩ := updateIndex_ofNat reloc.module codeLen
  rw [hm1] at hm1b
  simp only [Option.some.injEq] at hm1b
  have hlen : r1.module.pcfunc.length
      = reloc.module.pcfunc.length + (codeLen / 4096 + 1 - reloc.module.pcfunc.length) := by
    rw [hpc, hm1b]
    simp only [List.length_set, growPcfunc_length]
  have herr := gcLoop_err env objSymMap fn.FuncData _ g hg
  simp only [ne_eq, not_true_eq_false, false_or] at herr
  refine ⟨r1, g.err, _, ext, entries, hr, hfd, ?_, hp, hext, hft, hl, ?_, ?_, herr⟩
  · rw [hfd]; simp
  · omega
  · omega

/-- C15, for the function "u", whose auxiliary symbol "y" is unknown: the
call returns the error and the tables are extended all the same. -/
theorem one_record_per_call_witness :
    ∃ r1 err fd, ∃ ext entries : List Nat,
      readFuncData sampleEnv CodeReloc.empty [117] sampleCatalog ((0 : Nat) : Int) = some (r1, err)
      ∧ r1.module.funcdata = CodeReloc.empty.module.funcdata ++ [fd]
      ∧ r1.module.funcdata.length = CodeReloc.empty.module.funcdata.length + 1
      ∧ r1.module.pclntable = CodeReloc.empty.module.pclntable ++ ext
      ∧ (sampleSym [117] 16 [] [{ Sym := { Name := [121] }, Offset := 0 }]).sym.Name.length + 1
          ≤ ext.length
      ∧ r1.module.filetab = CodeReloc.empty.module.filetab ++ entries
      ∧ entries.length = ([] : List GoString).length
      ∧ CodeReloc.empty.module.pcfunc.length ≤ r1.module.pcfunc.length
      ∧ 0 / 4096 < r1.module.pcfunc.length
      ∧ (err ≠ none ↔ ∃ d ∈ ([{ Sym := { Name := [121] }, Offset := 0 }] : List FuncDataRef),
            d.Sym.Name ≠ [] ∧ CodeReloc.empty.stkmaps d.Sym.Name = none
              ∧ sampleCatalog d.Sym.Name = none) :=
  one_record_per_call sampleEnv (fun _ _ _ => ⟨rfl, rfl, rfl⟩) CodeReloc.empty [117] sampleCatalog 0
    (sampleSym [117] 16 [] [{ Sym := { Name := [121] }, Offset := 0 }]) _ ⟨by decide, rfl⟩
    (by intro d hd hc; simp at hd; subst hd; exact absurd hc (by decide))


/-! ### C16 -/

/-- A sequence of calls for functions that all declare the one file `file`,
from any state: the file table gets one entry per call, all of them the
`uint32` of the offset of the trimmed name in `fileMap`. -/
theorem readFuncDataSeq_filetab (env : Env) (hframe : RelocSymFrame env)
    (objSymMap : StrMap objSym) (file : GoString) (calls : List (GoString × Nat)) (r : CodeReloc)
    (hcalls : ∀ c ∈ calls, ∃ os fn,
      IsFunc objSymMap c.1 os fn ∧ fn.File = [file] ∧ StkobjKnown env objSymMap fn.FuncData) :
    ∃ r1, ∃ entries : List Nat,
      readFuncDataSeq env objSymMap (toCalls calls) r = some r1
      ∧ r1.module.filetab = r.module.filetab ++ entries
      ∧ entries.length = calls.length
      ∧ (∀ e ∈ entries, ∃ off : Int,
          r1.fileMap (TrimLeft file env.FILE_SYM_PREFIX) = some off ∧ e = (off % 2 ^ 32).toNat)
      ∧ ∀ (name : GoString) (off : Int), r.fileMap name = some off → r1.fileMap name = some off := by
  induction calls generalizing r with
  | nil => exact ⟨r, [], rfl, by simp, rfl, by simp, fun _ _ h => h⟩
  | cons c rest ih =>
    obtain ⟨os, fn, hf, hfile, hs⟩ := hcalls c (List.mem_cons_self _ _)
    obtain ⟨r1, err, ext, entries0, hr, -, -, hft, hl, hk, hkeep⟩ :=
      readFuncData_filetab env hframe r c.1 objSymMap c.2 os fn hf hs
    obtain ⟨r2, entries1, hseq, hft2, hl2, he2, hkeep2⟩ :=
      ih r1 (fun x hx => hcalls x (List.mem_cons_of_mem _ hx))
    obtain ⟨off0, ho0, he0⟩ := hk 0 file (by rw [hfile]; rfl)
    have hent : entries0 = [(off0 % 2 ^ 32).toNat] := by
      rw [hfile] at hl
      cases entries0 with
      | nil => simp at hl
      | cons a t =>
        cases t with
        | nil => simp only [List.getElem?_cons_zero, Option.some.injEq] at he0; rw [he0]
        | cons b t2 => simp at hl
    refine ⟨r2, entries0 ++ entries1, ?_, ?_, ?_, ?_, ?_⟩
    · simp only [toCalls, List.map_cons, readFuncDataSeq, hr]
      exact hseq
    · rw [hft2, hft, List.append_assoc]
    · rw [List.length_append, hl2, hent]
      simp only [List.length_cons, List.length_nil]
      omega
    · intro e he
      rcases List.mem_append.mp he with h0 | h1
      · rw [hent] at h0
        simp only [List.mem_singleton] at h0
        exact ⟨off0, hkeep2 _ off0 ho0, h0⟩
      · exact he2 e h1
    · intro name off hn
      exact hkeep2 name off (hkeep name off hn)

/-- C16. A call for a function of the catalog returns with `filetab` equal to
the old entries followed by exactly `len(symbol.Func.File)` new ones, entry `k`
being the `uint32` of the offset of the trimmed name of declared file `k`,
whether or not that name was in `fileMap` before. Hence `N` calls for functions
that each declare the same single file append `N` entries, all equal. -/
theorem filetab_not_deduplicated (env : Env) (hframe : RelocSymFrame env) (reloc : CodeReloc)
    (symName : GoString) (objSymMap : StrMap objSym) (codeLen : Nat) (os : objSym) (fn : Func)
    (hf : IsFunc objSymMap symName os fn) (hs : StkobjKnown env objSymMap fn.FuncData) :
    (∃ r1 err, ∃ entries : List Nat,
      readFuncData env reloc symName objSymMap (codeLen : Int) = some (r1, err)
      ∧ r1.module.filetab = reloc.module.filetab ++ entries
      ∧ entries.length = fn.File.length
      ∧ ∀ (k : Nat) (f : GoString), fn.File[k]? = some f →
          ∃ off : Int, r1.fileMap (TrimLeft f env.FILE_SYM_PREFIX) = some off
            ∧ entries[k]? = some (off % 2 ^ 32).toNat)
    ∧ ∀ (file : GoString) (calls : List (GoString × Nat)) (r0 : CodeReloc),
        (∀ c ∈ calls, ∃ os fn,
          IsFunc objSymMap c.1 os fn ∧ fn.File = [file] ∧ StkobjKnown env objSymMap fn.FuncData) →
        ∃ r1 v, readFuncDataSeq env objSymMap (toCalls calls) r0 = some r1
          ∧ r1.module.filetab = r0.module.filetab ++ List.replicate calls.length v := by
  constructor
  · obtain ⟨r1, err, -, entries, hr, -, -, hft, hl, hk, -⟩ :=
      readFuncData_filetab env hframe reloc symName objSymMap codeLen os fn hf hs
    exact ⟨r1, err, entries, hr, hft, hl, hk⟩
  · intro file calls r0 hcalls
    obtain ⟨r1, entries, hseq, hft, hl, he, -⟩ :=
      readFuncDataSeq_filetab env hframe objSymMap file calls r0 hcalls
    cases hm : r1.fileMap (TrimLeft file env.FILE_SYM_PREFIX) with
    | none =>
      have hnil : entries = [] := by
        cases entries with
        | nil => rfl
        | cons a t =>
          obtain ⟨off, ho, -⟩ := he a (List.mem_cons_self _ _)
          rw [hm] at ho
          exact absurd ho (by simp)
      refine ⟨r1, 0, hseq, ?_⟩
      rw [hft, hnil, ← hl, hnil]
      rfl
    | some off =>
      refine ⟨r1, (off % 2 ^ 32).toNat, hseq, ?_⟩
      rw [hft]
      congr 1
      rw [List.eq_replicate_iff]
      refine ⟨hl, ?_⟩
      intro e hemem
      obtain ⟨off1, ho1, he1⟩ := he e hemem
      rw [hm] at ho1
      simp only [Option.some.injEq] at ho1
      rw [he1, ho1]

/-- C16, for the function "g", which declares one file, on the empty state. -/
theorem filetab_not_deduplicated_witness :
    (∃ r1 err, ∃ entries : List Nat,
      readFuncData sampleEnv CodeReloc.empty [103] sampleCatalog ((0 : Nat) : Int) = some (r1, err)
      ∧ r1.module.filetab = CodeReloc.empty.module.filetab ++ entries
      ∧ entries.length = [sampleFile].length
      ∧ ∀ (k : Nat) (f : GoString), [sampleFile][k]? = some f →
          ∃ off : Int, r1.fileMap (TrimLeft f sampleEnv.FILE_SYM_PREFIX) = some off
            ∧ entries[k]? = some (off % 2 ^ 32).toNat)
    ∧ ∀ (file : GoString) (calls : List (GoString × Nat)) (r0 : CodeReloc),
        (∀ c ∈ calls, ∃ os fn,
          IsFunc sampleCatalog c.1 os fn ∧ fn.File = [file]
            ∧ StkobjKnown sampleEnv sampleCatalog fn.FuncData) →
        ∃ r1 v, readFuncDataSeq sampleEnv sampleCatalog (toCalls calls) r0 = some r1
          ∧ r1.module.filetab = r0.module.filetab ++ List.replicate calls.length v :=
  filetab_not_deduplicated sampleEnv (fun _ _ _ => ⟨rfl, rfl, rfl⟩) CodeReloc.empty [103]
    sampleCatalog 0 (sampleSym [103] 16 [sampleFile] []) _ ⟨by decide, rfl⟩
    (by intro d hd; cases hd)


/-! ### The events of the file loop -/

/-- The trim of line 125 removes exactly the prefix when the rest of the name
does not begin with a byte of the prefix. -/
theorem TrimLeft_exact (cutset rest : GoString)
    (h : ∀ c, rest.head? = some c → c ∉ cutset) : TrimLeft (cutset ++ rest) cutset = rest := by
  have hrest : TrimLeft rest cutset = rest := by
    cases rest with
    | nil => rfl
    | cons c t =>
      have hc : c ∉ cutset := h c rfl
      simp [TrimLeft, List.dropWhile, hc]
  have hpre : ∀ pre : GoString, (∀ x ∈ pre, x ∈ cutset) →
      TrimLeft (pre ++ rest) cutset = TrimLeft rest cutset := by
    intro pre
    induction pre with
    | nil => intro _; rfl
    | cons x xs ih =>
      intro hx
      have hx0 : x ∈ cutset := hx x (List.mem_cons_self _ _)
      have := ih (fun y hy => hx y (List.mem_cons_of_mem _ hy))
      simp only [TrimLeft] at this ⊢
      simp [List.dropWhile, hx0, this]
  rw [hpre cutset (fun x hx => hx), hrest]

theorem fileStepEvent_miss (env : Env) (r : CodeReloc) (f : GoString)
    (h : r.fileMap (TrimLeft f env.FILE_SYM_PREFIX) = none) :
    fileStepEvent env r f =
      { name := TrimLeft f env.FILE_SYM_PREFIX, entry := r.module.pclntable.length % 2 ^ 32,
        appended := true, poolLen := r.module.pclntable.length } := by
  simp only [fileStepEvent, h]

theorem fileStepEvent_hit (env : Env) (r : CodeReloc) (f : GoString) (offset : Int)
    (h : r.fileMap (TrimLeft f env.FILE_SYM_PREFIX) = some offset) :
    fileStepEvent env r f =
      { name := TrimLeft f env.FILE_SYM_PREFIX, entry := (offset % 2 ^ 32).toNat,
        appended := false, poolLen := r.module.pclntable.length } := by
  simp only [fileStepEvent, h]

/-- The name of the event of a round is the trimmed file name. -/
theorem fileStepEvent_name (env : Env) (r : CodeReloc) (f : GoString) :
    (fileStepEvent env r f).name = TrimLeft f env.FILE_SYM_PREFIX := by
  cases h : r.fileMap (TrimLeft f env.FILE_SYM_PREFIX) with
  | none => rw [fileStepEvent_miss env r f h]
  | some offset => rw [fileStepEvent_hit env r f offset h]

/-- The entry of the event of a round is the entry the round appends to the
file table. -/
theorem fileStep_filetab_event (env : Env) (r : CodeReloc) (f : GoString) :
    (fileStep env r f).module.filetab = r.module.filetab ++ [(fileStepEvent env r f).entry] := by
  cases h : r.fileMap (TrimLeft f env.FILE_SYM_PREFIX) with
  | none => rw [fileStep_miss env r f h, fileStepEvent_miss env r f h]
  | some offset => rw [fileStep_hit env r f offset h, fileStepEvent_hit env r f offset h]

/-- The entries of the events of the file loop are the entries the loop
appends to the file table. -/
theorem fileLoop_filetab_events (env : Env) (files : List GoString) (r : CodeReloc) :
    (fileLoop env r files).module.filetab
      = r.module.filetab ++ (fileLoopEvents env r files).map (fun e => e.entry) := by
  induction files generalizing r with
  | nil => simp [fileLoop, fileLoopEvents]
  | cons f fs ih =>
    have h := ih (fileStep env r f)
    simp only [fileLoop, List.foldl_cons] at h ⊢
    rw [h, fileStep_filetab_event, fileLoopEvents, List.map_cons, List.append_assoc]
    rfl

/-- Every declared file whose trimmed name is `t` yields an event of name
`t`. -/
theorem fileLoopEvents_mem (env : Env) (files : List GoString) (r : CodeReloc) (f : GoString)
    (hf : f ∈ files) :
    ∃ e ∈ fileLoopEvents env r files, e.name = TrimLeft f env.FILE_SYM_PREFIX := by
  induction files generalizing r with
  | nil => cases hf
  | cons f0 fs ih =>
    rcases List.mem_cons.mp hf with h0 | h1
    · subst h0
      exact ⟨_, List.mem_cons_self _ _, fileStepEvent_name env r f⟩
    · obtain ⟨e, he, hn⟩ := ih (fileStep env r f0) h1
      exact ⟨e, List.mem_cons_of_mem _ he, hn⟩

/-- A round for another name leaves a name out of `fileMap`. -/
theorem fileStep_fileMap_none (env : Env) (r : CodeReloc) (f t : GoString)
    (ht : r.fileMap t = none) (hne : TrimLeft f env.FILE_SYM_PREFIX ≠ t) :
    (fileStep env r f).fileMap t = none := by
  cases h : r.fileMap (TrimLeft f env.FILE_SYM_PREFIX) with
  | none =>
    rw [fileStep_miss env r f h]
    simp only [StrMap.set, if_neg (Ne.symm hne)]
    exact ht
  | some offset => rw [fileStep_hit env r f offset h]; exact ht

/-- When the name `t` is in `fileMap` at `off`, the file loop appends nothing
for it: every event of name `t` is a lookup hit with the entry `uint32(off)`. -/
theorem fileLoopEvents_hit (env : Env) (files : List GoString) (r : CodeReloc) (t : GoString)
    (off : Int) (ht : r.fileMap t = some off) :
    ∀ e ∈ fileLoopEvents env r files, e.name = t →
      e.appended = false ∧ e.entry = (off % 2 ^ 32).toNat := by
  induction files generalizing r with
  | nil => intro e he; cases he
  | cons f fs ih =>
    intro e he hn
    rw [fileLoopEvents] at he
    rcases List.mem_cons.mp he with h0 | h1
    · subst h0
      rw [fileStepEvent_name] at hn
      rw [← hn] at ht
      rw [fileStepEvent_hit env r f off ht]
      exact ⟨rfl, rfl⟩
    · exact ih (fileStep env r f) (fileStep_fileMap_keeps env r f t off ht) e h1 hn

/-- The `uint32` of a length, computed on `int` and on natural numbers. -/
theorem uint32_ofNat (n : Nat) : (((n : Int)) % 2 ^ 32).toNat = n % 2 ^ 32 := by
  have : ((n : Int) % 2 ^ 32) = ((n % 2 ^ 32 : Nat) : Int) := by push_cast; rfl
  rw [this, Int.toNat_ofNat]

/-- When the name `t` is not in `fileMap` and some declared file has the
trimmed name `t`, the file loop appends `t` and its NUL byte exactly once, at
the pool length `off` of that round; afterwards `fileMap` maps `t` to `off`,
the pool holds `t` and NUL at `off`, and every event of name `t` has the entry
`uint32(off)`. -/
theorem fileLoopEvents_miss (env : Env) (files : List GoString) (r : CodeReloc) (t f0 : GoString)
    (ht : r.fileMap t = none) (hf0 : f0 ∈ files) (hf0t : TrimLeft f0 env.FILE_SYM_PREFIX = t) :
    ∃ off : Nat,
      (fileLoopEvents env r files).filter (fun e => e.appended && decide (e.name = t))
        = [{ name := t, entry := off % 2 ^ 32, appended := true, poolLen := off }]
      ∧ (fileLoop env r files).fileMap t = some (off : Int)
      ∧ (∀ e ∈ fileLoopEvents env r files, e.name = t → e.entry = off % 2 ^ 32)
      ∧ ((fileLoop env r files).module.pclntable.drop off).take (t.length + 1) = t ++ [ZERO_BYTE] := by
  induction files generalizing r with
  | nil => cases hf0
  | cons f fs ih =>
    by_cases hft : TrimLeft f env.FILE_SYM_PREFIX = t
    · have hmiss : r.fileMap (TrimLeft f env.FILE_SYM_PREFIX) = none := by rw [hft]; exact ht
      have hev := fileStepEvent_miss env r f hmiss
      have hst := fileStep_miss env r f hmiss
      have hmap : (fileStep env r f).fileMap t = some (r.module.pclntable.length : Int) := by
        rw [hst, ← hft]; simp [StrMap.set]
      have hhit := fileLoopEvents_hit env fs (fileStep env r f) t _ hmap
      obtain ⟨ext, -, hpool, -, -, -⟩ := fileLoop_entries env fs (fileStep env r f)
      refine ⟨r.module.pclntable.length, ?_, ?_, ?_, ?_⟩
      · rw [fileLoopEvents, hev, hft, List.filter_cons]
        simp only [Bool.true_and, decide_True, if_true]
        congr 1
        rw [List.filter_eq_nil_iff]
        intro e he
        by_cases hn : e.name = t
        · simp [(hhit e he hn).1]
        · simp [hn]
      · simp only [fileLoop, List.foldl_cons]
        exact fileLoop_fileMap_keeps env fs (fileStep env r f) t _ hmap
      · intro e he hn
        rw [fileLoopEvents] at he
        rcases List.mem_cons.mp he with h0 | h1
        · rw [h0, hev]
        · rw [(hhit e h1 hn).2, uint32_ofNat]
      · simp only [fileLoop, List.foldl_cons]
        simp only [fileLoop] at hpool
        rw [hpool, hst]
        simp only [hft, List.append_assoc]
        rw [List.drop_left]
        have : (t ++ ([ZERO_BYTE] ++ ext)) = (t ++ [ZERO_BYTE]) ++ ext := by simp
        rw [this, List.take_append_of_le_length (by simp), List.take_of_length_le (by simp)]
    · have hf0fs : f0 ∈ fs := by
        rcases List.mem_cons.mp hf0 with h0 | h1
        · exact absurd (h0 ▸ hf0t) hft
        · exact h1
      obtain ⟨off, hfil, hmap, hent, hpool⟩ :=
        ih (fileStep env r f) (fileStep_fileMap_none env r f t ht hft) hf0fs
      refine ⟨off, ?_, ?_, ?_, ?_⟩
      · rw [fileLoopEvents, List.filter_cons]
        have hn : (fileStepEvent env r f).name ≠ t := by rw [fileStepEvent_name]; exact hft
        simp only [hn, decide_False, Bool.and_false, Bool.false_eq_true, if_false]
        exact hfil
      · simp only [fileLoop, List.foldl_cons]
        exact hmap
      · intro e he hn
        rw [fileLoopEvents] at he
        rcases List.mem_cons.mp he with h0 | h1
        · rw [h0, fileStepEvent_name] at hn
          exact absurd hn hft
        · exact hent e h1 hn
      · simp only [fileLoop, List.foldl_cons]
        exact hpool


/-! ### C6 -/

/-- A call for a function of the catalog returns; its events are those of the
file loop on the state after the index update, and the file table, `fileMap`
and the pool after the call are those after the file loop, the pool with a
payload appended. -/
theorem readFuncData_events (env : Env) (hframe : RelocSymFrame env) (reloc : CodeReloc)
    (symName : GoString) (objSymMap : StrMap objSym) (n : Nat) (os : objSym) (fn : Func)
    (hf : IsFunc objSymMap symName os fn) (hs : StkobjKnown env objSymMap fn.FuncData) :
    ∃ r1 err m1,
      readFuncData env reloc symName objSymMap (n : Int) = some (r1, err)
      ∧ callEvents env reloc symName objSymMap (n : Int)
          = fileLoopEvents env { reloc with module := m1 } fn.File
      ∧ m1.pclntable = reloc.module.pclntable ∧ m1.filetab = reloc.module.filetab
      ∧ r1.module.filetab = (fileLoop env { reloc with module := m1 } fn.File).module.filetab
      ∧ r1.fileMap = (fileLoop env { reloc with module := m1 } fn.File).fileMap
      ∧ ∃ ext, r1.module.pclntable
          = (fileLoop env { reloc with module := m1 } fn.File).module.pclntable ++ ext := by
  obtain ⟨r1, m1, g, hr, hm1, -, -, hp, hft, hfm, -⟩ :=
    readFuncData_full env hframe reloc symName objSymMap n os fn hf hs
  obtain ⟨hmp, -, hmf⟩ := updateIndex_fields reloc.module m1 n hm1
  refine ⟨r1, g.err, m1, hr, ?_, hmp, hmf, hft, hfm, _, hp⟩
  simp only [callEvents, hm1, hf.1, hf.2]

/-- A sequence of calls for functions that all declare a file of trimmed name
`t`, from a state in which `t` is in `fileMap` at `off`: all calls return, the
file table grows by the entries of the events, no event appends `t` again,
every event of name `t` has the entry `uint32(off)`, every call yields such an
event, and the pool is only appended to. -/
theorem readFuncDataSeq_events_hit (env : Env) (hframe : RelocSymFrame env)
    (objSymMap : StrMap objSym) (t : GoString) (off : Int) (calls : List (GoString × Nat))
    (r : CodeReloc) (ht : r.fileMap t = some off)
    (hcalls : ∀ c ∈ calls, ∃ os fn f,
      IsFunc objSymMap c.1 os fn ∧ f ∈ fn.File ∧ TrimLeft f env.FILE_SYM_PREFIX = t
        ∧ StkobjKnown env objSymMap fn.FuncData) :
    ∃ r1 ext,
      readFuncDataSeq env objSymMap (toCalls calls) r = some r1
      ∧ r1.module.filetab
          = r.module.filetab ++ (seqEvents env objSymMap (toCalls calls) r).map (fun e => e.entry)
      ∧ (∀ e ∈ seqEvents env objSymMap (toCalls calls) r, e.name = t →
          e.appended = false ∧ e.entry = (off % 2 ^ 32).toNat)
      ∧ calls.length
          ≤ ((seqEvents env objSymMap (toCalls calls) r).filter (fun e => decide (e.name = t))).length
      ∧ r1.fileMap t = some off
      ∧ r1.module.pclntable = r.module.pclntable ++ ext := by
  induction calls generalizing r with
  | nil =>
    exact ⟨r, [], rfl, by simp [toCalls, seqEvents], by simp [toCalls, seqEvents],
      by simp, ht, by simp⟩
  | cons c rest ih =>
    obtain ⟨os, fn, f, hf, hfmem, hft, hs⟩ := hcalls c (List.mem_cons_self _ _)
    obtain ⟨r1, err, m1, hr, hev, hmp, hmf, hftab, hfm, ext1, hp⟩ :=
      readFuncData_events env hframe r c.1 objSymMap c.2 os fn hf hs
    have ht1 : ({ r with module := m1 } : CodeReloc).fileMap t = some off := ht
    have hhit := fileLoopEvents_hit env fn.File { r with module := m1 } t off ht1
    have hlink := fileLoop_filetab_events env fn.File { r with module := m1 }
    obtain ⟨ext0, -, hpool0, -, -, -⟩ := fileLoop_entries env fn.File { r with module := m1 }
    obtain ⟨e0, he0, hn0⟩ := fileLoopEvents_mem env fn.File { r with module := m1 } f hfmem
    have hmap1 : r1.fileMap t = some off := by
      rw [hfm]; exact fileLoop_fileMap_keeps env fn.File _ t off ht1
    obtain ⟨r2, ext2, hseq, hft2, hhit2, hcnt2, hmap2, hp2⟩ :=
      ih r1 hmap1 (fun x hx => hcalls x (List.mem_cons_of_mem _ hx))
    have hsev : seqEvents env objSymMap (toCalls (c :: rest)) r
        = fileLoopEvents env { r with module := m1 } fn.File
          ++ seqEvents env objSymMap (toCalls rest) r1 := by
      simp only [toCalls, List.map_cons, seqEvents, hr, hev]
    refine ⟨r2, ext0 ++ ext1 ++ ext2, ?_, ?_, ?_, ?_, hmap2, ?_⟩
    · simp only [toCalls, List.map_cons, readFuncDataSeq, hr]
      exact hseq
    · rw [hsev, hft2, hftab, hlink, List.map_append, List.append_assoc]
      simp only [hmf]
    · intro e he hn
      rw [hsev] at he
      rcases List.mem_append.mp he with h0 | h1
      · exact hhit e h0 hn
      · exact hhit2 e h1 hn
    · rw [hsev, List.filter_append, List.length_append, List.length_cons]
      have h1 : 0 < ((fileLoopEvents env { r with module := m1 } fn.File).filter
          (fun e => decide (e.name = t))).length := by
        apply List.length_pos_of_mem (a := e0)
        rw [List.mem_filter]
        exact ⟨he0, by simp [hn0, hft]⟩
      omega
    · rw [hp2, hp, hpool0]
      simp only [hmp, List.append_assoc]


/-- The pool after a round of the file loop: the bytes of the event are
appended. -/
theorem fileStep_pool_event (env : Env) (r : CodeReloc) (f : GoString) :
    (fileStep env r f).module.pclntable
      = r.module.pclntable ++ eventBytes (fileStepEvent env r f) := by
  cases h : r.fileMap (TrimLeft f env.FILE_SYM_PREFIX) with
  | none =>
    rw [fileStep_miss env r f h, fileStepEvent_miss env r f h]
    simp [eventBytes]
  | some offset =>
    rw [fileStep_hit env r f offset h, fileStepEvent_hit env r f offset h]
    simp [eventBytes]

/-- The pool after the file loop: the bytes of the events are appended, in
order. -/
theorem fileLoop_pool_events (env : Env) (files : List GoString) (r : CodeReloc) :
    (fileLoop env r files).module.pclntable
      = r.module.pclntable ++ ((fileLoopEvents env r files).map eventBytes).flatten := by
  induction files generalizing r with
  | nil => simp [fileLoop, fileLoopEvents]
  | cons f fs ih =>
    have h := ih (fileStep env r f)
    simp only [fileLoop, List.foldl_cons] at h ⊢
    rw [h, fileStep_pool_event, fileLoopEvents, List.map_cons, List.flatten_cons,
      List.append_assoc]

/-- The pool after a sequence of calls for functions of the catalog: the
bytes of the events of the file loops and the payloads of the functions are
appended, call by call, and nothing else. -/
theorem readFuncDataSeq_pool (env : Env) (hframe : RelocSymFrame env)
    (objSymMap : StrMap objSym) (calls : List (GoString × Nat)) (r : CodeReloc)
    (hcalls : ∀ c ∈ calls, ∃ os fn,
      IsFunc objSymMap c.1 os fn ∧ StkobjKnown env objSymMap fn.FuncData) :
    ∃ r1, readFuncDataSeq env objSymMap (toCalls calls) r = some r1
      ∧ r1.module.pclntable
          = r.module.pclntable ++ seqPoolBytes env objSymMap (toCalls calls) r := by
  induction calls generalizing r with
  | nil => exact ⟨r, rfl, by simp [toCalls, seqPoolBytes]⟩
  | cons c rest ih =>
    obtain ⟨os, fn, hf, hs⟩ := hcalls c (List.mem_cons_self _ _)
    obtain ⟨r1, m1, g, hr, hm1, -, -, hp, -, -, -⟩ :=
      readFuncData_full env hframe r c.1 objSymMap c.2 os fn hf hs
    obtain ⟨hmp, -, -⟩ := updateIndex_fields r.module m1 c.2 hm1
    have hev : callEvents env r c.1 objSymMap (c.2 : Int)
        = fileLoopEvents env { r with module := m1 } fn.File := by
      simp only [callEvents, hm1, hf.1, hf.2]
    have hpool := fileLoop_pool_events env fn.File { r with module := m1 }
    obtain ⟨r2, hseq, hp2⟩ := ih r1 (fun x hx => hcalls x (List.mem_cons_of_mem _ hx))
    refine ⟨r2, ?_, ?_⟩
    · simp only [toCalls, List.map_cons, readFuncDataSeq, hr]
      exact hseq
    · rw [hp2, hp, hpool]
      simp only [toCalls, List.map_cons, seqPoolBytes, hr, hf.1, hf.2, hev, hmp,
        List.append_assoc]

/-- C6, the claim as stated fails: the function "k" declares the file
"gofile..file.go" and the cutset of line 125 is "gofile..". The trim removes
every leading byte that occurs in the cutset, here the whole name: the pool
gets the NUL byte of the empty name at offset 0 and then the payload of "k";
`fileMap` has the empty name as key, and the bytes of the prefix-trimmed name
"file.go" are not appended at all. -/
theorem trimmed_name_not_pooled :
    sampleCatalog2 [107] = some (sampleSym [107] 16 [sampleFileGo] [])
    ∧ sampleFileGo = sampleEnv.FILE_SYM_PREFIX ++ [102, 105, 108, 101, 46, 103, 111]
    ∧ (readFuncData sampleEnv CodeReloc.empty [107] sampleCatalog2 0).map
        (fun p => (p.1.module.pclntable, p.1.module.filetab, p.1.fileMap [],
          p.1.fileMap [102, 105, 108, 101, 46, 103, 111]))
      = some ([0, 107, 0, 0, 0, 0, 0], [0], some 0, none) := by
  refine ⟨by decide, by decide, by decide⟩

/-- C6, amended. The file name is `FILE_SYM_PREFIX ++ rest` with a `rest` that
does not begin with a byte of `FILE_SYM_PREFIX`, so that the trim of line 125
removes exactly the prefix. From a state with the empty module and the empty
`fileMap`, for a relocation that leaves the tables alone, `readFuncData` runs
for `N >= 1` functions of the catalog that all declare this file, each among
any other files. All calls return; the file table is the list of the entries of
the events of the file loops and the pool is the bytes of these events and the
payloads of the functions, call by call; exactly one event appends `rest` and
its NUL byte to the pool, at the pool length `off` of that round, and the pool
after the calls holds `rest` and NUL at `off`; `fileMap` maps `rest` to `off`; every
function emits at least one entry for the name, and every entry emitted for it
is `uint32(off)`, which is `off` while the pool is shorter than `2^32`. -/
theorem file_name_pooled_once (env : Env) (hframe : RelocSymFrame env)
    (objSymMap : StrMap objSym) (rest : GoString) (calls : List (GoString × Nat))
    (r0 : CodeReloc) (hne : calls ≠ []) (hmod : r0.module = module.empty)
    (hfm : r0.fileMap = StrMap.empty)
    (hrest : ∀ c, rest.head? = some c → c ∉ env.FILE_SYM_PREFIX)
    (hcalls : ∀ c ∈ calls, ∃ os fn,
      IsFunc objSymMap c.1 os fn ∧ env.FILE_SYM_PREFIX ++ rest ∈ fn.File
        ∧ StkobjKnown env objSymMap fn.FuncData) :
    ∃ r1, ∃ off : Nat,
      readFuncDataSeq env objSymMap (toCalls calls) r0 = some r1
      ∧ r1.module.filetab = (seqEvents env objSymMap (toCalls calls) r0).map (fun e => e.entry)
      ∧ r1.module.pclntable = seqPoolBytes env objSymMap (toCalls calls) r0
      ∧ (seqEvents env objSymMap (toCalls calls) r0).filter
            (fun e => e.appended && decide (e.name = rest))
          = [{ name := rest, entry := off % 2 ^ 32, appended := true, poolLen := off }]
      ∧ (r1.module.pclntable.drop off).take (rest.length + 1) = rest ++ [ZERO_BYTE]
      ∧ r1.fileMap rest = some (off : Int)
      ∧ calls.length
          ≤ ((seqEvents env objSymMap (toCalls calls) r0).filter
              (fun e => decide (e.name = rest))).length
      ∧ (∀ e ∈ seqEvents env objSymMap (toCalls calls) r0, e.name = rest →
          e.entry = off % 2 ^ 32)
      ∧ (r1.module.pclntable.length < 2 ^ 32 →
          ∀ e ∈ seqEvents env objSymMap (toCalls calls) r0, e.name = rest → e.entry = off) := by
  have htrim : TrimLeft (env.FILE_SYM_PREFIX ++ rest) env.FILE_SYM_PREFIX = rest :=
    TrimLeft_exact env.FILE_SYM_PREFIX rest hrest
  cases calls with
  | nil => exact absurd rfl hne
  | cons c cs =>
    obtain ⟨os, fn, hf, hfmem, hs⟩ := hcalls c (List.mem_cons_self _ _)
    obtain ⟨r1, err, m1, hr, hev, hmp, hmf, hftab, hfm1, ext1, hp⟩ :=
      readFuncData_events env hframe r0 c.1 objSymMap c.2 os fn hf hs
    have ht0 : ({ r0 with module := m1 } : CodeReloc).fileMap rest = none := by
      show r0.fileMap rest = none
      rw [hfm]; rfl
    obtain ⟨off, hfil, hmap, hent, hpool⟩ :=
      fileLoopEvents_miss env fn.File { r0 with module := m1 } rest _ ht0 hfmem htrim
    have hlink := fileLoop_filetab_events env fn.File { r0 with module := m1 }
    obtain ⟨e0, he0, hn0⟩ := fileLoopEvents_mem env fn.File { r0 with module := m1 } _ hfmem
    have hmap1 : r1.fileMap rest = some (off : Int) := by rw [hfm1]; exact hmap
    obtain ⟨r2, ext2, hseq, hft2, hhit2, hcnt2, hmap2, hp2⟩ :=
      readFuncDataSeq_events_hit env hframe objSymMap rest (off : Int) cs r1 hmap1
        (fun x hx => by
          obtain ⟨os1, fn1, h1, h2, h3⟩ := hcalls x (List.mem_cons_of_mem _ hx)
          exact ⟨os1, fn1, _, h1, h2, htrim, h3⟩)
    have hsev : seqEvents env objSymMap (toCalls (c :: cs)) r0
        = fileLoopEvents env { r0 with module := m1 } fn.File
          ++ seqEvents env objSymMap (toCalls cs) r1 := by
      simp only [toCalls, List.map_cons, seqEvents, hr, hev]
    have hentries : ∀ e ∈ seqEvents env objSymMap (toCalls (c :: cs)) r0, e.name = rest →
        e.entry = off % 2 ^ 32 := by
      intro e he hn
      rw [hsev] at he
      rcases List.mem_append.mp he with h0 | h1
      · exact hent e h0 hn
      · rw [(hhit2 e h1 hn).2, uint32_ofNat]
    have hslice : (r2.module.pclntable.drop off).take (rest.length + 1) = rest ++ [ZERO_BYTE] := by
      rw [hp2, hp, List.append_assoc,
        take_drop_append_left _ _ _ _ (fileInv_room _ _ _ hpool)]
      exact hpool
    have hf0 : r0.module.filetab = [] := by rw [hmod]; rfl
    have hp0 : r0.module.pclntable = [] := by rw [hmod]; rfl
    have hseq0 : readFuncDataSeq env objSymMap (toCalls (c :: cs)) r0 = some r2 := by
      simp only [toCalls, List.map_cons, readFuncDataSeq, hr]
      exact hseq
    obtain ⟨r3, hseq3, hpool3⟩ := readFuncDataSeq_pool env hframe objSymMap (c :: cs) r0
      (fun x hx => by
        obtain ⟨os1, fn1, h1, -, h3⟩ := hcalls x hx
        exact ⟨os1, fn1, h1, h3⟩)
    have hr23 : r3 = r2 := by
      rw [hseq0] at hseq3
      simpa using hseq3.symm
    subst hr23
    refine ⟨r3, off, hseq0, ?_, ?_, ?_, hslice, hmap2, ?_, hentries, ?_⟩
    · rw [hsev, hft2, hftab, hlink, List.map_append]
      simp only [hmf, hf0, List.nil_append]
    · rw [hpool3, hp0, List.nil_append]
    · rw [hsev, List.filter_append, hfil]
      have hnil : (seqEvents env objSymMap (toCalls cs) r1).filter
          (fun e => e.appended && decide (e.name = rest)) = [] := by
        rw [List.filter_eq_nil_iff]
        intro e he
        by_cases hn : e.name = rest
        · simp [(hhit2 e he hn).1]
        · simp [hn]
      rw [hnil]
      rfl
    · rw [hsev, List.filter_append, List.length_append, List.length_cons]
      have h1 : 0 < ((fileLoopEvents env { r0 with module := m1 } fn.File).filter
          (fun e => decide (e.name = rest))).length := by
        apply List.length_pos_of_mem (a := e0)
        rw [List.mem_filter]
        exact ⟨he0, by simp [hn0, htrim]⟩
      omega
    · intro hlen e he hn
      rw [hentries e he hn]
      have := fileInv_room _ _ _ hslice
      exact Nat.mod_eq_of_lt (by omega)

/-- C6 amended, for the functions "m" (files "gofile..b.go", "gofile..a.go")
and "n" (the same files in the other order) and the name "a.go": it is
pooled once, at offset 5, after "b.go" and its NUL byte. -/
theorem file_name_pooled_once_witness :
    ∃ r1, ∃ off : Nat,
      readFuncDataSeq sampleEnv sampleCatalog2 (toCalls [([109], 0), ([110], 16)])
        CodeReloc.empty = some r1
      ∧ r1.module.filetab
          = (seqEvents sampleEnv sampleCatalog2 (toCalls [([109], 0), ([110], 16)])
              CodeReloc.empty).map (fun e => e.entry)
      ∧ r1.module.pclntable
          = seqPoolBytes sampleEnv sampleCatalog2 (toCalls [([109], 0), ([110], 16)])
              CodeReloc.empty
      ∧ (seqEvents sampleEnv sampleCatalog2 (toCalls [([109], 0), ([110], 16)])
            CodeReloc.empty).filter
            (fun e => e.appended && decide (e.name = [97, 46, 103, 111]))
          = [{ name := [97, 46, 103, 111], entry := off % 2 ^ 32, appended := true,
               poolLen := off }]
      ∧ (r1.module.pclntable.drop off).take (([97, 46, 103, 111] : GoString).length + 1)
          = [97, 46, 103, 111] ++ [ZERO_BYTE]
      ∧ r1.fileMap [97, 46, 103, 111] = some (off : Int)
      ∧ [(([109], 0) : GoString × Nat), ([110], 16)].length
          ≤ ((seqEvents sampleEnv sampleCatalog2 (toCalls [([109], 0), ([110], 16)])
              CodeReloc.empty).filter
              (fun e => decide (e.name = [97, 46, 103, 111]))).length
      ∧ (∀ e ∈ seqEvents sampleEnv sampleCatalog2 (toCalls [([109], 0), ([110], 16)])
            CodeReloc.empty,
          e.name = [97, 46, 103, 111] → e.entry = off % 2 ^ 32)
      ∧ (r1.module.pclntable.length < 2 ^ 32 →
          ∀ e ∈ seqEvents sampleEnv sampleCatalog2 (toCalls [([109], 0), ([110], 16)])
            CodeReloc.empty,
          e.name = [97, 46, 103, 111] → e.entry = off) :=
  file_name_pooled_once sampleEnv (fun _ _ _ => ⟨rfl, rfl, rfl⟩) sampleCatalog2
    [97, 46, 103, 111] [([109], 0), ([110], 16)] CodeReloc.empty (by simp) rfl rfl
    (by intro c hc; simp at hc; subst hc; decide)
    (by
      intro c hc
      simp only [List.mem_cons, List.mem_singleton, List.not_mem_nil, or_false] at hc
      rcases hc with rfl | rfl
      · exact ⟨sampleSym [109] 16 [sampleFileB, sampleFile] [], _, ⟨by decide, rfl⟩, by decide,
          by intro d hd; cases hd⟩
      · exact ⟨sampleSym [110] 16 [sampleFile, sampleFileB] [], _, ⟨by decide, rfl⟩, by decide,
          by intro d hd; cases hd⟩)


end Goloader
